import Mathlib

/-!
# Menu-game refinement (storm/abstraction/MenuGameRefiner.cpp)

A shallow embedding of the refinement core of the game-based abstraction
refinement engine: predicate derivation from diverging choices, predicate
preprocessing, pivot-state selection and the refine entry points.

Decision diagrams are embedded by their meaning: a BDD over a set of meta
variables is the Boolean function it denotes on the joint valuations of those
variables, an ADD is the corresponding value-valued function.  The variable
sets that the C++ code passes around (row, column, player 1, player 2,
probabilistic branching) become the types of the valuations.
-/

namespace Storm

/-! ## Decision-diagram algebra -/

/-- Finite enumeration of the joint valuations of a set of DD meta variables,
in the order in which the diagram package enumerates them. -/
class Valuations (α : Type) where
  enum : List α
  complete : ∀ a : α, a ∈ enum

/-- All valuations of the meta variables whose joint valuations are `α`. -/
def allValuations (α : Type) [Valuations α] : List α := Valuations.enum

instance instValuationsProd {α β : Type} [Valuations α] [Valuations β] : Valuations (α × β) where
  enum := (allValuations α).flatMap (fun a => (allValuations β).map (fun b => (a, b)))
  complete := by
    intro p
    obtain ⟨a, b⟩ := p
    simp only [List.mem_flatMap, List.mem_map]
    exact ⟨a, Valuations.complete a, b, Valuations.complete b, rfl⟩

/-- Modelled from the spec: the class storm::dd::Bdd of the diagram algebra,
which is not among the sources; a BDD is given by the Boolean function it
denotes on the valuations of its meta variables. -/
abbrev Bdd (α : Type) := α → Bool

/-- Modelled from the spec: the class storm::dd::Add of the diagram algebra,
which is not among the sources; an ADD is given by the function it denotes. -/
abbrev Add (α V : Type) := α → V

/-- Modelled from the spec: DdManager::getBddZero, the constant-false BDD. -/
def Bdd.zero {α : Type} : Bdd α := fun _ => false

/-- Modelled from the spec: Bdd::operator&&, the conjunction (`and` of the spec). -/
def Bdd.and {α : Type} (f g : Bdd α) : Bdd α := fun a => f a && g a

/-- Modelled from the spec: Bdd::operator||, the disjunction (`or` of the spec). -/
def Bdd.or {α : Type} (f g : Bdd α) : Bdd α := fun a => f a || g a

/-- Modelled from the spec: Bdd::exclusiveOr (`xor` of the spec). -/
def Bdd.exclusiveOr {α : Type} (f g : Bdd α) : Bdd α := fun a => xor (f a) (g a)

/-- Modelled from the spec: Bdd::ite, if-then-else on BDDs. -/
def Bdd.ite {α : Type} (c t e : Bdd α) : Bdd α := fun a => if c a then t a else e a

/-- Modelled from the spec: Bdd::isZero, the BDD has no satisfying valuation. -/
def Bdd.isZero {α : Type} [Valuations α] (f : Bdd α) : Bool :=
  (allValuations α).all (fun a => !f a)

/-- Modelled from the spec: the BDD of one concrete valuation (a single state as
a predicate over the row variables): it holds for `s` and nothing else. -/
def Bdd.cube {α : Type} [DecidableEq α] (s : α) : Bdd α := fun t => decide (t = s)

/-- Modelled from the spec: Bdd::toAdd, the 0/1-valued ADD of a BDD. -/
def Bdd.toAdd {α : Type} (V : Type) [Zero V] [One V] (f : Bdd α) : Add α V :=
  fun a => if f a then 1 else 0

/-- Modelled from the spec: the valuation obtained by dereferencing the begin()
iterator of an ADD, i.e. its first non-zero valuation; the iterator of a zero
ADD starts at its end and holds the default-constructed valuation. -/
def Add.beginValuation {α V : Type} [Valuations α] [Inhabited α] [Zero V] [DecidableEq V]
    (f : Add α V) : α :=
  ((allValuations α).find? (fun a => decide (f a ≠ 0))).getD default

/-- Modelled from the spec: Bdd::operator!, the negation (`not` of the spec). -/
def Bdd.not {α : Type} (f : Bdd α) : Bdd α := fun a => !f a

/-- Modelled from the spec: Bdd::existsAbstract.  The BDD is presented as a
family indexed by the valuations `β` of the abstracted variables. -/
def Bdd.existsAbstract {α : Type} (β : Type) [Valuations β] (f : β → Bdd α) : Bdd α :=
  fun a => (allValuations β).any (fun b => f b a)

/-- Modelled from the spec: Bdd::relationalProduct(relation, rowVariables,
columnVariables): the successors of the states of the BDD under the relation,
again over the row variables. -/
def Bdd.relationalProduct {S : Type} [Valuations S] (states : Bdd S) (relation : Bdd (S × S)) :
    Bdd S :=
  fun t => (allValuations S).any (fun s => states s && relation (s, t))

/-- Modelled from the spec: Bdd::existsAbstractRepresentative over all variables
of the BDD: the BDD of one satisfying valuation (the first one enumerated), zero if
there is none. -/
def Bdd.existsAbstractRepresentative {α : Type} [Valuations α] [DecidableEq α] (f : Bdd α) :
    Bdd α :=
  match (allValuations α).find? f with
  | some s => Bdd.cube s
  | none => Bdd.zero

/-- Modelled from the spec: Add::toBdd, the valuations with a non-zero value. -/
def Add.toBdd {α V : Type} [Zero V] [DecidableEq V] (f : Add α V) : Bdd α :=
  fun a => decide (f a ≠ 0)

/-- Modelled from the spec: Add::operator*, the pointwise product. -/
def Add.mul {α V : Type} [Mul V] (f g : Add α V) : Add α V := fun a => f a * g a

/-- Modelled from the spec: Add::operator-, the pointwise difference. -/
def Add.sub {α V : Type} [Sub V] (f g : Add α V) : Add α V := fun a => f a - g a

/-- Modelled from the spec: the maximum of the values of a family indexed by the
valuations `β` (zero for an empty enumeration). -/
def maxOver {V : Type} (β : Type) [Valuations β] [LinearOrder V] [Zero V] (f : β → V) : V :=
  match allValuations β with
  | [] => 0
  | b :: bs => bs.foldl (fun m x => max m (f x)) (f b)

/-- Modelled from the spec: Add::getMax, the largest value the ADD takes. -/
def Add.getMax {α V : Type} [Valuations α] [LinearOrder V] [Zero V] (f : Add α V) : V :=
  maxOver α f

/-- Modelled from the spec: Add::maxAbstract of the variables with valuations `β`. -/
def Add.maxAbstract {α V : Type} (β : Type) [Valuations β] [LinearOrder V] [Zero V]
    (f : β → Add α V) : Add α V :=
  fun a => maxOver β (fun b => f b a)

/-- Modelled from the spec: Add::sumAbstract of the variables with valuations `β`. -/
def Add.sumAbstract {α V : Type} (β : Type) [Valuations β] [AddCommMonoid V]
    (f : β → Add α V) : Add α V :=
  fun a => ((allValuations β).map (fun b => f b a)).sum

/-- Modelled from the spec: Add::maxAbstractRepresentative of the variables with
valuations `β`: for every valuation of the remaining variables the BDD holds for
one valuation of the abstracted ones at which the maximum is attained (the first
one enumerated). -/
def Add.maxAbstractRepresentative {α V : Type} (β : Type) [Valuations β] [DecidableEq β]
    [LinearOrder V] [Zero V] (f : β → Add α V) : β → Bdd α :=
  fun b a =>
    decide ((allValuations β).find? (fun c => decide (f c a = maxOver β (fun c => f c a))) = some b)

/-- Modelled from the spec: Add::maxAbstractRepresentative over all variables of
the ADD: the BDD of one valuation at which the ADD attains its maximum. -/
def Add.maxAbstractRepresentativeAll {α V : Type} [Valuations α] [DecidableEq α]
    [LinearOrder V] [Zero V] (f : Add α V) : Bdd α :=
  fun a => Add.maxAbstractRepresentative α (fun c (_ : Unit) => f c) a ()

/-! ## Expressions, bit vectors and the abstractor interface -/

/-- Modelled from the spec: storm::storage::BitVector, which is not among the
sources, as the list of its bits. -/
abbrev BitVector := List Bool

/-- Modelled from the spec: BitVector::get; a bit that is not there reads as
unset. -/
def BitVector.get (b : BitVector) (index : Nat) : Bool := b.getD index false

/-- Modelled from the spec: BitVector::size. -/
def BitVector.size (b : BitVector) : Nat := b.length

/-- Modelled from the spec: the operations of storm::expressions::Expression used
by the refiner, for expressions of type `E` and variable-to-expression
substitutions of type `U`. -/
structure ExpressionOps (E U : Type) where
  substitute : E → U → E
  simplify : E → E

/-- RefinementPredicates::Source. -/
inductive Source
  | WeakestPrecondition
  | Guard
  deriving DecidableEq, Repr

/-- RefinementPredicates (constructor, getSource, getPredicates). -/
structure RefinementPredicates (E : Type) where
  source : Source
  predicates : List E

/-- RefinementPredicates::getSource. -/
def RefinementPredicates.getSource {E : Type} (r : RefinementPredicates E) : Source := r.source

/-- RefinementPredicates::getPredicates. -/
def RefinementPredicates.getPredicates {E : Type} (r : RefinementPredicates E) : List E :=
  r.predicates

/-- Modelled from the spec: the part of AbstractionInformation (not among the
sources) consumed by the refiner.  `S` are the valuations of the successor
variables, `P1` those of the player 1 variables and `Aux` those of the
probabilistic branching variables. -/
structure AbstractionInformation (E S P1 Aux : Type) where
  getPlayer1VariableCount : Nat
  decodePlayer1Choice : P1 → Nat → Nat
  getBottomStateBdd : Bool → Bool → Bdd S
  decodeChoiceToUpdateSuccessorMapping : Bdd (Aux × S) → List (Nat × BitVector)
  getPredicateByIndex : Nat → E
  getPredicates : List E

/-- Modelled from the spec: the part of MenuGameAbstractor (not among the
sources) consumed by the refiner; its refine is modelled by the list of
commands handed over. -/
structure MenuGameAbstractor (E U S P1 Aux : Type) where
  getAbstractionInformation : AbstractionInformation E S P1 Aux
  getGuard : Nat → E
  getVariableUpdates : Nat → Nat → U
  getPlayer1ChoiceRange : Nat × Nat

/-- The members of MenuGameRefiner: the abstractor, the two splitting flags, the
predicate splitter and the equivalence checker. -/
structure MenuGameRefiner (E U S P1 Aux : Type) where
  abstractor : MenuGameAbstractor E U S P1 Aux
  splitPredicates : Bool
  splitGuards : Bool
  splitter : E → List E
  equivalenceChecker : E → E → Bool
  expressions : ExpressionOps E U

/-- Modelled from the spec: the macro STORM_LOG_ASSERT is not among the sources;
a failed assertion is a fatal internal error that aborts the call, and the
message is the one of the assertion. -/
abbrev Fatal := String

/-! ## derivePredicatesFromDifferingChoices -/

/-- The inner loop of derivePredicatesFromDifferingChoices: the first predicate
index below `lower.size()` at which the two bit vectors differ. -/
def firstDeviatingPredicate (lower upper : BitVector) : Option Nat :=
  (List.range (BitVector.size lower)).find?
    (fun predicateIndex => BitVector.get lower predicateIndex != BitVector.get upper predicateIndex)

/-- The loop over the two update-to-successor mappings (lines 181-197): both
iterators advance together, a deviating update overwrites `newPredicate`, and
the loop runs to the end of the lower mapping. -/
def deviationLoop {E U S P1 Aux : Type} (refiner : MenuGameRefiner E U S P1 Aux)
    (player1Index : Nat) :
    List (Nat × BitVector) → List (Nat × BitVector) → Option E → Except Fatal (Option E)
  | [], _, newPredicate => .ok newPredicate
  | _ :: _, [], _ => .error "Update indices mismatch."
  | (lowerFirst, lowerSecond) :: lowerRest, (upperFirst, upperSecond) :: upperRest, newPredicate =>
    if lowerFirst ≠ upperFirst then .error "Update indices mismatch."
    else
      let updateIndex := lowerFirst
      let deviates := lowerSecond ≠ upperSecond
      let newPredicate :=
        if deviates then
          match firstDeviatingPredicate lowerSecond upperSecond with
          | some predicateIndex =>
            some (refiner.expressions.simplify
              (refiner.expressions.substitute
                (refiner.abstractor.getAbstractionInformation.getPredicateByIndex predicateIndex)
                (refiner.abstractor.getVariableUpdates player1Index updateIndex)))
          | none => newPredicate
        else newPredicate
      deviationLoop refiner player1Index lowerRest upperRest newPredicate

/-- MenuGameRefiner::derivePredicatesFromDifferingChoices. -/
def derivePredicatesFromDifferingChoices {E U S P1 Aux : Type} (V : Type)
    [Valuations S] [Valuations P1] [Valuations Aux] [Inhabited P1] [Zero V] [One V] [DecidableEq V]
    (refiner : MenuGameRefiner E U S P1 Aux)
    (_pivotState : Bdd S) (player1Choice : Bdd P1) (lowerChoice upperChoice : Bdd (Aux × S)) :
    Except Fatal (RefinementPredicates E) :=
  let abstractionInformation := refiner.abstractor.getAbstractionInformation
  let player1ChoiceAsAdd : Add P1 V := Bdd.toAdd V player1Choice
  let player1Index := abstractionInformation.decodePlayer1Choice
    (Add.beginValuation player1ChoiceAsAdd) abstractionInformation.getPlayer1VariableCount
  let bottom : Bdd (Aux × S) := fun c => abstractionInformation.getBottomStateBdd false false c.2
  let buttomStateSuccessor :=
    !Bdd.isZero (Bdd.or (Bdd.and bottom lowerChoice) (Bdd.and bottom upperChoice))
  if buttomStateSuccessor then
    .ok ⟨Source.Guard, [refiner.abstractor.getGuard player1Index]⟩
  else
    let lowerChoiceUpdateToSuccessorMapping :=
      abstractionInformation.decodeChoiceToUpdateSuccessorMapping lowerChoice
    let upperChoiceUpdateToSuccessorMapping :=
      abstractionInformation.decodeChoiceToUpdateSuccessorMapping upperChoice
    if lowerChoiceUpdateToSuccessorMapping.length ≠ upperChoiceUpdateToSuccessorMapping.length then
      .error "Mismatching sizes after decode."
    else
      match deviationLoop refiner player1Index lowerChoiceUpdateToSuccessorMapping
          upperChoiceUpdateToSuccessorMapping none with
      | .error e => .error e
      | .ok none => .error "Could not derive new predicate as there is no deviation."
      | .ok (some newPredicate) => .ok ⟨Source.WeakestPrecondition, [newPredicate]⟩

/-! ## preprocessPredicates -/

/-- The body of the loop over the atoms of one predicate (lines 377-397): the
atom is appended to `cleanedAtoms` unless the checker finds it equivalent to a
registered predicate or to an atom added before. -/
def addAtoms {E : Type} (areEquivalent : E → E → Bool) (oldPredicates : List E) :
    List E → List E → List E
  | [], cleanedAtoms => cleanedAtoms
  | atom :: atoms, cleanedAtoms =>
    let addAtom₁ := !oldPredicates.any (fun oldPredicate => areEquivalent atom oldPredicate)
    let addAtom := addAtom₁ && !cleanedAtoms.any (fun addedAtom => areEquivalent addedAtom atom)
    addAtoms areEquivalent oldPredicates atoms
      (if addAtom then cleanedAtoms ++ [atom] else cleanedAtoms)

/-- The loop over the predicates (lines 371-398): each predicate is split and
its atoms are filtered into `cleanedAtoms`. -/
def splitLoop {E : Type} (split : E → List E) (areEquivalent : E → E → Bool)
    (oldPredicates : List E) : List E → List E → List E
  | [], cleanedAtoms => cleanedAtoms
  | predicate :: predicates, cleanedAtoms =>
    splitLoop split areEquivalent oldPredicates predicates
      (addAtoms areEquivalent oldPredicates (split predicate) cleanedAtoms)

/-- MenuGameRefiner::preprocessPredicates. -/
def preprocessPredicates {E U S P1 Aux : Type} (refiner : MenuGameRefiner E U S P1 Aux)
    (predicates : List E) (split : Bool) : List E :=
  if split then
    let abstractionInformation := refiner.abstractor.getAbstractionInformation
    splitLoop refiner.splitter refiner.equivalenceChecker abstractionInformation.getPredicates
      predicates []
  else
    predicates

/-! ## Menu games and analysis results -/

/-- storm::OptimizationDirection. -/
inductive OptimizationDirection
  | Minimize
  | Maximize
  deriving DecidableEq, Repr

/-- Modelled from the spec: the part of MenuGame (not among the sources) consumed
by the refiner.  `S` are the valuations of the row (and of the column)
variables, `P1` and `P2` those of the player 1 and player 2 variables (together
the nondeterminism variables) and `Aux` those of the probabilistic branching
variables. -/
structure MenuGame (S P1 P2 Aux V : Type) where
  getInitialStates : Bdd S
  getExtendedTransitionMatrix : Add (S × P1 × P2 × Aux × S) V

/-- Modelled from the spec: one direction of a quantitative result. -/
structure QuantitativeResult (S P1 P2 V : Type) where
  values : Add S V
  player1Strategy : Bdd (S × P1)
  player2Strategy : Bdd (S × P1 × P2)

/-- Modelled from the spec: QuantitativeResultMinMax. -/
structure QuantitativeResultMinMax (S P1 P2 V : Type) where
  min : QuantitativeResult S P1 P2 V
  max : QuantitativeResult S P1 P2 V

/-- Modelled from the spec: one direction of a qualitative result. -/
structure QualitativeResult (S P1 P2 : Type) where
  getPlayer1Strategy : Bdd (S × P1)
  getPlayer2Strategy : Bdd (S × P1 × P2)
  getPlayer2States : Bdd (S × P1)

/-- Modelled from the spec: QualitativeResultMinMax. -/
structure QualitativeResultMinMax (S P1 P2 : Type) where
  prob0Min : QualitativeResult S P1 P2
  prob1Max : QualitativeResult S P1 P2

/-! ## pickPivotState -/

/-- The pair returned by pickPivotState, together with the value the local
variable `level` has when the function returns. -/
structure PickedPivotState (S : Type) where
  first : Bdd S
  second : OptimizationDirection
  level : Nat

/-- The while loop of pickPivotState (lines 99-140).  `fuel` bounds the number
of iterations. -/
def pickPivotStateLoop {S : Type} (P1 P2 V : Type) [Valuations S] [DecidableEq S]
    [LinearOrderedRing V]
    (transitionsMin transitionsMax : Bdd (S × S)) (pivotStates : Bdd S)
    (quantitativeResult : Option (QuantitativeResultMinMax S P1 P2 V)) :
    Nat → Bdd S → Bdd S → Nat → Option (PickedPivotState S)
  | 0, _, _, _ => none
  | fuel + 1, frontierMin, frontierMax, level =>
    let frontierMin := Bdd.relationalProduct frontierMin transitionsMin
    let frontierMax := Bdd.relationalProduct frontierMax transitionsMax
    let frontierMinPivotStates := Bdd.and frontierMin pivotStates
    let frontierMaxPivotStates := Bdd.and frontierMax pivotStates
    if !Bdd.isZero frontierMinPivotStates || !Bdd.isZero frontierMaxPivotStates then
      match quantitativeResult with
      | some quantitativeResult =>
        let frontierMinPivotStatesAdd : Add S V := Bdd.toAdd V frontierMinPivotStates
        let frontierMaxPivotStatesAdd : Add S V := Bdd.toAdd V frontierMaxPivotStates
        let diffMin := Add.sub (Add.mul frontierMinPivotStatesAdd quantitativeResult.max.values)
          (Add.mul frontierMinPivotStatesAdd quantitativeResult.min.values)
        let diffMax := Add.sub (Add.mul frontierMaxPivotStatesAdd quantitativeResult.max.values)
          (Add.mul frontierMaxPivotStatesAdd quantitativeResult.min.values)
        let direction :=
          if Add.getMax diffMin ≥ Add.getMax diffMax then OptimizationDirection.Minimize
          else OptimizationDirection.Maximize
        some ⟨if direction = OptimizationDirection.Minimize
              then Add.maxAbstractRepresentativeAll diffMin
              else Add.maxAbstractRepresentativeAll diffMax, direction, level⟩
      | none =>
        let direction :=
          if !Bdd.isZero frontierMinPivotStates then OptimizationDirection.Minimize
          else OptimizationDirection.Maximize
        some ⟨if direction = OptimizationDirection.Minimize
              then Bdd.existsAbstractRepresentative frontierMinPivotStates
              else Bdd.existsAbstractRepresentative frontierMaxPivotStates, direction, level⟩
    else
      pickPivotStateLoop P1 P2 V transitionsMin transitionsMax pivotStates quantitativeResult
        fuel frontierMin frontierMax (level + 1)

/-- The function pickPivotState; `none` when the loop has not returned within
`fuel` iterations. -/
def pickPivotState {S : Type} (P1 P2 V : Type) [Valuations S] [DecidableEq S]
    [LinearOrderedRing V] (fuel : Nat)
    (initialStates : Bdd S) (transitionsMin transitionsMax : Bdd (S × S)) (pivotStates : Bdd S)
    (quantitativeResult : Option (QuantitativeResultMinMax S P1 P2 V)) :
    Option (PickedPivotState S) :=
  let frontierMin := initialStates
  let frontierMax := initialStates
  let frontierPivotStates := Bdd.and frontierMin pivotStates
  let level := 0
  let foundPivotState := !Bdd.isZero frontierPivotStates
  if foundPivotState then
    some ⟨Bdd.existsAbstractRepresentative frontierPivotStates,
      OptimizationDirection.Minimize, level⟩
  else
    pickPivotStateLoop P1 P2 V transitionsMin transitionsMax pivotStates quantitativeResult
      fuel frontierMin frontierMax level

/-! ## computePivotStates -/

/-- The loop of computeReachableStates. -/
def computeReachableStatesLoop {S : Type} [Valuations S] (transitions : Bdd (S × S)) :
    Nat → Bdd S → Bdd S
  | 0, reachableStates => reachableStates
  | fuel + 1, reachableStates =>
    let tmp := Bdd.relationalProduct reachableStates transitions
    let newReachableStates := Bdd.and tmp (Bdd.not reachableStates)
    if !Bdd.isZero newReachableStates then
      computeReachableStatesLoop transitions fuel (Bdd.or reachableStates newReachableStates)
    else
      Bdd.or reachableStates newReachableStates

/-- Modelled from the spec: storm::utility::dd::computeReachableStates, the
states reachable from the initial states along the transitions; every round
but the last adds a state, so one round per valuation suffices. -/
def computeReachableStates {S : Type} [Valuations S] (initialStates : Bdd S)
    (transitions : Bdd (S × S)) : Bdd S :=
  computeReachableStatesLoop transitions (allValuations S).length initialStates

/-- The struct PivotStateResult. -/
structure PivotStateResult (S : Type) where
  reachableTransitionsMin : Bdd (S × S)
  reachableTransitionsMax : Bdd (S × S)
  pivotStates : Bdd S

/-- The function computePivotStates. -/
def computePivotStates {S P1 P2 Aux V : Type} [Valuations S] [Valuations P1] [Valuations P2]
    (game : MenuGame S P1 P2 Aux V) (transitionMatrixBdd : Bdd (S × P1 × P2 × S))
    (minPlayer1Strategy : Bdd (S × P1)) (minPlayer2Strategy : Bdd (S × P1 × P2))
    (maxPlayer1Strategy : Bdd (S × P1)) (maxPlayer2Strategy : Bdd (S × P1 × P2)) :
    PivotStateResult S :=
  let reachableTransitionsMin : Bdd (S × S) :=
    Bdd.existsAbstract (P1 × P2) (fun n t =>
      transitionMatrixBdd (t.1, n.1, n.2, t.2) && minPlayer1Strategy (t.1, n.1)
        && minPlayer2Strategy (t.1, n.1, n.2))
  let reachableTransitionsMax : Bdd (S × S) :=
    Bdd.existsAbstract (P1 × P2) (fun n t =>
      transitionMatrixBdd (t.1, n.1, n.2, t.2) && maxPlayer1Strategy (t.1, n.1)
        && maxPlayer2Strategy (t.1, n.1, n.2))
  let pivotStates := Bdd.or
    (computeReachableStates game.getInitialStates reachableTransitionsMin)
    (computeReachableStates game.getInitialStates reachableTransitionsMax)
  let constraint : Bdd (S × P1) := Bdd.and
    (Bdd.existsAbstract P2 (fun b c => minPlayer2Strategy (c.1, c.2, b)))
    (Bdd.existsAbstract P2 (fun b c => maxPlayer2Strategy (c.1, c.2, b)))
  let constraint : Bdd (S × P1 × P2) := Bdd.and (fun c => constraint (c.1, c.2.1))
    (Bdd.exclusiveOr minPlayer2Strategy maxPlayer2Strategy)
  let pivotStates := Bdd.and pivotStates
    (Bdd.existsAbstract (P1 × P2) (fun n s =>
      (minPlayer1Strategy (s, n.1) && maxPlayer1Strategy (s, n.1)) && constraint (s, n.1, n.2)))
  ⟨reachableTransitionsMin, reachableTransitionsMax, pivotStates⟩

/-! ## Effects of a refinement call -/

/-- Modelled from the spec: RefinementCommand, the predicates handed to the
abstractor in one refinement step. -/
structure RefinementCommand (E : Type) where
  getPredicates : List E

/-- How a call ends: it returns a value, the process exits, a
STORM_LOG_ASSERT fails, or a loop exhausts the fuel of the model. -/
inductive Outcome (α : Type) where
  | returned (value : α)
  | exited (code : Int)
  | fatal (message : Fatal)
  | diverged

/-- A computation of the refiner.  The state is the list of refinement commands
that were handed to the abstractor, in the order of the calls of
MenuGameAbstractor::refine. -/
def Refine (E α : Type) : Type :=
  List (RefinementCommand E) → Outcome α × List (RefinementCommand E)

/-- Sequencing: what follows runs only after a normal return. -/
def Refine.bind {E α β : Type} (x : Refine E α) (f : α → Refine E β) : Refine E β :=
  fun handed =>
    match x handed with
    | (Outcome.returned a, handed) => f a handed
    | (Outcome.exited code, handed) => (Outcome.exited code, handed)
    | (Outcome.fatal message, handed) => (Outcome.fatal message, handed)
    | (Outcome.diverged, handed) => (Outcome.diverged, handed)

instance instMonadRefine {E : Type} : Monad (Refine E) where
  pure a := fun handed => (Outcome.returned a, handed)
  bind := Refine.bind

/-- The call exit(code). -/
def exitProcess {E : Type} (code : Int) : Refine E Unit :=
  fun handed => (Outcome.exited code, handed)

/-- A loop of the model that may run out of fuel. -/
def Refine.ofOption {E α : Type} : Option α → Refine E α
  | some a => pure a
  | none => fun handed => (Outcome.diverged, handed)

/-- A call that may fail an assertion. -/
def Refine.ofExcept {E α : Type} : Except Fatal α → Refine E α
  | .ok a => pure a
  | .error message => fun handed => (Outcome.fatal message, handed)

/-- Modelled from the spec: MenuGameAbstractor::refine(command) receives the
command. -/
def MenuGameAbstractor.refine {E : Type} (command : RefinementCommand E) : Refine E Unit :=
  fun handed => (Outcome.returned (), handed ++ [command])

/-- MenuGameRefiner::createGlobalRefinement. -/
def createGlobalRefinement {E : Type} (predicates : List E) : List (RefinementCommand E) :=
  let commands : List (RefinementCommand E) := []
  commands ++ [⟨predicates⟩]

/-- MenuGameRefiner::performRefinement. -/
def performRefinement {E : Type} : List (RefinementCommand E) → Refine E Unit
  | [] => pure ()
  | command :: refinementCommands => do
    MenuGameAbstractor.refine command
    performRefinement refinementCommands

/-! ## derivePredicatesFromPivotState -/

/-- MenuGameRefiner::derivePredicatesFromPivotState. -/
def derivePredicatesFromPivotState {E U S P1 P2 Aux : Type} (V : Type)
    [Valuations S] [Valuations P1] [Valuations P2] [Valuations Aux] [Inhabited P1]
    [LinearOrderedRing V]
    (refiner : MenuGameRefiner E U S P1 Aux) (game : MenuGame S P1 P2 Aux V) (pivotState : Bdd S)
    (minPlayer1Strategy : Bdd (S × P1)) (minPlayer2Strategy : Bdd (S × P1 × P2))
    (maxPlayer1Strategy : Bdd (S × P1)) (maxPlayer2Strategy : Bdd (S × P1 × P2)) :
    Except Fatal (RefinementPredicates E) :=
  let lowerChoice : Bdd (S × P1 × P2 × Aux × S) := fun e =>
    pivotState e.1 && Add.toBdd game.getExtendedTransitionMatrix e && minPlayer1Strategy (e.1, e.2.1)
  let lowerChoice1 : Bdd (Aux × S) := Bdd.existsAbstract (S × P1 × P2) (fun n c =>
    lowerChoice (n.1, n.2.1, n.2.2, c.1, c.2) && minPlayer2Strategy n)
  let lowerChoice2 : Bdd (Aux × S) := Bdd.existsAbstract (S × P1 × P2) (fun n c =>
    lowerChoice (n.1, n.2.1, n.2.2, c.1, c.2) && maxPlayer2Strategy n)
  let lowerChoicesDifferent := !Bdd.isZero (Bdd.exclusiveOr lowerChoice1 lowerChoice2)
  if lowerChoicesDifferent then
    derivePredicatesFromDifferingChoices V refiner pivotState
      (Bdd.existsAbstract S (fun s a => pivotState s && minPlayer1Strategy (s, a)))
      lowerChoice1 lowerChoice2
  else
    let upperChoice : Bdd (S × P1 × P2 × Aux × S) := fun e =>
      pivotState e.1 && Add.toBdd game.getExtendedTransitionMatrix e
        && maxPlayer1Strategy (e.1, e.2.1)
    let upperChoice1 : Bdd (Aux × S) := Bdd.existsAbstract (S × P1 × P2) (fun n c =>
      upperChoice (n.1, n.2.1, n.2.2, c.1, c.2) && minPlayer2Strategy n)
    let upperChoice2 : Bdd (Aux × S) := Bdd.existsAbstract (S × P1 × P2) (fun n c =>
      upperChoice (n.1, n.2.1, n.2.2, c.1, c.2) && maxPlayer2Strategy n)
    let upperChoicesDifferent := !Bdd.isZero (Bdd.exclusiveOr upperChoice1 upperChoice2)
    if upperChoicesDifferent then
      derivePredicatesFromDifferingChoices V refiner pivotState
        (Bdd.existsAbstract S (fun s a => pivotState s && maxPlayer1Strategy (s, a)))
        upperChoice1 upperChoice2
    else
      .error "Did not find choices from which to derive predicates."

/-! ## getMostProbablePathSpanningTree and buildTraceFormula -/

/-- The while loop of getMostProbablePathSpanningTree (lines 58-76).  `fuel`
bounds the number of evaluations of the loop condition. -/
def getMostProbablePathSpanningTreeLoop {S Aux V : Type} [Valuations S] [Valuations Aux]
    [DecidableEq S] [DecidableEq Aux] [LinearOrderedRing V]
    (targetState : Bdd S) (transitionMatrix : Add (S × Aux × S) V) :
    Nat → Add S V → Add S V → Bdd (S × Aux × S) → Option (Bdd (S × Aux × S))
  | 0, _, _, _ => none
  | fuel + 1, maxProbabilities, border, spanningTree =>
    if !Bdd.isZero (Add.toBdd border)
        && Bdd.isZero (Bdd.and (Add.toBdd border) targetState) then
      let tmp : Add (S × Aux × S) V := fun e =>
        border e.1 * transitionMatrix e * maxProbabilities e.1
      let newMaxProbabilityChoices : Bdd (S × Aux × S) := fun e =>
        Add.maxAbstractRepresentative (S × Aux) (fun r c => tmp (r.1, r.2, c)) (e.1, e.2.1) e.2.2
      let newMaxProbabilities : Add S V :=
        Add.maxAbstract (S × Aux) (fun r c => tmp (r.1, r.2, c))
      let updateStates : Bdd S := fun s => decide (newMaxProbabilities s > maxProbabilities s)
      let maxProbabilities : Add S V := fun s =>
        if updateStates s then newMaxProbabilities s else maxProbabilities s
      let spanningTree := Bdd.and spanningTree (fun e => !updateStates e.2.2)
      let spanningTree := Bdd.or spanningTree
        (Bdd.and (fun e => updateStates e.2.2) newMaxProbabilityChoices)
      let border : Add S V := Bdd.toAdd V updateStates
      getMostProbablePathSpanningTreeLoop targetState transitionMatrix fuel maxProbabilities border
        spanningTree
    else
      some spanningTree

/-- The function getMostProbablePathSpanningTree. -/
def getMostProbablePathSpanningTree {S P1 P2 Aux V : Type} [Valuations S] [Valuations P1]
    [Valuations P2] [Valuations Aux] [DecidableEq S] [DecidableEq Aux] [LinearOrderedRing V]
    (fuel : Nat) (game : MenuGame S P1 P2 Aux V) (targetState : Bdd S)
    (transitionFilter : Bdd (S × P1 × P2)) : Option (Bdd (S × Aux × S)) :=
  let maxProbabilities : Add S V := Bdd.toAdd V game.getInitialStates
  let border : Add S V := Bdd.toAdd V game.getInitialStates
  let spanningTree : Bdd (S × Aux × S) := Bdd.zero
  let representative : Bdd (S × P1 × P2 × Aux × S) := fun e =>
    Add.maxAbstractRepresentative Aux
      (fun u (r : S × P1 × P2 × S) =>
        game.getExtendedTransitionMatrix (r.1, r.2.1, r.2.2.1, u, r.2.2.2))
      e.2.2.2.1 (e.1, e.2.1, e.2.2.1, e.2.2.2.2)
  let transitionMatrix : Add (S × P1 × P2 × Aux × S) V :=
    Add.mul
      (Bdd.toAdd V (Bdd.and (fun e => transitionFilter (e.1, e.2.1, e.2.2.1)) representative))
      game.getExtendedTransitionMatrix
  let transitionMatrix : Add (S × Aux × S) V :=
    Add.sumAbstract (P1 × P2) (fun n e => transitionMatrix (e.1, n.1, n.2, e.2.1, e.2.2))
  getMostProbablePathSpanningTreeLoop targetState transitionMatrix fuel maxProbabilities border
    spanningTree

/-- The while loop of buildTraceFormula (lines 287-291): the body computes
`predecessorTransition` and leaves `currentState` as it is.  `fuel` bounds the
number of evaluations of the loop condition. -/
def buildTraceFormulaLoop {S P1 P2 Aux V : Type} [Valuations S]
    (game : MenuGame S P1 P2 Aux V) (spanningTree : Bdd (S × Aux × S)) :
    Nat → Bdd S → Option (Bdd S)
  | 0, _ => none
  | fuel + 1, currentState =>
    if Bdd.isZero (Bdd.and currentState game.getInitialStates) then
      let _predecessorTransition : Bdd (S × Aux × S) :=
        Bdd.and (fun e => currentState e.2.2) spanningTree
      buildTraceFormulaLoop game spanningTree fuel currentState
    else
      some currentState

/-- MenuGameRefiner::buildTraceFormula.  The returned expression handle is
`none` for the default-constructed (uninitialized) Expression. -/
def buildTraceFormula {E U S P1 P2 Aux V : Type} [Valuations S]
    (fuel : Nat) (_refiner : MenuGameRefiner E U S P1 Aux) (game : MenuGame S P1 P2 Aux V)
    (spanningTree : Bdd (S × Aux × S)) (pivotState : Bdd S) : Option (Option E) :=
  let currentState := pivotState
  match buildTraceFormulaLoop game spanningTree fuel currentState with
  | none => none
  | some _ => some none

/-! ## The constructor and the refine entry points -/

/-- Modelled from the spec: the options of the abstraction settings module read
by the refiner. -/
structure AbstractionSettings where
  isSplitPredicatesSet : Bool
  isSplitGuardsSet : Bool
  isAddAllGuardsSet : Bool
  isSplitInitialGuardsSet : Bool

/-- The constructor MenuGameRefiner::MenuGameRefiner. -/
def MenuGameRefiner.construct {E U S P1 Aux : Type} (settings : AbstractionSettings)
    (abstractor : MenuGameAbstractor E U S P1 Aux) (splitter : E → List E)
    (equivalenceChecker : E → E → Bool) (expressions : ExpressionOps E U) :
    Refine E (MenuGameRefiner E U S P1 Aux) := do
  let this : MenuGameRefiner E U S P1 Aux :=
    ⟨abstractor, settings.isSplitPredicatesSet, settings.isSplitGuardsSet, splitter,
      equivalenceChecker, expressions⟩
  if settings.isAddAllGuardsSet then
    let player1Choices := this.abstractor.getPlayer1ChoiceRange
    let guards := (List.range' player1Choices.1 (player1Choices.2 - player1Choices.1)).map
      this.abstractor.getGuard
    performRefinement
      (createGlobalRefinement (preprocessPredicates this guards settings.isSplitInitialGuardsSet))
  return this

/-- MenuGameRefiner::refine(predicates), the explicit-predicate entry point. -/
def refinePredicates {E : Type} (predicates : List E) : Refine E Unit :=
  performRefinement (createGlobalRefinement predicates)

/-- MenuGameRefiner::refine(game, transitionMatrixBdd, qualitativeResult). -/
def refineQualitative {E U S P1 P2 Aux : Type} (V : Type)
    [Valuations S] [Valuations P1] [Valuations P2] [Valuations Aux] [Inhabited P1]
    [DecidableEq S] [DecidableEq Aux] [LinearOrderedRing V]
    (fuel : Nat) (refiner : MenuGameRefiner E U S P1 Aux) (game : MenuGame S P1 P2 Aux V)
    (transitionMatrixBdd : Bdd (S × P1 × P2 × S))
    (qualitativeResult : QualitativeResultMinMax S P1 P2) : Refine E Bool := do
  let minPlayer1Strategy := qualitativeResult.prob0Min.getPlayer1Strategy
  let minPlayer2Strategy := qualitativeResult.prob0Min.getPlayer2Strategy
  let maxPlayer1Strategy := qualitativeResult.prob1Max.getPlayer1Strategy
  let maxPlayer2Strategy := qualitativeResult.prob1Max.getPlayer2Strategy
  let minPlayer1Strategy : Bdd (S × P1) :=
    Bdd.ite
      (fun c => Bdd.existsAbstract P1 (fun a s =>
        maxPlayer1Strategy (s, a) && qualitativeResult.prob0Min.getPlayer2States (s, a)) c.1)
      maxPlayer1Strategy minPlayer1Strategy
  let pivotStateResult := computePivotStates game transitionMatrixBdd minPlayer1Strategy
    minPlayer2Strategy maxPlayer1Strategy maxPlayer2Strategy
  if Bdd.isZero pivotStateResult.pivotStates then
    return false
  if Bdd.isZero pivotStateResult.pivotStates then
    Refine.ofExcept (.error "Unable to proceed without pivot state candidates.")
  let pivotState ← Refine.ofOption (pickPivotState P1 P2 V fuel game.getInitialStates
    pivotStateResult.reachableTransitionsMin pivotStateResult.reachableTransitionsMax
    pivotStateResult.pivotStates none)
  let spanningTree ← Refine.ofOption (getMostProbablePathSpanningTree fuel game pivotState.first
    (if pivotState.second = OptimizationDirection.Minimize
      then Bdd.and (fun n => minPlayer1Strategy (n.1, n.2.1)) minPlayer2Strategy
      else Bdd.and (fun n => maxPlayer1Strategy (n.1, n.2.1)) maxPlayer2Strategy))
  let _traceFormula : Option E ← Refine.ofOption
    (buildTraceFormula fuel refiner game spanningTree pivotState.first)
  exitProcess (-1)
  let predicates ← Refine.ofExcept (derivePredicatesFromPivotState V refiner game pivotState.first
    minPlayer1Strategy minPlayer2Strategy maxPlayer1Strategy maxPlayer2Strategy)
  let preparedPredicates := preprocessPredicates refiner predicates.getPredicates
    ((predicates.getSource = Source.Guard && refiner.splitGuards)
      || (predicates.getSource = Source.WeakestPrecondition && refiner.splitPredicates))
  performRefinement (createGlobalRefinement preparedPredicates)
  return true

/-- MenuGameRefiner::refine(game, transitionMatrixBdd, quantitativeResult). -/
def refineQuantitative {E U S P1 P2 Aux V : Type}
    [Valuations S] [Valuations P1] [Valuations P2] [Valuations Aux] [Inhabited P1]
    [DecidableEq S] [DecidableEq Aux] [LinearOrderedRing V]
    (fuel : Nat) (refiner : MenuGameRefiner E U S P1 Aux) (game : MenuGame S P1 P2 Aux V)
    (transitionMatrixBdd : Bdd (S × P1 × P2 × S))
    (quantitativeResult : QuantitativeResultMinMax S P1 P2 V) : Refine E Bool := do
  let minPlayer1Strategy := quantitativeResult.min.player1Strategy
  let minPlayer2Strategy := quantitativeResult.min.player2Strategy
  let maxPlayer1Strategy := quantitativeResult.max.player1Strategy
  let maxPlayer2Strategy := quantitativeResult.max.player2Strategy
  let pivotStateResult := computePivotStates game transitionMatrixBdd minPlayer1Strategy
    minPlayer2Strategy maxPlayer1Strategy maxPlayer2Strategy
  if Bdd.isZero pivotStateResult.pivotStates then
    Refine.ofExcept (.error "Unable to refine without pivot state candidates.")
  let pivotState ← Refine.ofOption (pickPivotState P1 P2 V fuel game.getInitialStates
    pivotStateResult.reachableTransitionsMin pivotStateResult.reachableTransitionsMax
    pivotStateResult.pivotStates none)
  let _spanningTree : Bdd (S × Aux × S) ← Refine.ofOption
    (getMostProbablePathSpanningTree fuel game pivotState.first
      (if pivotState.second = OptimizationDirection.Minimize
        then Bdd.and (fun n => minPlayer1Strategy (n.1, n.2.1)) minPlayer2Strategy
        else Bdd.and (fun n => maxPlayer1Strategy (n.1, n.2.1)) maxPlayer2Strategy))
  exitProcess (-1)
  let predicates ← Refine.ofExcept (derivePredicatesFromPivotState V refiner game pivotState.first
    minPlayer1Strategy minPlayer2Strategy maxPlayer1Strategy maxPlayer2Strategy)
  let preparedPredicates := preprocessPredicates refiner predicates.getPredicates
    ((predicates.getSource = Source.Guard && refiner.splitGuards)
      || (predicates.getSource = Source.WeakestPrecondition && refiner.splitPredicates))
  performRefinement (createGlobalRefinement preparedPredicates)
  return true

/-! ## Small instances used to run the definitions -/

instance instValuationsBool : Valuations Bool where
  enum := [false, true]
  complete := by intro a; cases a <;> simp

instance instValuationsUnit : Valuations Unit where
  enum := [()]
  complete := by intro a; simp

/-- Integer terms over the single program variable `x`. -/
inductive ToyTerm
  | x
  | lit (n : Int)
  | sub (a b : ToyTerm)
  deriving DecidableEq, Repr

/-- Predicates over the program variable `x`: comparisons `a >= b`. -/
inductive ToyExpr
  | ge (a b : ToyTerm)
  deriving DecidableEq, Repr

/-- Value of a term when `x` has the value `v`. -/
def ToyTerm.eval (v : Int) : ToyTerm → Int
  | .x => v
  | .lit n => n
  | .sub a b => a.eval v - b.eval v

/-- Truth value of a predicate when `x` has the value `v`. -/
def ToyExpr.eval (v : Int) : ToyExpr → Bool
  | .ge a b => decide (a.eval v ≥ b.eval v)

/-- Replacing `x` by the term `u` in a term. -/
def ToyTerm.substitute (u : ToyTerm) : ToyTerm → ToyTerm
  | .x => u
  | .lit n => .lit n
  | .sub a b => .sub (ToyTerm.substitute u a) (ToyTerm.substitute u b)

/-- Replacing `x` by the term `u` in a predicate. -/
def ToyExpr.substitute (e : ToyExpr) (u : ToyTerm) : ToyExpr :=
  match e with
  | .ge a b => .ge (ToyTerm.substitute u a) (ToyTerm.substitute u b)

/-- The abstractor of the one-command scenario: command 0 has the guard
`x >= 1` and the single update `x := x - 1`; the only predicate is `x >= 1`;
there is no bottom state.  A choice is decoded to the successor bit of its
first valuation, under update 0. -/
def toyAbstractor : MenuGameAbstractor ToyExpr ToyTerm Bool Unit Unit where
  getAbstractionInformation :=
    { getPlayer1VariableCount := 0
      decodePlayer1Choice := fun _ _ => 0
      getBottomStateBdd := fun _ _ _ => false
      decodeChoiceToUpdateSuccessorMapping := fun choice =>
        match (allValuations (Unit × Bool)).find? choice with
        | some c => [(0, [c.2])]
        | none => []
      getPredicateByIndex := fun _ => .ge .x (.lit 1)
      getPredicates := [.ge .x (.lit 1)] }
  getGuard := fun _ => .ge .x (.lit 1)
  getVariableUpdates := fun _ _ => .sub .x (.lit 1)
  getPlayer1ChoiceRange := (0, 1)

/-- A refiner over the toy abstractor: predicates are not split further and the
checker compares syntactically. -/
def toyRefiner : MenuGameRefiner ToyExpr ToyTerm Bool Unit Unit where
  abstractor := toyAbstractor
  splitPredicates := true
  splitGuards := true
  splitter := fun e => [e]
  equivalenceChecker := fun a b => decide (a = b)
  expressions := { substitute := ToyExpr.substitute, simplify := fun e => e }

/-- The abstractor of the second scenario: as the toy abstractor, but the
successor `true` is the bottom state. -/
def bottomAbstractor : MenuGameAbstractor ToyExpr ToyTerm Bool Unit Unit where
  getAbstractionInformation :=
    { getPlayer1VariableCount := 0
      decodePlayer1Choice := fun _ _ => 0
      getBottomStateBdd := fun _ _ s => s
      decodeChoiceToUpdateSuccessorMapping := fun _ => []
      getPredicateByIndex := fun _ => .ge .x (.lit 1)
      getPredicates := [.ge .x (.lit 1)] }
  getGuard := fun _ => .ge (.lit 0) .x
  getVariableUpdates := fun _ _ => .sub .x (.lit 1)
  getPlayer1ChoiceRange := (0, 1)

/-- A refiner over the abstractor with a bottom state. -/
def bottomRefiner : MenuGameRefiner ToyExpr ToyTerm Bool Unit Unit where
  abstractor := bottomAbstractor
  splitPredicates := false
  splitGuards := false
  splitter := fun e => [e]
  equivalenceChecker := fun a b => decide (a = b)
  expressions := { substitute := ToyExpr.substitute, simplify := fun e => e }

/-- The refiner whose abstraction information decodes choices with `decode`
and is otherwise that of `refiner`. -/
def MenuGameRefiner.withDecoding {E U S P1 Aux : Type} (refiner : MenuGameRefiner E U S P1 Aux)
    (decode : Bdd (Aux × S) → List (Nat × BitVector)) : MenuGameRefiner E U S P1 Aux :=
  ⟨⟨⟨refiner.abstractor.getAbstractionInformation.getPlayer1VariableCount,
      refiner.abstractor.getAbstractionInformation.decodePlayer1Choice,
      refiner.abstractor.getAbstractionInformation.getBottomStateBdd,
      decode,
      refiner.abstractor.getAbstractionInformation.getPredicateByIndex,
      refiner.abstractor.getAbstractionInformation.getPredicates⟩,
    refiner.abstractor.getGuard, refiner.abstractor.getVariableUpdates,
    refiner.abstractor.getPlayer1ChoiceRange⟩,
   refiner.splitPredicates, refiner.splitGuards, refiner.splitter, refiner.equivalenceChecker,
   refiner.expressions⟩

/-! ## Paths and frontiers -/

/-- The frontier of the breadth-first search of pickPivotState after `n` more
relational-product steps (lines 100-101) from the frontier `frontier`. -/
def frontierAt {S : Type} [Valuations S] (transitions : Bdd (S × S)) : Bdd S → Nat → Bdd S
  | frontier, 0 => frontier
  | frontier, n + 1 => frontierAt transitions (Bdd.relationalProduct frontier transitions) n

/-- The state `s` ends a path of exactly `k` transitions that starts in an
initial state. -/
inductive ReachedIn {S : Type} (transitions : Bdd (S × S)) (initialStates : Bdd S) :
    Nat → S → Prop
  | start {s : S} : initialStates s = true → ReachedIn transitions initialStates 0 s
  | step {k : Nat} {s t : S} : ReachedIn transitions initialStates k s →
      transitions (s, t) = true → ReachedIn transitions initialStates (k + 1) t

/-- The state `s` is reachable from an initial state along the transitions. -/
def Reachable {S : Type} (transitions : Bdd (S × S)) (initialStates : Bdd S) (s : S) : Prop :=
  ∃ k, ReachedIn transitions initialStates k s

/-- The transitions of the returned optimization direction. -/
def transitionsOf {S : Type} (transitionsMin transitionsMax : Bdd (S × S)) :
    OptimizationDirection → Bdd (S × S)
  | .Minimize => transitionsMin
  | .Maximize => transitionsMax

/-- A game over the two states `false` and `true` with one player 1 choice and
two player 2 choices: from `false` both player 2 choices lead to `true`. -/
def twoStateGame : MenuGame Bool Unit Bool Unit Int where
  getInitialStates := Bdd.cube false
  getExtendedTransitionMatrix := fun e => if e.1 = false ∧ e.2.2.2.2 = true then 1 else 0

/-- The transition relation of the two-state game as a BDD. -/
def twoStateTransitions : Bdd (Bool × Unit × Bool × Bool) :=
  fun t => !t.1 && t.2.2.2

/-- A player 2 strategy of the two-state game: always the choice `b`. -/
def twoStatePlayer2Strategy (b : Bool) : Bdd (Bool × Unit × Bool) :=
  fun n => n.2.2 == b

/-- A quantitative result over the two states whose lower and upper values are
both zero everywhere. -/
def tiedQuantitativeResult : QuantitativeResultMinMax Bool Unit Unit Int where
  min := { values := fun _ => 0, player1Strategy := fun _ => true, player2Strategy := fun _ => true }
  max := { values := fun _ => 0, player1Strategy := fun _ => true, player2Strategy := fun _ => true }

/-- A qualitative result over the two-state game in which the probability-0 and
the probability-1 result carry the same strategies. -/
def sameStrategiesQualitativeResult : QualitativeResultMinMax Bool Unit Bool where
  prob0Min :=
    { getPlayer1Strategy := fun _ => true
      getPlayer2Strategy := twoStatePlayer2Strategy false
      getPlayer2States := fun _ => false }
  prob1Max :=
    { getPlayer1Strategy := fun _ => true
      getPlayer2Strategy := twoStatePlayer2Strategy false
      getPlayer2States := fun _ => true }

/-! ## Named parts of the entry points -/

/-- The value of `minPlayer1Strategy` after the redirection of line 307 of the
qualitative entry point. -/
def redirectedMinPlayer1Strategy {S P1 P2 : Type} [Valuations P1]
    (qualitativeResult : QualitativeResultMinMax S P1 P2) : Bdd (S × P1) :=
  Bdd.ite
    (fun c => Bdd.existsAbstract P1 (fun a s =>
      qualitativeResult.prob1Max.getPlayer1Strategy (s, a)
        && qualitativeResult.prob0Min.getPlayer2States (s, a)) c.1)
    qualitativeResult.prob1Max.getPlayer1Strategy qualitativeResult.prob0Min.getPlayer1Strategy

/-- The value of `pivotStateResult` at line 310 of the qualitative entry point. -/
def qualitativePivotStateResult {S P1 P2 Aux V : Type} [Valuations S] [Valuations P1]
    [Valuations P2] (game : MenuGame S P1 P2 Aux V) (transitionMatrixBdd : Bdd (S × P1 × P2 × S))
    (qualitativeResult : QualitativeResultMinMax S P1 P2) : PivotStateResult S :=
  computePivotStates game transitionMatrixBdd (redirectedMinPlayer1Strategy qualitativeResult)
    qualitativeResult.prob0Min.getPlayer2Strategy qualitativeResult.prob1Max.getPlayer1Strategy
    qualitativeResult.prob1Max.getPlayer2Strategy

/-- The value of `pivotStateResult` at line 347 of the quantitative entry point. -/
def quantitativePivotStateResult {S P1 P2 Aux V : Type} [Valuations S] [Valuations P1]
    [Valuations P2] (game : MenuGame S P1 P2 Aux V) (transitionMatrixBdd : Bdd (S × P1 × P2 × S))
    (quantitativeResult : QuantitativeResultMinMax S P1 P2 V) : PivotStateResult S :=
  computePivotStates game transitionMatrixBdd quantitativeResult.min.player1Strategy
    quantitativeResult.min.player2Strategy quantitativeResult.max.player1Strategy
    quantitativeResult.max.player2Strategy

/-- The statements that follow the pivot search in both analysis-driven entry
points (lines 330-334 and, word for word, lines 358-362): derive the
predicates from the pivot state, preprocess them, hand them over as a global
refinement and return true. -/
def refineWithPivotState {E U S P1 P2 Aux : Type} (V : Type)
    [Valuations S] [Valuations P1] [Valuations P2] [Valuations Aux] [Inhabited P1]
    [LinearOrderedRing V]
    (refiner : MenuGameRefiner E U S P1 Aux) (game : MenuGame S P1 P2 Aux V) (pivotState : Bdd S)
    (minPlayer1Strategy : Bdd (S × P1)) (minPlayer2Strategy : Bdd (S × P1 × P2))
    (maxPlayer1Strategy : Bdd (S × P1)) (maxPlayer2Strategy : Bdd (S × P1 × P2)) :
    Refine E Bool := do
  let predicates ← Refine.ofExcept (derivePredicatesFromPivotState V refiner game pivotState
    minPlayer1Strategy minPlayer2Strategy maxPlayer1Strategy maxPlayer2Strategy)
  let preparedPredicates := preprocessPredicates refiner predicates.getPredicates
    ((predicates.getSource = Source.Guard && refiner.splitGuards)
      || (predicates.getSource = Source.WeakestPrecondition && refiner.splitPredicates))
  performRefinement (createGlobalRefinement preparedPredicates)
  return true

/-- The successor choice of derivePredicatesFromPivotState: the (update,
successor) pairs reached from the pivot state under a Player-1 and a Player-2
strategy (`lowerChoice1`, `lowerChoice2`, `upperChoice1`, `upperChoice2`). -/
def successorChoice {S P1 P2 Aux V : Type} [Valuations S] [Valuations P1] [Valuations P2]
    [LinearOrderedRing V] (game : MenuGame S P1 P2 Aux V) (pivotState : Bdd S)
    (player1Strategy : Bdd (S × P1)) (player2Strategy : Bdd (S × P1 × P2)) : Bdd (Aux × S) :=
  Bdd.existsAbstract (S × P1 × P2) (fun n c =>
    (pivotState n.1 && Add.toBdd game.getExtendedTransitionMatrix (n.1, n.2.1, n.2.2, c.1, c.2)
      && player1Strategy (n.1, n.2.1)) && player2Strategy n)

/-- The Player-1 choice passed on by derivePredicatesFromPivotState:
`(pivotState && player1Strategy).existsAbstract(rowVariables)`. -/
def player1ChoiceAt {S P1 : Type} [Valuations S] (pivotState : Bdd S)
    (player1Strategy : Bdd (S × P1)) : Bdd P1 :=
  Bdd.existsAbstract S (fun s a => pivotState s && player1Strategy (s, a))

/-- Modelled from the spec: the abstractor's predicate set after it has received
the commands `handed`: the predicates registered before, followed by the
predicates of the commands (MenuGameAbstractor::refine is not among the
sources). -/
def predicatesAfter {E U S P1 Aux : Type} (abstractor : MenuGameAbstractor E U S P1 Aux)
    (handed : List (RefinementCommand E)) : List E :=
  abstractor.getAbstractionInformation.getPredicates
    ++ handed.flatMap RefinementCommand.getPredicates

/-- The refiner with the flag `splitGuards` set to `flag`. -/
def MenuGameRefiner.withSplitGuards {E U S P1 Aux : Type}
    (refiner : MenuGameRefiner E U S P1 Aux) (flag : Bool) : MenuGameRefiner E U S P1 Aux :=
  ⟨refiner.abstractor, refiner.splitPredicates, flag, refiner.splitter,
    refiner.equivalenceChecker, refiner.expressions⟩

/-! ## Further instances -/

/-- A game over the states `false` and `true` with one player 1 choice and two
player 2 choices: from `false` the player 2 choice `b` leads to the state `b`. -/
def branchingGame : MenuGame Bool Unit Bool Unit Int where
  getInitialStates := Bdd.cube false
  getExtendedTransitionMatrix := fun e => if e.1 = false ∧ e.2.2.2.2 = e.2.2.1 then 1 else 0

/-- The transition relation of the branching game as a BDD. -/
def branchingTransitions : Bdd (Bool × Unit × Bool × Bool) :=
  fun t => !t.1 && (t.2.2.2 == t.2.2.1)

/-- A qualitative result whose probability-0 strategy always takes the player 2
choice `false` and whose probability-1 strategy always takes `true`. -/
def differingQualitativeResult : QualitativeResultMinMax Bool Unit Bool where
  prob0Min :=
    { getPlayer1Strategy := fun _ => true
      getPlayer2Strategy := twoStatePlayer2Strategy false
      getPlayer2States := fun _ => false }
  prob1Max :=
    { getPlayer1Strategy := fun _ => true
      getPlayer2Strategy := twoStatePlayer2Strategy true
      getPlayer2States := fun _ => true }

/-- A qualitative result whose probability-0 result defines no player 2
strategy. -/
def undefinedMinQualitativeResult : QualitativeResultMinMax Bool Unit Bool where
  prob0Min :=
    { getPlayer1Strategy := fun _ => true
      getPlayer2Strategy := Bdd.zero
      getPlayer2States := fun _ => false }
  prob1Max :=
    { getPlayer1Strategy := fun _ => true
      getPlayer2Strategy := twoStatePlayer2Strategy true
      getPlayer2States := fun _ => true }

/-- A quantitative result whose lower and upper result carry the same
strategies. -/
def sameStrategiesQuantitativeResult : QuantitativeResultMinMax Bool Unit Bool Int where
  min :=
    { values := fun _ => 0
      player1Strategy := fun _ => true
      player2Strategy := twoStatePlayer2Strategy false }
  max :=
    { values := fun _ => 1
      player1Strategy := fun _ => true
      player2Strategy := twoStatePlayer2Strategy false }

/-- An abstractor whose successor `true` is the bottom state and whose guard
`x >= 1` is already a registered predicate. -/
def registeredGuardAbstractor : MenuGameAbstractor ToyExpr ToyTerm Bool Unit Unit where
  getAbstractionInformation :=
    { getPlayer1VariableCount := 0
      decodePlayer1Choice := fun _ _ => 0
      getBottomStateBdd := fun _ _ s => s
      decodeChoiceToUpdateSuccessorMapping := fun _ => []
      getPredicateByIndex := fun _ => .ge .x (.lit 1)
      getPredicates := [.ge .x (.lit 1)] }
  getGuard := fun _ => .ge .x (.lit 1)
  getVariableUpdates := fun _ _ => .sub .x (.lit 1)
  getPlayer1ChoiceRange := (0, 1)

/-- A refiner over the abstractor with the registered guard that splits guards. -/
def registeredGuardRefiner : MenuGameRefiner ToyExpr ToyTerm Bool Unit Unit where
  abstractor := registeredGuardAbstractor
  splitPredicates := false
  splitGuards := true
  splitter := fun e => [e]
  equivalenceChecker := fun a b => decide (a = b)
  expressions := { substitute := ToyExpr.substitute, simplify := fun e => e }

/-- An abstractor with three commands whose guards are `x >= 1`, `x >= 2` and
`x >= 2`; the registered predicate is `x >= 1`. -/
def threeCommandAbstractor : MenuGameAbstractor ToyExpr ToyTerm Bool Unit Unit where
  getAbstractionInformation :=
    { getPlayer1VariableCount := 2
      decodePlayer1Choice := fun _ _ => 0
      getBottomStateBdd := fun _ _ _ => false
      decodeChoiceToUpdateSuccessorMapping := fun _ => []
      getPredicateByIndex := fun _ => .ge .x (.lit 1)
      getPredicates := [.ge .x (.lit 1)] }
  getGuard := fun index => if index = 0 then .ge .x (.lit 1) else .ge .x (.lit 2)
  getVariableUpdates := fun _ _ => .sub .x (.lit 1)
  getPlayer1ChoiceRange := (0, 3)

/-! ## Instances with two updates and with two player 1 choices -/

/-- An abstractor for one command with two updates, `x := x - 1` (update 0) and
`x := x - 2` (update 1), and the single predicate `x >= 1`; there is no bottom
state.  A choice is decoded to one entry per (update, successor) valuation, in
the order of the update index. -/
def twoUpdateAbstractor : MenuGameAbstractor ToyExpr ToyTerm Bool Unit Bool where
  getAbstractionInformation :=
    { getPlayer1VariableCount := 0
      decodePlayer1Choice := fun _ _ => 0
      getBottomStateBdd := fun _ _ _ => false
      decodeChoiceToUpdateSuccessorMapping := fun choice =>
        ((allValuations (Bool × Bool)).filter choice).map
          (fun c => (if c.1 then 1 else 0, [c.2]))
      getPredicateByIndex := fun _ => .ge .x (.lit 1)
      getPredicates := [.ge .x (.lit 1)] }
  getGuard := fun _ => .ge .x (.lit 2)
  getVariableUpdates := fun _ updateIndex =>
    if updateIndex = 0 then .sub .x (.lit 1) else .sub .x (.lit 2)
  getPlayer1ChoiceRange := (0, 1)

/-- A refiner over the abstractor with two updates. -/
def twoUpdateRefiner : MenuGameRefiner ToyExpr ToyTerm Bool Unit Bool where
  abstractor := twoUpdateAbstractor
  splitPredicates := false
  splitGuards := false
  splitter := fun e => [e]
  equivalenceChecker := fun a b => decide (a = b)
  expressions := { substitute := ToyExpr.substitute, simplify := fun e => e }

/-- A quantitative result over the two states whose lower and upper values are
both one everywhere. -/
def equalValuesQuantitativeResult : QuantitativeResultMinMax Bool Unit Unit Int where
  min := { values := fun _ => 1, player1Strategy := fun _ => true, player2Strategy := fun _ => true }
  max := { values := fun _ => 1, player1Strategy := fun _ => true, player2Strategy := fun _ => true }

/-- A game over the states `false` and `true` with two player 1 choices and two
player 2 choices: from `false` the player 2 choice `b` leads to the state `b`,
under either player 1 choice. -/
def twoChoiceGame : MenuGame Bool Bool Bool Unit Int where
  getInitialStates := Bdd.cube false
  getExtendedTransitionMatrix := fun e => if e.1 = false ∧ e.2.2.2.2 = e.2.2.1 then 1 else 0

/-- The transition relation of the game with two player 1 choices as a BDD. -/
def twoChoiceTransitions : Bdd (Bool × Bool × Bool × Bool) :=
  fun t => !t.1 && (t.2.2.2 == t.2.2.1)

/-- A player 1 strategy of the game with two player 1 choices: always the
choice `a`. -/
def twoChoicePlayer1Strategy (a : Bool) : Bdd (Bool × Bool) :=
  fun c => c.2 == a

/-- A player 2 strategy of the game with two player 1 choices: always the
choice `b`. -/
def twoChoicePlayer2Strategy (b : Bool) : Bdd (Bool × Bool × Bool) :=
  fun n => n.2.2 == b

/-- A qualitative result over the game with two player 1 choices: the
probability-0 strategy takes the player 1 choice `false`, the probability-1
strategy the choice `true`, and every player 2 state is a probability-0
state. -/
def redirectingQualitativeResult : QualitativeResultMinMax Bool Bool Bool where
  prob0Min :=
    { getPlayer1Strategy := twoChoicePlayer1Strategy false
      getPlayer2Strategy := twoChoicePlayer2Strategy false
      getPlayer2States := fun _ => true }
  prob1Max :=
    { getPlayer1Strategy := twoChoicePlayer1Strategy true
      getPlayer2Strategy := twoChoicePlayer2Strategy true
      getPlayer2States := fun _ => true }

/-- The toy abstractor after the predicates `added` have been registered behind
its own. -/
def toyAbstractorAfter (added : List ToyExpr) :
    MenuGameAbstractor ToyExpr ToyTerm Bool Unit Unit where
  getAbstractionInformation :=
    { getPlayer1VariableCount := toyAbstractor.getAbstractionInformation.getPlayer1VariableCount
      decodePlayer1Choice := toyAbstractor.getAbstractionInformation.decodePlayer1Choice
      getBottomStateBdd := toyAbstractor.getAbstractionInformation.getBottomStateBdd
      decodeChoiceToUpdateSuccessorMapping :=
        toyAbstractor.getAbstractionInformation.decodeChoiceToUpdateSuccessorMapping
      getPredicateByIndex := toyAbstractor.getAbstractionInformation.getPredicateByIndex
      getPredicates := toyAbstractor.getAbstractionInformation.getPredicates ++ added }
  getGuard := toyAbstractor.getGuard
  getVariableUpdates := toyAbstractor.getVariableUpdates
  getPlayer1ChoiceRange := toyAbstractor.getPlayer1ChoiceRange

/-! ## Kwek-Mehlhorn -/

/-- Modelled from the spec: storm::utility::divide on arbitrary-precision
integers (not among the sources): quotient and remainder of the division that
rounds down; dividing by zero is a fatal arithmetic error. -/
def divide (dividend divisor : Int) : Except Fatal (Int × Int) :=
  if divisor = 0 then .error "Division by zero."
  else .ok (Int.fdiv dividend divisor, Int.fmod dividend divisor)

/-- The function kwek_mehlhorn::findRational(alpha, beta, gamma, delta) over
arbitrary-precision integers.  `fuel` bounds the depth of the recursion: the
result is `none` when the bound is reached, `some (.error _)` when a division
by zero stopped the computation and `some (.ok (p, q))` when the pair `(p, q)`
is returned. -/
def findRational : Nat → Int → Int → Int → Int → Option (Except Fatal (Int × Int))
  | 0, _, _, _, _ => none
  | fuel + 1, alpha, beta, gamma, delta =>
    match divide alpha beta with
    | .error e => some (.error e)
    | .ok alphaDivBetaPair =>
      match divide gamma delta with
      | .error e => some (.error e)
      | .ok gammaDivDeltaPair =>
        if alphaDivBetaPair.1 = gammaDivDeltaPair.1 ∧ alphaDivBetaPair.2 ≠ 0 then
          match findRational fuel delta gammaDivDeltaPair.2 beta alphaDivBetaPair.2 with
          | none => none
          | some (.error e) => some (.error e)
          | some (.ok subresult) =>
            some (.ok (alphaDivBetaPair.1 * subresult.1 + subresult.2, subresult.1))
        else
          some (.ok (if alphaDivBetaPair.2 = 0 then alphaDivBetaPair.1
            else alphaDivBetaPair.1 + 1, 1))


/-- Modelled from the spec: storm::utility::trunc on an exact rational (not
among the sources): the integer obtained by dividing numerator by denominator
with rounding toward zero. -/
def trunc (number : ℚ) : Int := Int.tdiv number.num number.den

/-- Modelled from the spec: storm::utility::floor on an exact rational (not
among the sources). -/
def floor (number : ℚ) : Int := Rat.floor number

/-- The generic kwek_mehlhorn::truncateToRational (lines 30-37), at an exact
rational value. -/
def truncateToRational (value : ℚ) (precision : Nat) : Int × Int :=
  let powerOfTen : Int := 10 ^ precision
  let truncated : Int := trunc (value * powerOfTen)
  (truncated, powerOfTen)

/-- The overload kwek_mehlhorn::findRational(precision, value) (lines 50-59). -/
def findRationalWithPrecision (fuel : Nat) (precision : Nat) (value : ℚ) :
    Option (Except Fatal ℚ) :=
  let truncatedFraction := truncateToRational value precision
  match findRational fuel truncatedFraction.1 truncatedFraction.2 (truncatedFraction.1 + 1)
      truncatedFraction.2 with
  | none => none
  | some (.error e) => some (.error e)
  | some (.ok result) => some (.ok ((result.1 : ℚ) / (result.2 : ℚ)))

/-- The function kwek_mehlhorn::sharpen(precision, value) (lines 61-67), at an
exact rational value. -/
def sharpen (fuel : Nat) (precision : Nat) (value : ℚ) : Option (Except Fatal ℚ) :=
  let integer : ℚ := floor value
  let fraction : ℚ := value - integer
  match findRationalWithPrecision fuel precision fraction with
  | none => none
  | some (.error e) => some (.error e)
  | some (.ok rational) => some (.ok (integer + rational))

/-! ## ExplicitGspnModelBuilder -/

/-- Modelled from the spec: the part of storm::gspn::Transition (not among the
sources) read by the builder; `M` is the type of markings. -/
structure Transition (M : Type) where
  getName : String
  isEnabled : M → Bool
  getPriority : Nat

/-- The class storm::gspn::ImmediateTransition: a transition with a weight. -/
structure ImmediateTransition (M W : Type) extends Transition M where
  getWeight : W

/-- Modelled from the spec: storm::gspn::TimedTransition (not among the
sources): a transition with a rate. -/
structure TimedTransition (M W : Type) extends Transition M where
  getRate : W

/-- Modelled from the spec: the part of storm::gspn::GSPN (not among the
sources) read by the two transition filters. -/
structure GSPN (M W : Type) where
  getTimedTransitions : List (TimedTransition M W)
  getImmediateTransitions : List (ImmediateTransition M W)

/-- The loop of getEnabledTimedTransition (lines 235-243): an enabled
transition is appended to `result`, after `result` was cleared when its
priority exceeds `highestSeenPriority`. -/
def getEnabledTimedTransitionLoop {M W : Type} (marking : M) :
    List (TimedTransition M W) → Nat → List (TimedTransition M W) → List (TimedTransition M W)
  | [], _, result => result
  | trans_ptr :: rest, highestSeenPriority, result =>
    if trans_ptr.isEnabled marking then
      if trans_ptr.getPriority > highestSeenPriority then
        getEnabledTimedTransitionLoop marking rest trans_ptr.getPriority [trans_ptr]
      else
        getEnabledTimedTransitionLoop marking rest highestSeenPriority (result ++ [trans_ptr])
    else
      getEnabledTimedTransitionLoop marking rest highestSeenPriority result

/-- ExplicitGspnModelBuilder::getEnabledTimedTransition. -/
def getEnabledTimedTransition {M W : Type} (gspn : GSPN M W) (marking : M) :
    List (TimedTransition M W) :=
  getEnabledTimedTransitionLoop marking gspn.getTimedTransitions 0 []

/-- The loop of getEnabledImmediateTransition (lines 255-263), which repeats the
loop of getEnabledTimedTransition on the immediate transitions. -/
def getEnabledImmediateTransitionLoop {M W : Type} (marking : M) :
    List (ImmediateTransition M W) → Nat → List (ImmediateTransition M W) →
      List (ImmediateTransition M W)
  | [], _, result => result
  | trans_ptr :: rest, highestSeenPriority, result =>
    if trans_ptr.isEnabled marking then
      if trans_ptr.getPriority > highestSeenPriority then
        getEnabledImmediateTransitionLoop marking rest trans_ptr.getPriority [trans_ptr]
      else
        getEnabledImmediateTransitionLoop marking rest highestSeenPriority (result ++ [trans_ptr])
    else
      getEnabledImmediateTransitionLoop marking rest highestSeenPriority result

/-- ExplicitGspnModelBuilder::getEnabledImmediateTransition. -/
def getEnabledImmediateTransition {M W : Type} (gspn : GSPN M W) (marking : M) :
    List (ImmediateTransition M W) :=
  getEnabledImmediateTransitionLoop marking gspn.getImmediateTransitions 0 []

/-- The loop of partitonEnabledImmediateTransitions (lines 187-195): a
transition of weight zero is appended to `result` as a singleton group, every
other transition is appended to `weightedTransitions`. -/
def partitonEnabledImmediateTransitionsLoop {M W : Type} [Zero W] [DecidableEq W] :
    List (ImmediateTransition M W) → List (List (ImmediateTransition M W)) →
      List (ImmediateTransition M W) →
      List (List (ImmediateTransition M W)) × List (ImmediateTransition M W)
  | [], result, weightedTransitions => (result, weightedTransitions)
  | transition :: rest, result, weightedTransitions =>
    if transition.getWeight = 0 then
      let singleton := [transition]
      partitonEnabledImmediateTransitionsLoop rest (result ++ [singleton]) weightedTransitions
    else
      partitonEnabledImmediateTransitionsLoop rest result (weightedTransitions ++ [transition])

/-- ExplicitGspnModelBuilder::partitonEnabledImmediateTransitions; the marking
is passed and not read. -/
def partitonEnabledImmediateTransitions {M W : Type} [Zero W] [DecidableEq W] (_marking : M)
    (enabledImmediateTransitions : List (ImmediateTransition M W)) :
    List (List (ImmediateTransition M W)) :=
  let state := partitonEnabledImmediateTransitionsLoop enabledImmediateTransitions [] []
  let result := state.1
  let weightedTransitions := state.2
  if weightedTransitions.length ≠ 0 then result ++ [weightedTransitions] else result

/-- An immediate transition that is enabled in every marking. -/
def enabledImmediate (name : String) (priority : Nat) (weight : Int) :
    ImmediateTransition Unit Int :=
  { getName := name, isEnabled := fun _ => true, getPriority := priority, getWeight := weight }

/-- A timed transition that is enabled in every marking. -/
def enabledTimed (name : String) (priority : Nat) (rate : Int) : TimedTransition Unit Int :=
  { getName := name, isEnabled := fun _ => true, getPriority := priority, getRate := rate }

/-- A net whose transitions of either kind are listed with the priorities 2
and 1, in this order. -/
def descendingPriorityNet : GSPN Unit Int where
  getTimedTransitions := [enabledTimed "t2" 2 1, enabledTimed "t1" 1 1]
  getImmediateTransitions := [enabledImmediate "i2" 2 1, enabledImmediate "i1" 1 1]

/-! ## Sparse matrices and bit vector updates -/

/-- Modelled from the spec: BitVector::set(index), which sets the bit to true. -/
def BitVector.set (b : BitVector) (index : Nat) : BitVector := List.set b index true

/-- Modelled from the spec: BitVector::empty, which holds when no bit is set. -/
def BitVector.empty (b : BitVector) : Bool := b.all (fun bit => !bit)

/-- Modelled from the spec: the indices visited by iterating over a BitVector,
the set bits in increasing order. -/
def BitVector.setBits (b : BitVector) : List Nat :=
  (List.range (BitVector.size b)).filter (fun index => BitVector.get b index)

/-- Modelled from the spec: storm::storage::SparseMatrix (not among the sources)
in its compressed row format: entry `k` has the column and value
`columnsAndValues[k]`, row `r` consists of the entries from `rowIndications[r]`
up to, not including, `rowIndications[r + 1]`, and row group `g` of the rows
from `rowGroupIndices[g]` up to, not including, `rowGroupIndices[g + 1]`. -/
structure SparseMatrix (V : Type) where
  columnsAndValues : List (Nat × V)
  rowIndications : List Nat
  rowGroupIndices : List Nat

/-- Modelled from the spec: SparseMatrix::getRowCount. -/
def SparseMatrix.getRowCount {V : Type} (matrix : SparseMatrix V) : Nat :=
  matrix.rowIndications.length - 1

/-- Modelled from the spec: SparseMatrix::getRowGroupCount. -/
def SparseMatrix.getRowGroupCount {V : Type} (matrix : SparseMatrix V) : Nat :=
  matrix.rowGroupIndices.length - 1

/-- Modelled from the spec: SparseMatrix::getEntryCount. -/
def SparseMatrix.getEntryCount {V : Type} (matrix : SparseMatrix V) : Nat :=
  matrix.columnsAndValues.length

/-- Modelled from the spec: SparseMatrix::getRow: the entries of the row, each
paired with its offset from `begin()`. -/
def SparseMatrix.getRow {V : Type} (matrix : SparseMatrix V) (row : Nat) :
    List (Nat × Nat × V) :=
  let start := matrix.rowIndications.getD row 0
  let stop := matrix.rowIndications.getD (row + 1) 0
  List.enumFrom start ((matrix.columnsAndValues.drop start).take (stop - start))

/-! ## MemoryStructureBuilder -/

/-- The exceptions thrown by STORM_LOG_THROW in the embedded functions. -/
inductive StormException
  | InvalidOperationException (message : String)
  deriving DecidableEq, Repr

/-- Modelled from the spec: the part of storm::models::sparse::Model (not among
the sources) read by the builder. -/
structure SparseModel (V : Type) where
  getTransitionMatrix : SparseMatrix V
  getInitialStates : BitVector

/-- The members of MemoryStructureBuilder; `L` is the type of the state
labeling. -/
structure MemoryStructureBuilder (V L : Type) where
  model : SparseModel V
  transitions : List (List (Option BitVector))
  stateLabeling : L
  initialMemoryStates : List Nat

/-- The inner loop of setTransition (lines 48-52 and 56-60): the entries of the
row `choice` whose column is in `modelStates` are set in `transitionVector`. -/
def markRow {V : Type} (modelTransitions : SparseMatrix V) (modelStates : BitVector)
    (transitionVector : BitVector) (choice : Nat) : BitVector :=
  (modelTransitions.getRow choice).foldl
    (fun vector entry =>
      if BitVector.get modelStates entry.2.1 then BitVector.set vector entry.1 else vector)
    transitionVector

/-- The assignment `transitions[startState][goalState] = value`. -/
def assignTransition (transitions : List (List (Option BitVector))) (startState goalState : Nat)
    (value : Option BitVector) : List (List (Option BitVector)) :=
  transitions.set startState ((transitions.getD startState []).set goalState value)

/-- MemoryStructureBuilder::setTransition: the outcome of the call together
with the builder it leaves behind. -/
def MemoryStructureBuilder.setTransition {V L : Type} (builder : MemoryStructureBuilder V L)
    (startState goalState : Nat) (modelStates : BitVector) (modelChoices : Option BitVector) :
    Except StormException Unit × MemoryStructureBuilder V L :=
  let modelTransitions := builder.model.getTransitionMatrix
  if ¬ startState < builder.transitions.length then
    (.error (.InvalidOperationException ("Invalid index of start state: " ++ toString startState
      ++ ". There are only " ++ toString builder.transitions.length
      ++ " states in this memory structure.")), builder)
  else if ¬ goalState < builder.transitions.length then
    (.error (.InvalidOperationException ("Invalid index of goal state: " ++ toString startState
      ++ ". There are only " ++ toString builder.transitions.length
      ++ " states in this memory structure.")), builder)
  else if ¬ BitVector.size modelStates = modelTransitions.getRowGroupCount then
    (.error (.InvalidOperationException "The modelStates have invalid size."), builder)
  else if ¬ (modelChoices.all
      (fun choices => decide (BitVector.size choices = modelTransitions.getRowGroupCount))) then
    (.error (.InvalidOperationException "The modelChoices have invalid size."), builder)
  else
    let transitionVector : BitVector := List.replicate modelTransitions.getEntryCount false
    let transitionVector :=
      match modelChoices with
      | some choices =>
        (BitVector.setBits choices).foldl (markRow modelTransitions modelStates) transitionVector
      | none =>
        (List.range modelTransitions.getRowCount).foldl (markRow modelTransitions modelStates)
          transitionVector
    if BitVector.empty transitionVector then
      (.ok (), { builder with
        transitions := assignTransition builder.transitions startState goalState none })
    else
      (.ok (), { builder with
        transitions :=
          assignTransition builder.transitions startState goalState (some transitionVector) })

/-- The entry `transitions[startState][goalState]` of the builder; an entry that
is not there reads as absent. -/
def MemoryStructureBuilder.transitionAt {V L : Type} (builder : MemoryStructureBuilder V L)
    (startState goalState : Nat) : Option BitVector :=
  (builder.transitions.getD startState []).getD goalState none

/-- A matrix with two row groups and three rows: row 0 has the entries 0 and 1
(columns 0 and 1), row 1 the entry 2 (column 1), row 2 no entry. -/
def smallMatrix : SparseMatrix Int where
  columnsAndValues := [(0, 1), (1, 1), (1, 2)]
  rowIndications := [0, 2, 3, 3]
  rowGroupIndices := [0, 2, 3]

/-- A builder for two memory states over the small matrix. -/
def smallBuilder : MemoryStructureBuilder Int Unit where
  model := { getTransitionMatrix := smallMatrix, getInitialStates := [true, false] }
  transitions := [[none, none], [none, none]]
  stateLabeling := ()
  initialMemoryStates := [0]

/-! ## NondeterministicBeliefTracker -/

/-- Modelled from the spec: std::map<uint64_t, ValueType> (standard library), as
the list of its entries in increasing key order. -/
abbrev StdMap (V : Type) := List (Nat × V)

/-- Modelled from the spec: std::map::count. -/
def StdMap.count {V : Type} (map : StdMap V) (key : Nat) : Nat :=
  if map.any (fun entry => entry.1 == key) then 1 else 0

/-- Modelled from the spec: the assignment `map[key] = value`. -/
def StdMap.assign {V : Type} : StdMap V → Nat → V → StdMap V
  | [], key, value => [(key, value)]
  | entry :: rest, key, value =>
    if key < entry.1 then (key, value) :: entry :: rest
    else if key = entry.1 then (key, value) :: rest
    else entry :: StdMap.assign rest key value

/-- Modelled from the spec: the update `map[key] += value`; `operator[]` inserts
a zero for a key that is not there. -/
def StdMap.addTo {V : Type} [AddMonoid V] : StdMap V → Nat → V → StdMap V
  | [], key, value => [(key, 0 + value)]
  | entry :: rest, key, value =>
    if key < entry.1 then (key, 0 + value) :: entry :: rest
    else if key = entry.1 then (key, entry.2 + value) :: rest
    else entry :: StdMap.addTo rest key value

/-- Modelled from the spec: the part of storm::models::sparse::Pomdp (not among
the sources) read by the belief tracker; `observations[state]` is the
observation of the state. -/
structure Pomdp (V : Type) where
  getTransitionMatrix : SparseMatrix V
  observations : List Nat

/-- Modelled from the spec: Pomdp::getNondeterministicChoiceIndices. -/
def Pomdp.getNondeterministicChoiceIndices {V : Type} (pomdp : Pomdp V) : List Nat :=
  pomdp.getTransitionMatrix.rowGroupIndices

/-- Modelled from the spec: Pomdp::getNumberOfChoices. -/
def Pomdp.getNumberOfChoices {V : Type} (pomdp : Pomdp V) (state : Nat) : Nat :=
  pomdp.getNondeterministicChoiceIndices.getD (state + 1) 0
    - pomdp.getNondeterministicChoiceIndices.getD state 0

/-- Modelled from the spec: Pomdp::getObservation. -/
def Pomdp.getObservation {V : Type} (pomdp : Pomdp V) (state : Nat) : Nat :=
  pomdp.observations.getD state 0

/-- The members of BeliefStateManager read or written by the update. -/
structure BeliefStateManager (V : Type) where
  pomdp : Pomdp V
  riskPerState : List V
  beliefIdCounter : Nat

/-- BeliefStateManager::getRisk: `riskPerState.at(state)`, which throws for a
state without an entry. -/
def BeliefStateManager.getRisk {V : Type} (manager : BeliefStateManager V) (state : Nat) :
    Except Fatal V :=
  match manager.riskPerState[state]? with
  | some risk => .ok risk
  | none => .error "std::out_of_range"

/-- BeliefStateManager::getFreshId: the fresh id and the manager after the
counter was incremented. -/
def BeliefStateManager.getFreshId {V : Type} (manager : BeliefStateManager V) :
    Nat × BeliefStateManager V :=
  (manager.beliefIdCounter + 1, { manager with beliefIdCounter := manager.beliefIdCounter + 1 })

/-- The members of SparseBeliefState. -/
structure SparseBeliefState (V : Type) where
  belief : StdMap V
  prestoredhash : Nat
  risk : V
  id : Nat
  prevId : Nat

/-- The loop over the transitions of one row in SparseBeliefState::update (lines
128-139): a transition whose successor carries the observation adds its
weighted value to the successor's entry of `newBelief` and to `sum`. -/
def updateRowLoop {V : Type} [Semiring V] (pomdp : Pomdp V) (observation : Nat)
    (beliefValue : V) : List (Nat × Nat × V) → StdMap V × V → StdMap V × V
  | [], state => state
  | transition :: rest, (newBelief, sum) =>
    if observation ≠ pomdp.getObservation transition.2.1 then
      updateRowLoop pomdp observation beliefValue rest (newBelief, sum)
    else
      updateRowLoop pomdp observation beliefValue rest
        (if StdMap.count newBelief transition.2.1 = 0 then
            StdMap.assign newBelief transition.2.1 (transition.2.2 * beliefValue)
          else
            StdMap.addTo newBelief transition.2.1 (transition.2.2 * beliefValue),
          sum + transition.2.2 * beliefValue)

/-- The loop over the entries of the belief in SparseBeliefState::update (lines
125-140); a failed assertion is fatal. -/
def updateBeliefLoop {V : Type} [Semiring V] (pomdp : Pomdp V)
    (action observation : Nat) : List (Nat × V) → StdMap V × V → Except Fatal (StdMap V × V)
  | [], state => .ok state
  | beliefentry :: rest, state =>
    if ¬ pomdp.getNumberOfChoices beliefentry.1 > action then
      .error "Assertion failed: getNumberOfChoices(beliefentry.first) > action"
    else
      let row := pomdp.getNondeterministicChoiceIndices.getD beliefentry.1 0 + action
      updateBeliefLoop pomdp action observation rest
        (updateRowLoop pomdp observation beliefentry.2 (pomdp.getTransitionMatrix.getRow row)
          state)

/-- The loop over the entries of `newBelief` in SparseBeliefState::update (lines
143-149): every entry is divided by `sum`, its key is combined into the hash
and its weighted risk is added; `done` holds the entries already visited. -/
def normalizeLoop {V : Type} [Field V] [DecidableEq V]
    (hashCombine : Nat → Nat → Nat) (manager : BeliefStateManager V) (sum : V) :
    List (Nat × V) → StdMap V × Nat × V → Except Fatal (StdMap V × Nat × V)
  | [], state => .ok state
  | entry :: rest, (done, newHash, risk) =>
    if sum = 0 then .error "Assertion failed: !storm::utility::isZero(sum)"
    else
      match manager.getRisk entry.1 with
      | .error e => .error e
      | .ok stateRisk =>
        normalizeLoop hashCombine manager sum rest
          (done ++ [(entry.1, entry.2 / sum)], hashCombine newHash entry.1,
            risk + entry.2 / sum * stateRisk)

/-- SparseBeliefState::update(action, observation): the new belief state and the
manager after it handed out the id of the new state.  `hashCombine` stands for
boost::hash_combine. -/
def SparseBeliefState.update {V : Type} [Field V] [DecidableEq V]
    (hashCombine : Nat → Nat → Nat) (manager : BeliefStateManager V)
    (self : SparseBeliefState V) (action observation : Nat) :
    Except Fatal (SparseBeliefState V × BeliefStateManager V) :=
  match updateBeliefLoop manager.pomdp action observation self.belief ([], 0) with
  | .error e => .error e
  | .ok (newBelief, sum) =>
    match normalizeLoop hashCombine manager sum newBelief ([], 0, 0) with
    | .error e => .error e
    | .ok (newBelief, newHash, risk) =>
      let fresh := manager.getFreshId
      .ok ({ belief := newBelief, prestoredhash := newHash, risk := risk, id := fresh.1,
              prevId := self.id }, fresh.2)

/-- The contributions added up by the two loops of the update, in the order of
the loops: for every entry of the belief and every transition of its row under
the action whose successor carries the observation, the successor with the
transition value weighted by the belief entry. -/
def weightedSuccessors {V : Type} [Mul V] (pomdp : Pomdp V) (belief : StdMap V)
    (action observation : Nat) : List (Nat × V) :=
  belief.flatMap (fun beliefentry =>
    ((pomdp.getTransitionMatrix.getRow
        (pomdp.getNondeterministicChoiceIndices.getD beliefentry.1 0 + action)).filter
      (fun transition => decide (observation = pomdp.getObservation transition.2.1))).map
      (fun transition => (transition.2.1, transition.2.2 * beliefentry.2)))

/-- The sum of the contributions that go into `state`. -/
def massInto {V : Type} [AddMonoid V] (contributions : List (Nat × V)) (state : Nat) : V :=
  ((contributions.filter (fun contribution => decide (contribution.1 = state))).map
    Prod.snd).sum

/-- The invariant of the two loops of the update once the contributions
`processed` were added: `newBelief` is ordered by key, its keys are the
successors of `processed`, its entries are positive, the entry of a key is the
sum of the contributions to that key, and `sum` is the sum of the entries and
of the contributions. -/
def UpdateInvariant {V : Type} [LinearOrderedField V] (processed : List (Nat × V))
    (state : StdMap V × V) : Prop :=
  state.1.Pairwise (fun a b => a.1 < b.1) ∧
    (∀ k, k ∈ state.1.map Prod.fst ↔ k ∈ processed.map Prod.fst) ∧
    (∀ e ∈ state.1, 0 < e.2) ∧
    (∀ k, massInto state.1 k = massInto processed k) ∧
    (state.1.map Prod.snd).sum = state.2 ∧
    state.2 = (processed.map Prod.snd).sum

/-- A POMDP with three states: state 0 has one action that leads to state 1
with probability 1/4 and to state 2 with probability 3/4, states 1 and 2 loop;
state 0 carries observation 0, states 1 and 2 carry observation 1. -/
def smallPomdp : Pomdp ℚ where
  getTransitionMatrix :=
    { columnsAndValues := [(1, 1/4), (2, 3/4), (1, 1), (2, 1)]
      rowIndications := [0, 2, 3, 4]
      rowGroupIndices := [0, 1, 2, 3] }
  observations := [0, 1, 1]

/-- A manager for the small POMDP with a risk for every state. -/
def smallManager : BeliefStateManager ℚ where
  pomdp := smallPomdp
  riskPerState := [0, 1, 0]
  beliefIdCounter := 1

/-- The belief that is certain of state 0. -/
def initialBelief : SparseBeliefState ℚ where
  belief := [(0, 1)]
  prestoredhash := 0
  risk := 0
  id := 1
  prevId := 0

/-- A quantitative result whose lower strategy always takes the player 2 choice
`false` and whose upper strategy always takes `true`. -/
def differingQuantitativeResult : QuantitativeResultMinMax Bool Unit Bool Int where
  min :=
    { values := fun _ => 0
      player1Strategy := fun _ => true
      player2Strategy := twoStatePlayer2Strategy false }
  max :=
    { values := fun _ => 1
      player1Strategy := fun _ => true
      player2Strategy := twoStatePlayer2Strategy true }

/-! # Properties -/

/-! ## Facts about the diagram algebra -/

theorem Bdd.isZero_eq_true_iff {α : Type} [Valuations α] (f : Bdd α) :
    Bdd.isZero f = true ↔ ∀ a, f a = false := by
  unfold Bdd.isZero allValuations
  rw [List.all_eq_true]
  constructor
  · intro h a
    simpa using h a (Valuations.complete a)
  · intro h a _
    simp [h a]

theorem Bdd.isZero_eq_false_iff {α : Type} [Valuations α] (f : Bdd α) :
    Bdd.isZero f = false ↔ ∃ a, f a = true := by
  rw [← Bool.not_eq_true, Bdd.isZero_eq_true_iff]
  push_neg
  simp

theorem Bdd.existsAbstract_eq_true_iff {α β : Type} [Valuations β] (f : β → Bdd α) (a : α) :
    Bdd.existsAbstract β f a = true ↔ ∃ b, f b a = true := by
  unfold Bdd.existsAbstract allValuations
  rw [List.any_eq_true]
  constructor
  · rintro ⟨b, _, hb⟩
    exact ⟨b, hb⟩
  · rintro ⟨b, hb⟩
    exact ⟨b, Valuations.complete b, hb⟩

theorem Bdd.relationalProduct_eq_true_iff {S : Type} [Valuations S] (states : Bdd S)
    (relation : Bdd (S × S)) (t : S) :
    Bdd.relationalProduct states relation t = true ↔
      ∃ s, states s = true ∧ relation (s, t) = true := by
  unfold Bdd.relationalProduct allValuations
  rw [List.any_eq_true]
  constructor
  · rintro ⟨s, _, hs⟩
    exact ⟨s, by simpa using hs⟩
  · rintro ⟨s, hs⟩
    exact ⟨s, Valuations.complete s, by simpa using hs⟩

/-! ## preprocessPredicates -/

theorem splitLoop_eq_addAtoms {E : Type} (split : E → List E) (areEquivalent : E → E → Bool)
    (oldPredicates : List E) (predicates cleanedAtoms : List E) :
    splitLoop split areEquivalent oldPredicates predicates cleanedAtoms =
      addAtoms areEquivalent oldPredicates (predicates.flatMap split) cleanedAtoms := by
  induction predicates generalizing cleanedAtoms with
  | nil => simp [splitLoop, addAtoms]
  | cons predicate predicates ih =>
    have happ : ∀ (xs ys acc : List E),
        addAtoms areEquivalent oldPredicates (xs ++ ys) acc =
          addAtoms areEquivalent oldPredicates ys (addAtoms areEquivalent oldPredicates xs acc) := by
      intro xs
      induction xs with
      | nil => intro ys acc; simp [addAtoms]
      | cons x xs ihx => intro ys acc; simp [addAtoms, ihx]
    simp [splitLoop, ih, List.flatMap_cons, happ]

theorem addAtoms_append {E : Type} (areEquivalent : E → E → Bool) (oldPredicates : List E)
    (xs ys acc : List E) :
    addAtoms areEquivalent oldPredicates (xs ++ ys) acc =
      addAtoms areEquivalent oldPredicates ys (addAtoms areEquivalent oldPredicates xs acc) := by
  induction xs generalizing acc with
  | nil => simp [addAtoms]
  | cons x xs ih => simp [addAtoms, ih]

/-- The atoms accepted so far stay at the front of the result. -/
theorem addAtoms_extends {E : Type} (areEquivalent : E → E → Bool) (oldPredicates : List E)
    (atoms acc : List E) :
    ∃ more, addAtoms areEquivalent oldPredicates atoms acc = acc ++ more := by
  induction atoms generalizing acc with
  | nil => exact ⟨[], by simp [addAtoms]⟩
  | cons atom atoms ih =>
    simp only [addAtoms]
    split
    · obtain ⟨more, hmore⟩ := ih (acc ++ [atom])
      exact ⟨atom :: more, by simp [hmore]⟩
    · exact ih acc

/-- Being free of equivalences is kept by the loop over the atoms. -/
theorem addAtoms_clean {E : Type} (areEquivalent : E → E → Bool) (oldPredicates : List E)
    (atoms acc : List E)
    (hold : ∀ atom ∈ acc, ∀ old ∈ oldPredicates, areEquivalent atom old = false)
    (hpair : acc.Pairwise (fun earlier atom => areEquivalent earlier atom = false)) :
    (∀ atom ∈ addAtoms areEquivalent oldPredicates atoms acc,
        ∀ old ∈ oldPredicates, areEquivalent atom old = false) ∧
      (addAtoms areEquivalent oldPredicates atoms acc).Pairwise
        (fun earlier atom => areEquivalent earlier atom = false) := by
  induction atoms generalizing acc with
  | nil => exact ⟨by simpa [addAtoms] using hold, by simpa [addAtoms] using hpair⟩
  | cons atom atoms ih =>
    simp only [addAtoms]
    split
    · rename_i hadd
      simp only [Bool.and_eq_true, Bool.not_eq_true', List.any_eq_false] at hadd
      apply ih
      · intro a ha old hmem
        rcases List.mem_append.mp ha with ha | ha
        · exact hold a ha old hmem
        · have : a = atom := by simpa using ha
          subst this
          simpa using hadd.1 old hmem
      · rw [List.pairwise_append]
        refine ⟨hpair, List.pairwise_singleton _ _, ?_⟩
        intro b hb a ha
        have : a = atom := by simpa using ha
        subst this
        simpa using hadd.2 b hb
    · exact ih acc hold hpair

/-- The result of the loop over the atoms is the accumulator followed by a
subsequence of the atoms. -/
theorem addAtoms_sublist {E : Type} (areEquivalent : E → E → Bool) (oldPredicates : List E)
    (atoms acc : List E) :
    ∃ more, addAtoms areEquivalent oldPredicates atoms acc = acc ++ more ∧
      List.Sublist more atoms := by
  induction atoms generalizing acc with
  | nil => exact ⟨[], by simp [addAtoms]⟩
  | cons atom atoms ih =>
    simp only [addAtoms]
    split
    · obtain ⟨more, hmore, hsub⟩ := ih (acc ++ [atom])
      exact ⟨atom :: more, by simp [hmore], hsub.cons₂ atom⟩
    · obtain ⟨more, hmore, hsub⟩ := ih acc
      exact ⟨more, hmore, hsub.cons atom⟩

/-- C3: with splitting enabled, no atom of the result is judged equivalent to a
registered predicate, no atom is judged equivalent to an atom that precedes it
in the result, and every atom produced by the splitter that is missing from
the result is judged equivalent to a registered predicate or to an atom that
was accepted before it: an atom of the list accumulated from the atoms before
it, which is a front part of the result. -/
theorem preprocessPredicates_split_accepts_exactly_fresh_atoms {E U S P1 Aux : Type}
    (refiner : MenuGameRefiner E U S P1 Aux) (predicates : List E) :
    (∀ atom ∈ preprocessPredicates refiner predicates true,
        ∀ old ∈ refiner.abstractor.getAbstractionInformation.getPredicates,
          refiner.equivalenceChecker atom old = false) ∧
      (preprocessPredicates refiner predicates true).Pairwise
        (fun earlier atom => refiner.equivalenceChecker earlier atom = false) ∧
      (∀ before atom after, predicates.flatMap refiner.splitter = before ++ atom :: after →
        atom ∉ preprocessPredicates refiner predicates true →
        (∃ rest, preprocessPredicates refiner predicates true =
          addAtoms refiner.equivalenceChecker
            refiner.abstractor.getAbstractionInformation.getPredicates before [] ++ rest) ∧
          ((∃ old ∈ refiner.abstractor.getAbstractionInformation.getPredicates,
              refiner.equivalenceChecker atom old = true) ∨
            (∃ earlier ∈ addAtoms refiner.equivalenceChecker
                refiner.abstractor.getAbstractionInformation.getPredicates before [],
              refiner.equivalenceChecker earlier atom = true))) := by
  simp only [preprocessPredicates, if_true, splitLoop_eq_addAtoms]
  refine ⟨?_, ?_, ?_⟩
  · exact (addAtoms_clean _ _ _ [] (by simp) List.Pairwise.nil).1
  · exact (addAtoms_clean _ _ _ [] (by simp) List.Pairwise.nil).2
  · intro before atom after hsplit hmissing
    rw [hsplit, addAtoms_append] at hmissing ⊢
    generalize addAtoms refiner.equivalenceChecker
      refiner.abstractor.getAbstractionInformation.getPredicates before [] = accepted at *
    simp only [addAtoms] at hmissing ⊢
    split at hmissing
    · exfalso
      obtain ⟨more, hmore⟩ := addAtoms_extends refiner.equivalenceChecker
        refiner.abstractor.getAbstractionInformation.getPredicates after (accepted ++ [atom])
      apply hmissing
      rw [hmore]
      simp
    · rename_i hadd
      rw [if_neg hadd]
      refine ⟨addAtoms_extends refiner.equivalenceChecker
        refiner.abstractor.getAbstractionInformation.getPredicates after accepted, ?_⟩
      simp only [Bool.and_eq_true, Bool.not_eq_true', not_and_or, Bool.not_eq_false,
        List.any_eq_true] at hadd
      rcases hadd with ⟨old, hold, heq⟩ | ⟨earlier, hearlier, heq⟩
      · exact Or.inl ⟨old, hold, heq⟩
      · exact Or.inr ⟨earlier, hearlier, heq⟩

/-- Witness for C3 on the toy refiner: the atom `x >= 1` is registered and is
dropped, the atom `x >= 2` is accepted once. -/
theorem preprocessPredicates_split_accepts_exactly_fresh_atoms_witness :
    preprocessPredicates toyRefiner
        [.ge .x (.lit 1), .ge .x (.lit 2), .ge .x (.lit 2)] true = [.ge .x (.lit 2)] ∧
      (∀ atom ∈ preprocessPredicates toyRefiner
          [.ge .x (.lit 1), .ge .x (.lit 2), .ge .x (.lit 2)] true,
        ∀ old ∈ toyRefiner.abstractor.getAbstractionInformation.getPredicates,
          toyRefiner.equivalenceChecker atom old = false) :=
  ⟨by decide, (preprocessPredicates_split_accepts_exactly_fresh_atoms toyRefiner
    [.ge .x (.lit 1), .ge .x (.lit 2), .ge .x (.lit 2)]).1⟩

/-- C4: with splitting disabled the input list is returned unchanged, whatever
the splitter, the equivalence checker and the abstractor of the refiner are:
none of them is consulted. -/
theorem preprocessPredicates_no_split_returns_input {E U S P1 Aux : Type}
    (refiner other : MenuGameRefiner E U S P1 Aux) (predicates : List E) :
    preprocessPredicates refiner predicates false = predicates ∧
      (preprocessPredicates refiner predicates false).length = predicates.length ∧
      preprocessPredicates other predicates false
        = preprocessPredicates refiner predicates false := by
  simp [preprocessPredicates]

/-- C5: with splitting enabled the result is a subsequence of the
concatenation of the splitter outputs of the input predicates, taken in input
order. -/
theorem preprocessPredicates_split_is_subsequence {E U S P1 Aux : Type}
    (refiner : MenuGameRefiner E U S P1 Aux) (predicates : List E) :
    List.Sublist (preprocessPredicates refiner predicates true)
      (predicates.flatMap refiner.splitter) := by
  simp only [preprocessPredicates, if_true, splitLoop_eq_addAtoms]
  obtain ⟨more, hmore, hsub⟩ := addAtoms_sublist refiner.equivalenceChecker
    refiner.abstractor.getAbstractionInformation.getPredicates
    (predicates.flatMap refiner.splitter) []
  rw [hmore]
  simpa using hsub

/-- C6: a second call of preprocessPredicates with splitting enabled on the
same predicates, made when the abstractor may have been replaced but its
registered predicates are the same, returns the list the first call returned;
in particular it returns no atom that the first call did not return. -/
theorem preprocessPredicates_split_repeatable {E U S P1 Aux : Type}
    (refiner : MenuGameRefiner E U S P1 Aux) (later : MenuGameAbstractor E U S P1 Aux)
    (predicates : List E)
    (hsame : later.getAbstractionInformation.getPredicates
      = refiner.abstractor.getAbstractionInformation.getPredicates) :
    preprocessPredicates
        ⟨later, refiner.splitPredicates, refiner.splitGuards, refiner.splitter,
          refiner.equivalenceChecker, refiner.expressions⟩ predicates true
        = preprocessPredicates refiner predicates true ∧
      ∀ atom ∈ preprocessPredicates
          ⟨later, refiner.splitPredicates, refiner.splitGuards, refiner.splitter,
            refiner.equivalenceChecker, refiner.expressions⟩ predicates true,
        atom ∈ preprocessPredicates refiner predicates true := by
  have h : preprocessPredicates
        ⟨later, refiner.splitPredicates, refiner.splitGuards, refiner.splitter,
          refiner.equivalenceChecker, refiner.expressions⟩ predicates true
        = preprocessPredicates refiner predicates true := by
    simp [preprocessPredicates, hsame]
  exact ⟨h, fun atom hatom => h ▸ hatom⟩

/-- Witness for C6: the toy refiner, called again after its abstractor was
replaced by one with the same registered predicates. -/
theorem preprocessPredicates_split_repeatable_witness :
    preprocessPredicates
        ⟨bottomAbstractor, toyRefiner.splitPredicates, toyRefiner.splitGuards,
          toyRefiner.splitter, toyRefiner.equivalenceChecker, toyRefiner.expressions⟩
        [.ge .x (.lit 1), .ge .x (.lit 2)] true
      = preprocessPredicates toyRefiner [.ge .x (.lit 1), .ge .x (.lit 2)] true :=
  (preprocessPredicates_split_repeatable toyRefiner bottomAbstractor
    [.ge .x (.lit 1), .ge .x (.lit 2)] rfl).1

/-! ## derivePredicatesFromDifferingChoices -/

theorem deviationLoop_common_front {E U S P1 Aux : Type} (refiner : MenuGameRefiner E U S P1 Aux)
    (player1Index : Nat) (front lower upper : List (Nat × BitVector)) (newPredicate : Option E) :
    deviationLoop refiner player1Index (front ++ lower) (front ++ upper) newPredicate
      = deviationLoop refiner player1Index lower upper newPredicate := by
  induction front with
  | nil => rfl
  | cons entry front ih =>
    obtain ⟨index, bits⟩ := entry
    simp [deviationLoop, ih]

theorem deviationLoop_same {E U S P1 Aux : Type} (refiner : MenuGameRefiner E U S P1 Aux)
    (player1Index : Nat) (mapping : List (Nat × BitVector)) (newPredicate : Option E) :
    deviationLoop refiner player1Index mapping mapping newPredicate = .ok newPredicate := by
  have h := deviationLoop_common_front refiner player1Index mapping [] [] newPredicate
  simpa [deviationLoop] using h

/-- C1: when the lower or the upper choice meets the bottom-state region, the
result is the single predicate getGuard(decodePlayer1Choice(...)) tagged Guard,
and it is the same for every decoding of choices to update-successor mappings:
the mappings are not consulted. -/
theorem derivePredicatesFromDifferingChoices_bottom_successor_gives_guard
    {E U S P1 Aux : Type} (V : Type)
    [Valuations S] [Valuations P1] [Valuations Aux] [Inhabited P1] [Zero V] [One V] [DecidableEq V]
    (refiner : MenuGameRefiner E U S P1 Aux)
    (pivotState : Bdd S) (player1Choice : Bdd P1) (lowerChoice upperChoice : Bdd (Aux × S))
    (hbottom : ∃ c : Aux × S,
      refiner.abstractor.getAbstractionInformation.getBottomStateBdd false false c.2 = true ∧
        (lowerChoice c = true ∨ upperChoice c = true)) :
    derivePredicatesFromDifferingChoices V refiner pivotState player1Choice lowerChoice upperChoice
        = .ok ⟨Source.Guard,
            [refiner.abstractor.getGuard
              (refiner.abstractor.getAbstractionInformation.decodePlayer1Choice
                (Add.beginValuation (Bdd.toAdd V player1Choice))
                refiner.abstractor.getAbstractionInformation.getPlayer1VariableCount)]⟩ ∧
      ∀ decode : Bdd (Aux × S) → List (Nat × BitVector),
        derivePredicatesFromDifferingChoices V (refiner.withDecoding decode) pivotState
            player1Choice lowerChoice upperChoice
          = derivePredicatesFromDifferingChoices V refiner pivotState player1Choice lowerChoice
              upperChoice := by
  have hnz : ∀ r : MenuGameRefiner E U S P1 Aux,
      r.abstractor.getAbstractionInformation.getBottomStateBdd
        = refiner.abstractor.getAbstractionInformation.getBottomStateBdd →
      Bdd.isZero (Bdd.or
        (Bdd.and (fun c : Aux × S =>
          r.abstractor.getAbstractionInformation.getBottomStateBdd false false c.2) lowerChoice)
        (Bdd.and (fun c : Aux × S =>
          r.abstractor.getAbstractionInformation.getBottomStateBdd false false c.2) upperChoice))
        = false := by
    intro r hr
    rw [Bdd.isZero_eq_false_iff]
    obtain ⟨c, hc, hchoice⟩ := hbottom
    refine ⟨c, ?_⟩
    rcases hchoice with h | h <;> simp [Bdd.or, Bdd.and, hr, hc, h]
  have hmain : ∀ r : MenuGameRefiner E U S P1 Aux,
      r.abstractor.getAbstractionInformation.getBottomStateBdd
        = refiner.abstractor.getAbstractionInformation.getBottomStateBdd →
      derivePredicatesFromDifferingChoices V r pivotState player1Choice lowerChoice upperChoice
        = .ok ⟨Source.Guard,
            [r.abstractor.getGuard
              (r.abstractor.getAbstractionInformation.decodePlayer1Choice
                (Add.beginValuation (Bdd.toAdd V player1Choice))
                r.abstractor.getAbstractionInformation.getPlayer1VariableCount)]⟩ := by
    intro r hr
    simp only [derivePredicatesFromDifferingChoices, hnz r hr, Bool.not_false, if_true]
  refine ⟨hmain refiner rfl, ?_⟩
  intro decode
  rw [hmain refiner rfl, hmain (refiner.withDecoding decode) rfl]
  rfl

/-- Witness for C1 (second scenario of the spec): the lower choice leads to the
bottom state, the upper choice to a concrete successor; the derived predicate
is the guard of command 0, tagged Guard. -/
theorem derivePredicatesFromDifferingChoices_bottom_successor_gives_guard_witness :
    derivePredicatesFromDifferingChoices Int bottomRefiner (Bdd.cube true) (Bdd.cube ())
        (Bdd.cube ((), true)) (Bdd.cube ((), false))
      = .ok ⟨Source.Guard, [ToyExpr.ge (.lit 0) .x]⟩ :=
  (derivePredicatesFromDifferingChoices_bottom_successor_gives_guard Int bottomRefiner
    (Bdd.cube true) (Bdd.cube ()) (Bdd.cube ((), true)) (Bdd.cube ((), false))
    ⟨((), true), by decide⟩).1

/-- C2: when neither choice meets the bottom-state region and the two decoded
mappings agree except at the single update index `u`, where `i` is the least
predicate index at which the bit vectors differ, the result is the single
predicate getPredicateByIndex(i).substitute(getVariableUpdates(command,
u)).simplify(), tagged WeakestPrecondition. -/
theorem derivePredicatesFromDifferingChoices_single_deviation_gives_weakest_precondition
    {E U S P1 Aux : Type} (V : Type)
    [Valuations S] [Valuations P1] [Valuations Aux] [Inhabited P1] [Zero V] [One V] [DecidableEq V]
    (refiner : MenuGameRefiner E U S P1 Aux)
    (pivotState : Bdd S) (player1Choice : Bdd P1) (lowerChoice upperChoice : Bdd (Aux × S))
    (front back : List (Nat × BitVector)) (u i : Nat) (lowerBits upperBits : BitVector)
    (hbottom : ∀ c : Aux × S,
      refiner.abstractor.getAbstractionInformation.getBottomStateBdd false false c.2 = true →
        lowerChoice c = false ∧ upperChoice c = false)
    (hlower : refiner.abstractor.getAbstractionInformation.decodeChoiceToUpdateSuccessorMapping
      lowerChoice = front ++ (u, lowerBits) :: back)
    (hupper : refiner.abstractor.getAbstractionInformation.decodeChoiceToUpdateSuccessorMapping
      upperChoice = front ++ (u, upperBits) :: back)
    (hindex : i < BitVector.size lowerBits)
    (hdiffer : BitVector.get lowerBits i ≠ BitVector.get upperBits i)
    (hleast : ∀ j, j < i → BitVector.get lowerBits j = BitVector.get upperBits j) :
    derivePredicatesFromDifferingChoices V refiner pivotState player1Choice lowerChoice upperChoice
      = .ok ⟨Source.WeakestPrecondition,
          [refiner.expressions.simplify
            (refiner.expressions.substitute
              (refiner.abstractor.getAbstractionInformation.getPredicateByIndex i)
              (refiner.abstractor.getVariableUpdates
                (refiner.abstractor.getAbstractionInformation.decodePlayer1Choice
                  (Add.beginValuation (Bdd.toAdd V player1Choice))
                  refiner.abstractor.getAbstractionInformation.getPlayer1VariableCount)
                u))]⟩ := by
  have hz : Bdd.isZero (Bdd.or
      (Bdd.and (fun c : Aux × S =>
        refiner.abstractor.getAbstractionInformation.getBottomStateBdd false false c.2) lowerChoice)
      (Bdd.and (fun c : Aux × S =>
        refiner.abstractor.getAbstractionInformation.getBottomStateBdd false false c.2) upperChoice))
      = true := by
    rw [Bdd.isZero_eq_true_iff]
    intro c
    cases hb : refiner.abstractor.getAbstractionInformation.getBottomStateBdd false false c.2
    · simp [Bdd.or, Bdd.and, hb]
    · simp [Bdd.or, Bdd.and, hb, hbottom c hb]
  have hne : lowerBits ≠ upperBits := fun h => hdiffer (by rw [h])
  have hfirst : firstDeviatingPredicate lowerBits upperBits = some i := by
    unfold firstDeviatingPredicate
    rw [List.find?_range_eq_some]
    refine ⟨by simpa using hdiffer, by simpa using hindex, ?_⟩
    intro j hj
    simp [hleast j hj]
  simp only [derivePredicatesFromDifferingChoices, hz, Bool.not_true, hlower, hupper,
    deviationLoop_common_front]
  simp [deviationLoop, hne, hfirst, deviationLoop_same]

/-- Witness for C2 (first scenario of the spec): one command with guard
`x >= 1` and update `x := x - 1`, predicate set `{x >= 1}`, the successors
differ on predicate bit 0; the derived predicate is `x - 1 >= 1`, which holds
exactly when `x >= 2`, tagged WeakestPrecondition. -/
theorem derivePredicatesFromDifferingChoices_single_deviation_gives_weakest_precondition_witness :
    derivePredicatesFromDifferingChoices Int toyRefiner (Bdd.cube true) (Bdd.cube ())
        (Bdd.cube ((), false)) (Bdd.cube ((), true))
      = .ok ⟨Source.WeakestPrecondition, [ToyExpr.ge (.sub .x (.lit 1)) (.lit 1)]⟩ ∧
    ∀ v : Int, ToyExpr.eval v (.ge (.sub .x (.lit 1)) (.lit 1)) = ToyExpr.eval v (.ge .x (.lit 2)) :=
  ⟨derivePredicatesFromDifferingChoices_single_deviation_gives_weakest_precondition Int toyRefiner
    (Bdd.cube true) (Bdd.cube ()) (Bdd.cube ((), false)) (Bdd.cube ((), true))
    [] [] 0 0 [false] [true] (by decide) (by decide) (by decide) (by decide) (by decide)
    (by decide),
   by intro v; simp only [ToyExpr.eval, ToyTerm.eval, ge_iff_le, decide_eq_decide]; omega⟩

/-! ## pickPivotState -/

theorem frontierAt_succ {S : Type} [Valuations S] (transitions : Bdd (S × S)) (frontier : Bdd S)
    (n : Nat) :
    frontierAt transitions frontier (n + 1)
      = Bdd.relationalProduct (frontierAt transitions frontier n) transitions := by
  induction n generalizing frontier with
  | zero => rfl
  | succ n ih =>
    rw [frontierAt, ih]
    rfl

theorem frontierAt_eq_true_iff {S : Type} [Valuations S] (transitions : Bdd (S × S))
    (initialStates : Bdd S) (k : Nat) (s : S) :
    frontierAt transitions initialStates k s = true ↔ ReachedIn transitions initialStates k s := by
  induction k generalizing s with
  | zero =>
    constructor
    · intro h
      exact ReachedIn.start h
    · intro h
      cases h with
      | start h => exact h
  | succ k ih =>
    rw [frontierAt_succ, Bdd.relationalProduct_eq_true_iff]
    constructor
    · rintro ⟨t, ht, hstep⟩
      exact ReachedIn.step ((ih t).mp ht) hstep
    · intro h
      cases h with
      | step hreach hstep => exact ⟨_, (ih _).mpr hreach, hstep⟩

theorem Bdd.existsAbstractRepresentative_of_not_isZero {α : Type} [Valuations α] [DecidableEq α]
    (f : Bdd α) (h : Bdd.isZero f = false) :
    ∃ s, f s = true ∧ Bdd.existsAbstractRepresentative f = Bdd.cube s := by
  unfold Bdd.existsAbstractRepresentative
  cases hfind : (allValuations α).find? f with
  | none =>
    exfalso
    rw [Bdd.isZero_eq_false_iff] at h
    obtain ⟨a, ha⟩ := h
    rw [List.find?_eq_none] at hfind
    exact hfind a (Valuations.complete a) ha
  | some s => exact ⟨s, List.find?_some hfind, rfl⟩

/-- Without a value function, a result of the loop is a single state of the
pivot candidates that lies in the frontier of the returned direction, `n`
steps after the frontiers the loop was started with. -/
theorem pickPivotStateLoop_none_returns_candidate {S : Type} (P1 P2 V : Type) [Valuations S]
    [DecidableEq S] [LinearOrderedRing V]
    (transitionsMin transitionsMax : Bdd (S × S)) (pivotStates : Bdd S)
    (fuel : Nat) (frontierMin frontierMax : Bdd S) (level : Nat) (r : PickedPivotState S)
    (h : pickPivotStateLoop P1 P2 V transitionsMin transitionsMax pivotStates none fuel
      frontierMin frontierMax level = some r) :
    ∃ n s, r.level + 1 = level + n ∧ r.first = Bdd.cube s ∧ pivotStates s = true ∧
      ((r.second = OptimizationDirection.Minimize ∧
          frontierAt transitionsMin frontierMin n s = true) ∨
        (r.second = OptimizationDirection.Maximize ∧
          frontierAt transitionsMax frontierMax n s = true)) := by
  induction fuel generalizing frontierMin frontierMax level with
  | zero => simp [pickPivotStateLoop] at h
  | succ fuel ih =>
    rw [pickPivotStateLoop] at h
    simp only at h
    split at h
    · rename_i hhit
      cases hmin : Bdd.isZero
          (Bdd.and (Bdd.relationalProduct frontierMin transitionsMin) pivotStates) with
      | false =>
        obtain ⟨s, hs, hrep⟩ := Bdd.existsAbstractRepresentative_of_not_isZero _ hmin
        simp only [hmin, Bool.not_false, if_true, Option.some.injEq] at h
        subst h
        simp only [Bdd.and, Bool.and_eq_true] at hs
        exact ⟨1, s, rfl, hrep, hs.2, Or.inl ⟨rfl, hs.1⟩⟩
      | true =>
        have hmax : Bdd.isZero
            (Bdd.and (Bdd.relationalProduct frontierMax transitionsMax) pivotStates) = false := by
          simpa [hmin] using hhit
        obtain ⟨s, hs, hrep⟩ := Bdd.existsAbstractRepresentative_of_not_isZero _ hmax
        simp only [hmin, Bool.not_true, Bool.false_eq_true, if_false, reduceCtorEq,
          Option.some.injEq] at h
        subst h
        simp only [Bdd.and, Bool.and_eq_true] at hs
        exact ⟨1, s, rfl, hrep, hs.2, Or.inr ⟨rfl, hs.1⟩⟩
    · obtain ⟨n, s, hlevel, hfirst, hpivot, hdir⟩ := ih _ _ _ h
      refine ⟨n + 1, s, by omega, hfirst, hpivot, ?_⟩
      simpa [frontierAt] using hdir

/-- Without a value function, every result of pickPivotState is a single state
of the pivot candidates that lies in the frontier of the returned direction
after the `n` steps the search has taken. -/
theorem pickPivotState_none_returns_candidate {S : Type} (P1 P2 V : Type) [Valuations S]
    [DecidableEq S] [LinearOrderedRing V] (fuel : Nat)
    (initialStates : Bdd S) (transitionsMin transitionsMax : Bdd (S × S)) (pivotStates : Bdd S)
    (r : PickedPivotState S)
    (h : pickPivotState P1 P2 V fuel initialStates transitionsMin transitionsMax pivotStates none
      = some r) :
    ∃ n s, r.first = Bdd.cube s ∧ pivotStates s = true ∧
      frontierAt (transitionsOf transitionsMin transitionsMax r.second) initialStates n s
        = true := by
  unfold pickPivotState at h
  simp only at h
  split at h
  · rename_i hfound
    have hnz : Bdd.isZero (Bdd.and initialStates pivotStates) = false := by simpa using hfound
    obtain ⟨s, hs, hrep⟩ := Bdd.existsAbstractRepresentative_of_not_isZero _ hnz
    simp only [Option.some.injEq] at h
    subst h
    simp only [Bdd.and, Bool.and_eq_true] at hs
    exact ⟨0, s, hrep, hs.2, hs.1⟩
  · obtain ⟨n, s, _, hfirst, hpivot, hdir⟩ :=
      pickPivotStateLoop_none_returns_candidate P1 P2 V _ _ _ _ _ _ _ _ h
    refine ⟨n, s, hfirst, hpivot, ?_⟩
    rcases hdir with ⟨hd, hf⟩ | ⟨hd, hf⟩ <;> simpa [hd, transitionsOf] using hf

/-- C7 (failing input): two states, `false` initial; the min fragment has no
transition, the max fragment leads from `false` to `true`, the only pivot
candidate is `true`, and the lower and upper values agree everywhere.  After
one step only the max frontier meets the candidates, both gap ADDs are zero,
so `diffMin.getMax() >= diffMax.getMax()` selects Minimize and the
representative of the zero ADD `diffMin` is returned: the state `false`, which
is no pivot candidate and not in the (empty) min frontier. -/
theorem pickPivotState_quantitative_tie_returns_non_candidate :
    ∃ r, pickPivotState Unit Unit Int 1 (Bdd.cube false) Bdd.zero (Bdd.cube (false, true))
        (Bdd.cube true) (some tiedQuantitativeResult) = some r ∧
      r.second = OptimizationDirection.Minimize ∧
      r.first false = true ∧ r.first true = false ∧
      (Bdd.cube true : Bdd Bool) false = false ∧
      Bdd.isZero (frontierAt (Bdd.zero : Bdd (Bool × Bool)) (Bdd.cube false) 1) = true ∧
      frontierAt (Bdd.cube (false, true)) (Bdd.cube false) 1 true = true := by
  refine ⟨_, rfl, ?_, ?_, ?_, ?_, ?_, ?_⟩ <;> decide

/-- C8: every pivot state that pickPivotState returns when it is run, without a
value function, on the output of computePivotStates is a single state that
is reachable from the initial states along the min fragment or along the max
fragment; it also belongs to the union of the two reachable sets that
computePivotStates has computed. -/
theorem pickPivotState_on_computePivotStates_is_reachable {S P1 P2 Aux V : Type}
    [Valuations S] [Valuations P1] [Valuations P2] [DecidableEq S] [LinearOrderedRing V]
    (game : MenuGame S P1 P2 Aux V) (transitionMatrixBdd : Bdd (S × P1 × P2 × S))
    (minPlayer1Strategy : Bdd (S × P1)) (minPlayer2Strategy : Bdd (S × P1 × P2))
    (maxPlayer1Strategy : Bdd (S × P1)) (maxPlayer2Strategy : Bdd (S × P1 × P2))
    (fuel : Nat) (r : PickedPivotState S)
    (h : pickPivotState P1 P2 V fuel game.getInitialStates
      (computePivotStates game transitionMatrixBdd minPlayer1Strategy minPlayer2Strategy
        maxPlayer1Strategy maxPlayer2Strategy).reachableTransitionsMin
      (computePivotStates game transitionMatrixBdd minPlayer1Strategy minPlayer2Strategy
        maxPlayer1Strategy maxPlayer2Strategy).reachableTransitionsMax
      (computePivotStates game transitionMatrixBdd minPlayer1Strategy minPlayer2Strategy
        maxPlayer1Strategy maxPlayer2Strategy).pivotStates none = some r) :
    ∃ s, r.first = Bdd.cube s ∧
      (Reachable (computePivotStates game transitionMatrixBdd minPlayer1Strategy
          minPlayer2Strategy maxPlayer1Strategy maxPlayer2Strategy).reachableTransitionsMin
          game.getInitialStates s ∨
        Reachable (computePivotStates game transitionMatrixBdd minPlayer1Strategy
          minPlayer2Strategy maxPlayer1Strategy maxPlayer2Strategy).reachableTransitionsMax
          game.getInitialStates s) ∧
      Bdd.or
        (computeReachableStates game.getInitialStates
          (computePivotStates game transitionMatrixBdd minPlayer1Strategy minPlayer2Strategy
            maxPlayer1Strategy maxPlayer2Strategy).reachableTransitionsMin)
        (computeReachableStates game.getInitialStates
          (computePivotStates game transitionMatrixBdd minPlayer1Strategy minPlayer2Strategy
            maxPlayer1Strategy maxPlayer2Strategy).reachableTransitionsMax) s = true := by
  obtain ⟨n, s, hfirst, hpivot, hfrontier⟩ :=
    pickPivotState_none_returns_candidate P1 P2 V fuel _ _ _ _ r h
  refine ⟨s, hfirst, ?_, ?_⟩
  · rw [frontierAt_eq_true_iff] at hfrontier
    cases hd : r.second with
    | Minimize =>
      rw [hd] at hfrontier
      exact Or.inl ⟨n, hfrontier⟩
    | Maximize =>
      rw [hd] at hfrontier
      exact Or.inr ⟨n, hfrontier⟩
  · simp only [computePivotStates, Bdd.and, Bool.and_eq_true] at hpivot
    exact hpivot.1

/-- Witness for C8: on the two-state game with differing player 2 strategies
the search returns at once with the initial state `false`. -/
theorem pickPivotState_on_computePivotStates_is_reachable_witness :
    ∃ s, (Bdd.cube false : Bdd Bool) = Bdd.cube s ∧
      (Reachable (computePivotStates twoStateGame twoStateTransitions (fun _ => true)
          (twoStatePlayer2Strategy false) (fun _ => true)
          (twoStatePlayer2Strategy true)).reachableTransitionsMin
          twoStateGame.getInitialStates s ∨
        Reachable (computePivotStates twoStateGame twoStateTransitions (fun _ => true)
          (twoStatePlayer2Strategy false) (fun _ => true)
          (twoStatePlayer2Strategy true)).reachableTransitionsMax
          twoStateGame.getInitialStates s) ∧
      Bdd.or
        (computeReachableStates twoStateGame.getInitialStates
          (computePivotStates twoStateGame twoStateTransitions (fun _ => true)
            (twoStatePlayer2Strategy false) (fun _ => true)
            (twoStatePlayer2Strategy true)).reachableTransitionsMin)
        (computeReachableStates twoStateGame.getInitialStates
          (computePivotStates twoStateGame twoStateTransitions (fun _ => true)
            (twoStatePlayer2Strategy false) (fun _ => true)
            (twoStatePlayer2Strategy true)).reachableTransitionsMax) s = true :=
  pickPivotState_on_computePivotStates_is_reachable twoStateGame twoStateTransitions
    (fun _ => true) (twoStatePlayer2Strategy false) (fun _ => true) (twoStatePlayer2Strategy true)
    0 ⟨Bdd.cube false, OptimizationDirection.Minimize, 0⟩ (by rfl)

/-- An iteration of the loop in which a frontier meets the pivot candidates
returns, with the level the iteration was entered with, whatever fuel is left. -/
theorem pickPivotStateLoop_of_hit {S : Type} (P1 P2 V : Type) [Valuations S]
    [DecidableEq S] [LinearOrderedRing V]
    (transitionsMin transitionsMax : Bdd (S × S)) (pivotStates : Bdd S)
    (quantitativeResult : Option (QuantitativeResultMinMax S P1 P2 V))
    (frontierMin frontierMax : Bdd S) (level : Nat)
    (hhit : (!Bdd.isZero (Bdd.and (Bdd.relationalProduct frontierMin transitionsMin) pivotStates)
      || !Bdd.isZero (Bdd.and (Bdd.relationalProduct frontierMax transitionsMax) pivotStates))
        = true) :
    ∃ r : PickedPivotState S, r.level = level ∧
      ∀ fuel, pickPivotStateLoop P1 P2 V transitionsMin transitionsMax pivotStates
        quantitativeResult (fuel + 1) frontierMin frontierMax level = some r := by
  have hone : ∃ r : PickedPivotState S, r.level = level ∧
      pickPivotStateLoop P1 P2 V transitionsMin transitionsMax pivotStates
        quantitativeResult 1 frontierMin frontierMax level = some r := by
    cases quantitativeResult with
    | none =>
      rw [pickPivotStateLoop]
      simp only [hhit, if_true]
      exact ⟨_, rfl, rfl⟩
    | some q =>
      rw [pickPivotStateLoop]
      simp only [hhit, if_true]
      exact ⟨_, rfl, rfl⟩
  obtain ⟨r, hlevel, hr⟩ := hone
  refine ⟨r, hlevel, fun fuel => ?_⟩
  rw [← hr]
  simp only [pickPivotStateLoop, hhit, if_true]

/-- If a frontier meets the pivot candidates after at most `k + 1` steps, the
loop returns within `k + 1` iterations, at a level at most `k` above the one
it was entered with. -/
theorem pickPivotStateLoop_returns_within {S : Type} (P1 P2 V : Type) [Valuations S]
    [DecidableEq S] [LinearOrderedRing V]
    (transitionsMin transitionsMax : Bdd (S × S)) (pivotStates : Bdd S)
    (quantitativeResult : Option (QuantitativeResultMinMax S P1 P2 V))
    (k : Nat) (frontierMin frontierMax : Bdd S) (level : Nat)
    (hreach : ∃ n, n ≤ k ∧
      (Bdd.isZero (Bdd.and (frontierAt transitionsMin frontierMin (n + 1)) pivotStates) = false ∨
        Bdd.isZero (Bdd.and (frontierAt transitionsMax frontierMax (n + 1)) pivotStates)
          = false)) :
    ∃ r : PickedPivotState S, r.level ≤ level + k ∧
      ∀ fuel, k < fuel → pickPivotStateLoop P1 P2 V transitionsMin transitionsMax pivotStates
        quantitativeResult fuel frontierMin frontierMax level = some r := by
  induction k generalizing frontierMin frontierMax level with
  | zero =>
    obtain ⟨n, hn, hhit⟩ := hreach
    have hn0 : n = 0 := by omega
    subst hn0
    have hhit1 : (!Bdd.isZero
          (Bdd.and (Bdd.relationalProduct frontierMin transitionsMin) pivotStates)
        || !Bdd.isZero
          (Bdd.and (Bdd.relationalProduct frontierMax transitionsMax) pivotStates)) = true := by
      rcases hhit with h | h <;> simp [frontierAt] at h <;> simp [h]
    obtain ⟨r, hlevel, hr⟩ := pickPivotStateLoop_of_hit P1 P2 V transitionsMin transitionsMax
      pivotStates quantitativeResult frontierMin frontierMax level hhit1
    refine ⟨r, by omega, ?_⟩
    intro fuel hfuel
    obtain ⟨fuel, rfl⟩ : ∃ m, fuel = m + 1 := ⟨fuel - 1, by omega⟩
    exact hr fuel
  | succ k ih =>
    by_cases hhit1 : (!Bdd.isZero
          (Bdd.and (Bdd.relationalProduct frontierMin transitionsMin) pivotStates)
        || !Bdd.isZero
          (Bdd.and (Bdd.relationalProduct frontierMax transitionsMax) pivotStates)) = true
    · obtain ⟨r, hlevel, hr⟩ := pickPivotStateLoop_of_hit P1 P2 V transitionsMin transitionsMax
        pivotStates quantitativeResult frontierMin frontierMax level hhit1
      refine ⟨r, by omega, ?_⟩
      intro fuel hfuel
      obtain ⟨fuel, rfl⟩ : ∃ m, fuel = m + 1 := ⟨fuel - 1, by omega⟩
      exact hr fuel
    · obtain ⟨n, hn, hhit⟩ := hreach
      have hnpos : n ≠ 0 := by
        rintro rfl
        apply hhit1
        rcases hhit with h | h <;> simp [frontierAt] at h <;> simp [h]
      obtain ⟨m, rfl⟩ : ∃ m, n = m + 1 := ⟨n - 1, by omega⟩
      obtain ⟨r, hlevel, hr⟩ := ih (Bdd.relationalProduct frontierMin transitionsMin)
        (Bdd.relationalProduct frontierMax transitionsMax) (level + 1)
        ⟨m, by omega, by simpa [frontierAt] using hhit⟩
      refine ⟨r, by omega, ?_⟩
      intro fuel hfuel
      obtain ⟨fuel, rfl⟩ : ∃ m, fuel = m + 1 := ⟨fuel - 1, by omega⟩
      rw [pickPivotStateLoop.eq_def]
      simp only [hhit1, if_false, Bool.false_eq_true]
      exact hr fuel (by omega)

/-- C9: if a pivot candidate ends a path of exactly `k` steps from an initial
state along transitionsMin or along transitionsMax, then pickPivotState, with
or without a value function, returns within `k` iterations of its loop (every
fuel of at least `k` gives the same result), and the level at which it returns
is at most `k`. -/
theorem pickPivotState_returns_within_distance {S : Type} (P1 P2 V : Type) [Valuations S]
    [DecidableEq S] [LinearOrderedRing V]
    (initialStates : Bdd S) (transitionsMin transitionsMax : Bdd (S × S)) (pivotStates : Bdd S)
    (quantitativeResult : Option (QuantitativeResultMinMax S P1 P2 V)) (k : Nat)
    (hreach : ∃ s, pivotStates s = true ∧
      (ReachedIn transitionsMin initialStates k s ∨ ReachedIn transitionsMax initialStates k s)) :
    ∃ r : PickedPivotState S, r.level ≤ k ∧
      ∀ fuel, k ≤ fuel → pickPivotState P1 P2 V fuel initialStates transitionsMin transitionsMax
        pivotStates quantitativeResult = some r := by
  by_cases hfound : Bdd.isZero (Bdd.and initialStates pivotStates) = false
  · refine ⟨⟨Bdd.existsAbstractRepresentative (Bdd.and initialStates pivotStates),
      OptimizationDirection.Minimize, 0⟩, Nat.zero_le k, ?_⟩
    intro fuel _
    simp [pickPivotState, hfound]
  · have hzero : Bdd.isZero (Bdd.and initialStates pivotStates) = true := by simpa using hfound
    obtain ⟨s, hpivot, hpath⟩ := hreach
    have hkpos : k ≠ 0 := by
      rintro rfl
      rw [Bdd.isZero_eq_true_iff] at hzero
      have hs := hzero s
      rcases hpath with h | h <;> cases h with
      | start hinit => simp [Bdd.and, hinit, hpivot] at hs
    obtain ⟨m, rfl⟩ : ∃ m, k = m + 1 := ⟨k - 1, by omega⟩
    have hhit : Bdd.isZero (Bdd.and (frontierAt transitionsMin initialStates (m + 1)) pivotStates)
          = false ∨
        Bdd.isZero (Bdd.and (frontierAt transitionsMax initialStates (m + 1)) pivotStates)
          = false := by
      rcases hpath with h | h
      · left
        rw [Bdd.isZero_eq_false_iff]
        exact ⟨s, by simp [Bdd.and, (frontierAt_eq_true_iff _ _ _ _).mpr h, hpivot]⟩
      · right
        rw [Bdd.isZero_eq_false_iff]
        exact ⟨s, by simp [Bdd.and, (frontierAt_eq_true_iff _ _ _ _).mpr h, hpivot]⟩
    obtain ⟨r, hlevel, hr⟩ := pickPivotStateLoop_returns_within P1 P2 V transitionsMin
      transitionsMax pivotStates quantitativeResult m initialStates initialStates 0
      ⟨m, Nat.le_refl m, hhit⟩
    refine ⟨r, by omega, ?_⟩
    intro fuel hfuel
    simp only [pickPivotState, hzero, Bool.not_true, Bool.false_eq_true, if_false]
    exact hr fuel (by omega)

/-- Witness for C9: in the two-state game the pivot candidate `true` is one
step away from the initial state `false`. -/
theorem pickPivotState_returns_within_distance_witness :
    ∃ r : PickedPivotState Bool, r.level ≤ 1 ∧
      ∀ fuel, 1 ≤ fuel → pickPivotState Unit Unit Int fuel (Bdd.cube false) Bdd.zero
        (Bdd.cube (false, true)) (Bdd.cube true) none = some r :=
  pickPivotState_returns_within_distance Unit Unit Int (Bdd.cube false) Bdd.zero
    (Bdd.cube (false, true)) (Bdd.cube true) none 1
    ⟨true, by decide,
      Or.inr (@ReachedIn.step _ _ _ 0 false true (ReachedIn.start (by decide)) (by decide))⟩

/-! ## computePivotStates and the qualitative entry point -/

theorem computePivotStates_same_player2Strategy {S P1 P2 Aux V : Type}
    [Valuations S] [Valuations P1] [Valuations P2]
    (game : MenuGame S P1 P2 Aux V) (transitionMatrixBdd : Bdd (S × P1 × P2 × S))
    (minPlayer1Strategy maxPlayer1Strategy : Bdd (S × P1)) (player2Strategy : Bdd (S × P1 × P2))
    (s : S) :
    (computePivotStates game transitionMatrixBdd minPlayer1Strategy player2Strategy
      maxPlayer1Strategy player2Strategy).pivotStates s = false := by
  have hnone : Bdd.existsAbstract (P1 × P2) (fun n s =>
      (minPlayer1Strategy (s, n.1) && maxPlayer1Strategy (s, n.1)) &&
        Bdd.and (fun c : S × P1 × P2 => Bdd.and
            (Bdd.existsAbstract P2 (fun b c => player2Strategy (c.1, c.2, b)))
            (Bdd.existsAbstract P2 (fun b c => player2Strategy (c.1, c.2, b))) (c.1, c.2.1))
          (Bdd.exclusiveOr player2Strategy player2Strategy) (s, n.1, n.2)) s = false := by
    rw [Bool.eq_false_iff]
    intro h
    rw [Bdd.existsAbstract_eq_true_iff] at h
    obtain ⟨n, hn⟩ := h
    simp [Bdd.and, Bdd.exclusiveOr] at hn
  simp only [computePivotStates]
  show (_ && _) = false
  rw [hnone, Bool.and_false]

/-- C10: when the min and the max Player-2 strategy are the same (as they are
when the min and max strategies are identical), the candidate set returned by
computePivotStates is empty, and the qualitative entry point called on a
result with identical Player-2 strategies returns false, whatever the fuel,
without handing a command to the abstractor. -/
theorem computePivotStates_identical_strategies_refine_returns_false {E U S P1 P2 Aux : Type}
    (V : Type) [Valuations S] [Valuations P1] [Valuations P2] [Valuations Aux] [Inhabited P1]
    [DecidableEq S] [DecidableEq Aux] [LinearOrderedRing V]
    (fuel : Nat) (refiner : MenuGameRefiner E U S P1 Aux) (game : MenuGame S P1 P2 Aux V)
    (transitionMatrixBdd : Bdd (S × P1 × P2 × S))
    (minPlayer1Strategy maxPlayer1Strategy : Bdd (S × P1)) (player2Strategy : Bdd (S × P1 × P2))
    (qualitativeResult : QualitativeResultMinMax S P1 P2)
    (handed : List (RefinementCommand E))
    (hsame : qualitativeResult.prob0Min.getPlayer2Strategy
      = qualitativeResult.prob1Max.getPlayer2Strategy) :
    (∀ s, (computePivotStates game transitionMatrixBdd minPlayer1Strategy player2Strategy
        maxPlayer1Strategy player2Strategy).pivotStates s = false) ∧
      Bdd.isZero (computePivotStates game transitionMatrixBdd minPlayer1Strategy player2Strategy
        maxPlayer1Strategy player2Strategy).pivotStates = true ∧
      refineQualitative V fuel refiner game transitionMatrixBdd qualitativeResult handed
        = (Outcome.returned false, handed) := by
  have hzero : ∀ (p q : Bdd (S × P1)) (b : Bdd (S × P1 × P2)),
      Bdd.isZero (computePivotStates game transitionMatrixBdd p b q b).pivotStates = true := by
    intro p q b
    rw [Bdd.isZero_eq_true_iff]
    exact computePivotStates_same_player2Strategy game transitionMatrixBdd p q b
  refine ⟨computePivotStates_same_player2Strategy game transitionMatrixBdd _ _ _, hzero _ _ _, ?_⟩
  unfold refineQualitative
  simp only [hsame, hzero, if_true]
  rfl

/-- Witness for C10: the two-state game with a qualitative result whose
probability-0 and probability-1 strategies are the same. -/
theorem computePivotStates_identical_strategies_refine_returns_false_witness :
    refineQualitative Int 3 toyRefiner twoStateGame twoStateTransitions
        sameStrategiesQualitativeResult []
      = (Outcome.returned false, []) :=
  (computePivotStates_identical_strategies_refine_returns_false Int 3 toyRefiner twoStateGame
    twoStateTransitions (fun _ => true) (fun _ => true) (twoStatePlayer2Strategy false)
    sameStrategiesQualitativeResult [] rfl).2.2

/-! ## The refine entry points -/

theorem Refine.pure_bind_apply {E α β : Type} (a : α) (f : α → Refine E β)
    (handed : List (RefinementCommand E)) : (pure a >>= f) handed = f a handed := rfl

theorem Refine.ofOption_some_bind_apply {E α β : Type} (a : α) (f : α → Refine E β)
    (handed : List (RefinementCommand E)) :
    (Refine.ofOption (some a) >>= f) handed = f a handed := rfl

theorem Refine.ofOption_none_bind_apply {E α β : Type} (f : α → Refine E β)
    (handed : List (RefinementCommand E)) :
    (Refine.ofOption none >>= f) handed = (Outcome.diverged, handed) := rfl

theorem Refine.ofExcept_ok_bind_apply {E α β : Type} (a : α) (f : α → Refine E β)
    (handed : List (RefinementCommand E)) :
    (Refine.ofExcept (.ok a) >>= f) handed = f a handed := rfl

theorem Refine.ofExcept_error_bind_apply {E α β : Type} (message : Fatal) (f : α → Refine E β)
    (handed : List (RefinementCommand E)) :
    (Refine.ofExcept (.error message) >>= f) handed = (Outcome.fatal message, handed) := rfl

theorem exitProcess_bind_apply {E β : Type} (code : Int) (f : Unit → Refine E β)
    (handed : List (RefinementCommand E)) :
    (exitProcess code >>= f) handed = (Outcome.exited code, handed) := rfl

/-- The qualitative entry point in terms of its named parts: the statements
after `exit(-1)` are those of refineWithPivotState. -/
theorem refineQualitative_unfold {E U S P1 P2 Aux : Type} (V : Type)
    [Valuations S] [Valuations P1] [Valuations P2] [Valuations Aux] [Inhabited P1]
    [DecidableEq S] [DecidableEq Aux] [LinearOrderedRing V]
    (fuel : Nat) (refiner : MenuGameRefiner E U S P1 Aux) (game : MenuGame S P1 P2 Aux V)
    (transitionMatrixBdd : Bdd (S × P1 × P2 × S))
    (qualitativeResult : QualitativeResultMinMax S P1 P2) :
    refineQualitative V fuel refiner game transitionMatrixBdd qualitativeResult
      = (do
          if Bdd.isZero
              (qualitativePivotStateResult game transitionMatrixBdd qualitativeResult).pivotStates
          then
            return false
          let pivotState ← Refine.ofOption (pickPivotState P1 P2 V fuel game.getInitialStates
            (qualitativePivotStateResult game transitionMatrixBdd
              qualitativeResult).reachableTransitionsMin
            (qualitativePivotStateResult game transitionMatrixBdd
              qualitativeResult).reachableTransitionsMax
            (qualitativePivotStateResult game transitionMatrixBdd qualitativeResult).pivotStates
            none)
          let spanningTree ← Refine.ofOption (getMostProbablePathSpanningTree fuel game
            pivotState.first
            (if pivotState.second = OptimizationDirection.Minimize
              then Bdd.and (fun n => redirectedMinPlayer1Strategy qualitativeResult (n.1, n.2.1))
                qualitativeResult.prob0Min.getPlayer2Strategy
              else Bdd.and (fun n => qualitativeResult.prob1Max.getPlayer1Strategy (n.1, n.2.1))
                qualitativeResult.prob1Max.getPlayer2Strategy))
          let _traceFormula : Option E ← Refine.ofOption
            (buildTraceFormula fuel refiner game spanningTree pivotState.first)
          exitProcess (-1)
          refineWithPivotState V refiner game pivotState.first
            (redirectedMinPlayer1Strategy qualitativeResult)
            qualitativeResult.prob0Min.getPlayer2Strategy
            qualitativeResult.prob1Max.getPlayer1Strategy
            qualitativeResult.prob1Max.getPlayer2Strategy) := by
  funext handed
  unfold refineQualitative qualitativePivotStateResult
  cases h : Bdd.isZero (computePivotStates game transitionMatrixBdd
      (redirectedMinPlayer1Strategy qualitativeResult)
      qualitativeResult.prob0Min.getPlayer2Strategy qualitativeResult.prob1Max.getPlayer1Strategy
      qualitativeResult.prob1Max.getPlayer2Strategy).pivotStates
  · have h2 := h
    simp only [redirectedMinPlayer1Strategy] at h2
    simp only [h, h2, Bool.false_eq_true, if_false]
    rfl
  · have h2 := h
    simp only [redirectedMinPlayer1Strategy] at h2
    simp only [h, h2, if_true]

/-- The quantitative entry point in terms of its named parts. -/
theorem refineQuantitative_unfold {E U S P1 P2 Aux V : Type}
    [Valuations S] [Valuations P1] [Valuations P2] [Valuations Aux] [Inhabited P1]
    [DecidableEq S] [DecidableEq Aux] [LinearOrderedRing V]
    (fuel : Nat) (refiner : MenuGameRefiner E U S P1 Aux) (game : MenuGame S P1 P2 Aux V)
    (transitionMatrixBdd : Bdd (S × P1 × P2 × S))
    (quantitativeResult : QuantitativeResultMinMax S P1 P2 V) :
    refineQuantitative fuel refiner game transitionMatrixBdd quantitativeResult
      = (do
          if Bdd.isZero
              (quantitativePivotStateResult game transitionMatrixBdd quantitativeResult).pivotStates
          then
            Refine.ofExcept (.error "Unable to refine without pivot state candidates.")
          let pivotState ← Refine.ofOption (pickPivotState P1 P2 V fuel game.getInitialStates
            (quantitativePivotStateResult game transitionMatrixBdd
              quantitativeResult).reachableTransitionsMin
            (quantitativePivotStateResult game transitionMatrixBdd
              quantitativeResult).reachableTransitionsMax
            (quantitativePivotStateResult game transitionMatrixBdd quantitativeResult).pivotStates
            none)
          let _spanningTree : Bdd (S × Aux × S) ← Refine.ofOption
            (getMostProbablePathSpanningTree fuel game pivotState.first
              (if pivotState.second = OptimizationDirection.Minimize
                then Bdd.and (fun n => quantitativeResult.min.player1Strategy (n.1, n.2.1))
                  quantitativeResult.min.player2Strategy
                else Bdd.and (fun n => quantitativeResult.max.player1Strategy (n.1, n.2.1))
                  quantitativeResult.max.player2Strategy))
          exitProcess (-1)
          refineWithPivotState V refiner game pivotState.first
            quantitativeResult.min.player1Strategy quantitativeResult.min.player2Strategy
            quantitativeResult.max.player1Strategy quantitativeResult.max.player2Strategy) := rfl

/-- With pivot candidates, the qualitative entry point exits the process or
does not come back from one of its loops; it never returns and hands over no
command. -/
theorem refineQualitative_with_candidates_outcome {E U S P1 P2 Aux : Type} (V : Type)
    [Valuations S] [Valuations P1] [Valuations P2] [Valuations Aux] [Inhabited P1]
    [DecidableEq S] [DecidableEq Aux] [LinearOrderedRing V]
    (fuel : Nat) (refiner : MenuGameRefiner E U S P1 Aux) (game : MenuGame S P1 P2 Aux V)
    (transitionMatrixBdd : Bdd (S × P1 × P2 × S))
    (qualitativeResult : QualitativeResultMinMax S P1 P2) (handed : List (RefinementCommand E))
    (hcandidates : Bdd.isZero
      (qualitativePivotStateResult game transitionMatrixBdd qualitativeResult).pivotStates
        = false) :
    refineQualitative V fuel refiner game transitionMatrixBdd qualitativeResult handed
        = (Outcome.exited (-1), handed) ∨
      refineQualitative V fuel refiner game transitionMatrixBdd qualitativeResult handed
        = (Outcome.diverged, handed) := by
  rw [refineQualitative_unfold]
  simp only [hcandidates, Bool.false_eq_true, if_false, Refine.pure_bind_apply]
  cases pickPivotState P1 P2 V fuel game.getInitialStates
      (qualitativePivotStateResult game transitionMatrixBdd
        qualitativeResult).reachableTransitionsMin
      (qualitativePivotStateResult game transitionMatrixBdd
        qualitativeResult).reachableTransitionsMax
      (qualitativePivotStateResult game transitionMatrixBdd qualitativeResult).pivotStates
      none with
  | none => exact Or.inr rfl
  | some pivotState =>
    simp only [Refine.ofOption_some_bind_apply]
    cases getMostProbablePathSpanningTree fuel game pivotState.first
      (if pivotState.second = OptimizationDirection.Minimize
        then Bdd.and (fun n => redirectedMinPlayer1Strategy qualitativeResult (n.1, n.2.1))
          qualitativeResult.prob0Min.getPlayer2Strategy
        else Bdd.and (fun n => qualitativeResult.prob1Max.getPlayer1Strategy (n.1, n.2.1))
          qualitativeResult.prob1Max.getPlayer2Strategy) with
    | none => exact Or.inr rfl
    | some tree =>
      simp only [Refine.ofOption_some_bind_apply]
      cases (buildTraceFormula fuel refiner game tree pivotState.first : Option (Option E)) with
      | none => exact Or.inr rfl
      | some trace => exact Or.inl rfl

/-- C11: when the pivot-candidate set computed by the qualitative entry point
is empty, the call returns false and the list of commands handed to the
abstractor, hence the abstractor's predicate set, is what it was before. -/
theorem refineQualitative_no_candidates_returns_false {E U S P1 P2 Aux : Type} (V : Type)
    [Valuations S] [Valuations P1] [Valuations P2] [Valuations Aux] [Inhabited P1]
    [DecidableEq S] [DecidableEq Aux] [LinearOrderedRing V]
    (fuel : Nat) (refiner : MenuGameRefiner E U S P1 Aux) (game : MenuGame S P1 P2 Aux V)
    (transitionMatrixBdd : Bdd (S × P1 × P2 × S))
    (qualitativeResult : QualitativeResultMinMax S P1 P2) (handed : List (RefinementCommand E))
    (hempty : Bdd.isZero
      (qualitativePivotStateResult game transitionMatrixBdd qualitativeResult).pivotStates
        = true) :
    refineQualitative V fuel refiner game transitionMatrixBdd qualitativeResult handed
        = (Outcome.returned false, handed) ∧
      predicatesAfter refiner.abstractor
          (refineQualitative V fuel refiner game transitionMatrixBdd qualitativeResult handed).2
        = predicatesAfter refiner.abstractor handed := by
  have h : refineQualitative V fuel refiner game transitionMatrixBdd qualitativeResult handed
      = (Outcome.returned false, handed) := by
    rw [refineQualitative_unfold]
    simp only [hempty, if_true]
    rfl
  exact ⟨h, by rw [h]⟩

/-- Witness for C11: the probability-0 result defines no Player-2 strategy, so
no state is a pivot candidate. -/
theorem refineQualitative_no_candidates_returns_false_witness :
    refineQualitative Int 2 toyRefiner branchingGame branchingTransitions
        undefinedMinQualitativeResult []
      = (Outcome.returned false, []) :=
  (refineQualitative_no_candidates_returns_false Int 2 toyRefiner branchingGame
    branchingTransitions undefinedMinQualitativeResult [] (by decide)).1

/-- C12 (failing input): the branching game with a qualitative result whose
Player-2 strategies differ.  The pivot-candidate set is not empty and the
initial state `false` is picked; the spanning-tree and trace-formula loops
return at once and `exit(-1)` ends the process: nothing is returned and no
command is handed over, for every fuel the outcome is the exit or an
unfinished loop.  The statements after the exit, run on the same pivot state,
would hand over the command `[x - 1 >= 1]` and return true. -/
theorem refineQualitative_with_candidates_exits :
    Bdd.isZero (qualitativePivotStateResult branchingGame branchingTransitions
        differingQualitativeResult).pivotStates = false ∧
      refineQualitative Int 1 toyRefiner branchingGame branchingTransitions
          differingQualitativeResult []
        = (Outcome.exited (-1), []) ∧
      (∀ fuel,
        refineQualitative Int fuel toyRefiner branchingGame branchingTransitions
            differingQualitativeResult []
          = (Outcome.exited (-1), []) ∨
        refineQualitative Int fuel toyRefiner branchingGame branchingTransitions
            differingQualitativeResult []
          = (Outcome.diverged, [])) ∧
      refineWithPivotState Int toyRefiner branchingGame (Bdd.cube false)
          (redirectedMinPlayer1Strategy differingQualitativeResult)
          differingQualitativeResult.prob0Min.getPlayer2Strategy
          differingQualitativeResult.prob1Max.getPlayer1Strategy
          differingQualitativeResult.prob1Max.getPlayer2Strategy []
        = (Outcome.returned true, [⟨[ToyExpr.ge (.sub .x (.lit 1)) (.lit 1)]⟩]) := by
  refine ⟨by decide, by rfl, fun fuel => ?_, by rfl⟩
  exact refineQualitative_with_candidates_outcome Int fuel toyRefiner branchingGame
    branchingTransitions differingQualitativeResult [] (by decide)

/-- Without pivot candidates the search of pickPivotState never returns,
whatever the fuel. -/
theorem pickPivotState_no_candidates {S : Type} (P1 P2 V : Type) [Valuations S]
    [DecidableEq S] [LinearOrderedRing V] (fuel : Nat)
    (initialStates : Bdd S) (transitionsMin transitionsMax : Bdd (S × S)) (pivotStates : Bdd S)
    (quantitativeResult : Option (QuantitativeResultMinMax S P1 P2 V))
    (hempty : Bdd.isZero pivotStates = true) :
    pickPivotState P1 P2 V fuel initialStates transitionsMin transitionsMax pivotStates
      quantitativeResult = none := by
  have hand : ∀ frontier : Bdd S, Bdd.isZero (Bdd.and frontier pivotStates) = true := by
    intro frontier
    rw [Bdd.isZero_eq_true_iff] at hempty ⊢
    intro s
    simp [Bdd.and, hempty s]
  have hloop : ∀ (fuel : Nat) (frontierMin frontierMax : Bdd S) (level : Nat),
      pickPivotStateLoop P1 P2 V transitionsMin transitionsMax pivotStates quantitativeResult
        fuel frontierMin frontierMax level = none := by
    intro fuel
    induction fuel with
    | zero => intro frontierMin frontierMax level; rfl
    | succ fuel ih =>
      intro frontierMin frontierMax level
      rw [pickPivotStateLoop.eq_def]
      simp only [hand, Bool.not_true, Bool.or_self, Bool.false_eq_true, if_false]
      exact ih _ _ _
  simp only [pickPivotState, hand, Bool.not_true, Bool.false_eq_true, if_false]
  exact hloop _ _ _ _

/-- C13: when the pivot-candidate set computed by the quantitative entry point
is empty, the assertion of line 349 fails: the call ends with a fatal
internal error, returns no value and hands no command to the abstractor.  The
pivot search that follows the assertion would not return on this input
either. -/
theorem refineQuantitative_no_candidates_is_fatal {E U S P1 P2 Aux V : Type}
    [Valuations S] [Valuations P1] [Valuations P2] [Valuations Aux] [Inhabited P1]
    [DecidableEq S] [DecidableEq Aux] [LinearOrderedRing V]
    (fuel : Nat) (refiner : MenuGameRefiner E U S P1 Aux) (game : MenuGame S P1 P2 Aux V)
    (transitionMatrixBdd : Bdd (S × P1 × P2 × S))
    (quantitativeResult : QuantitativeResultMinMax S P1 P2 V)
    (handed : List (RefinementCommand E))
    (hempty : Bdd.isZero
      (quantitativePivotStateResult game transitionMatrixBdd quantitativeResult).pivotStates
        = true) :
    refineQuantitative fuel refiner game transitionMatrixBdd quantitativeResult handed
        = (Outcome.fatal "Unable to refine without pivot state candidates.", handed) ∧
      (∀ value : Bool,
        refineQuantitative fuel refiner game transitionMatrixBdd quantitativeResult handed
          ≠ (Outcome.returned value, handed)) ∧
      ∀ searchFuel, pickPivotState P1 P2 V searchFuel game.getInitialStates
        (quantitativePivotStateResult game transitionMatrixBdd
          quantitativeResult).reachableTransitionsMin
        (quantitativePivotStateResult game transitionMatrixBdd
          quantitativeResult).reachableTransitionsMax
        (quantitativePivotStateResult game transitionMatrixBdd quantitativeResult).pivotStates
        none = none := by
  have h : refineQuantitative fuel refiner game transitionMatrixBdd quantitativeResult handed
      = (Outcome.fatal "Unable to refine without pivot state candidates.", handed) := by
    rw [refineQuantitative_unfold]
    simp only [hempty, if_true]
    rfl
  refine ⟨h, ?_, ?_⟩
  · intro value hvalue
    rw [h] at hvalue
    cases hvalue
  · intro searchFuel
    exact pickPivotState_no_candidates P1 P2 V searchFuel _ _ _ _ none hempty

/-- Witness for C13: a quantitative result whose lower and upper result carry
the same Player-2 strategy. -/
theorem refineQuantitative_no_candidates_is_fatal_witness :
    refineQuantitative 2 toyRefiner branchingGame branchingTransitions
        sameStrategiesQuantitativeResult []
      = (Outcome.fatal "Unable to refine without pivot state candidates.", []) :=
  (refineQuantitative_no_candidates_is_fatal 2 toyRefiner branchingGame branchingTransitions
    sameStrategiesQuantitativeResult [] (by decide)).1

/-! ## The explicit-predicate entry point and the constructor -/

theorem performRefinement_createGlobalRefinement {E : Type} (predicates : List E)
    (handed : List (RefinementCommand E)) :
    performRefinement (createGlobalRefinement predicates) handed
      = (Outcome.returned (), handed ++ [⟨predicates⟩]) := rfl

/-- C14 (counterexample): on a refiner with both splitting flags set and the
registered predicate `x >= 1`, the Predicate Preprocessor drops the predicate
`x >= 1`, but refine(predicates) hands it over all the same: the command
carries the input, not its preprocessed form. -/
theorem refinePredicates_hands_over_unprocessed_input :
    refinePredicates [ToyExpr.ge .x (.lit 1)] []
        = (Outcome.returned (), [⟨[ToyExpr.ge .x (.lit 1)]⟩]) ∧
      toyRefiner.splitPredicates = true ∧ toyRefiner.splitGuards = true ∧
      preprocessPredicates toyRefiner [ToyExpr.ge .x (.lit 1)] true = [] ∧
      [ToyExpr.ge .x (.lit 1)] ≠ preprocessPredicates toyRefiner [ToyExpr.ge .x (.lit 1)] true := by
  refine ⟨rfl, rfl, rfl, by decide, by decide⟩

/-- C14 (amended): refine(predicates) bypasses pivot selection and hands the
abstractor exactly one refinement command whose predicate sequence is the
input list itself; the Predicate Preprocessor is not called, so the sequence
is what preprocessing with splitting disabled would give, for every refiner. -/
theorem refinePredicates_hands_over_input {E U S P1 Aux : Type} (predicates : List E)
    (handed : List (RefinementCommand E)) (refiner : MenuGameRefiner E U S P1 Aux) :
    refinePredicates predicates handed = (Outcome.returned (), handed ++ [⟨predicates⟩]) ∧
      (⟨predicates⟩ : RefinementCommand E).getPredicates
        = preprocessPredicates refiner predicates false := by
  refine ⟨rfl, ?_⟩
  simp [preprocessPredicates]

/-- C16: with addAllGuards set, the constructor hands the abstractor exactly
one command whose predicates are preprocessPredicates of the guards of the
commands `first, ..., second - 1` in increasing order, with the flag
splitInitialGuards; with addAllGuards not set it hands over nothing. -/
theorem MenuGameRefiner_construct_seeds_guards {E U S P1 Aux : Type}
    (settings : AbstractionSettings) (abstractor : MenuGameAbstractor E U S P1 Aux)
    (splitter : E → List E) (equivalenceChecker : E → E → Bool)
    (expressions : ExpressionOps E U) (handed : List (RefinementCommand E)) :
    MenuGameRefiner.construct settings abstractor splitter equivalenceChecker expressions handed
        = (Outcome.returned
            ⟨abstractor, settings.isSplitPredicatesSet, settings.isSplitGuardsSet, splitter,
              equivalenceChecker, expressions⟩,
          if settings.isAddAllGuardsSet = true then
            handed ++ [⟨preprocessPredicates
              ⟨abstractor, settings.isSplitPredicatesSet, settings.isSplitGuardsSet, splitter,
                equivalenceChecker, expressions⟩
              ((List.range' abstractor.getPlayer1ChoiceRange.1
                (abstractor.getPlayer1ChoiceRange.2 - abstractor.getPlayer1ChoiceRange.1)).map
                abstractor.getGuard)
              settings.isSplitInitialGuardsSet⟩]
          else handed) ∧
      ((List.range' abstractor.getPlayer1ChoiceRange.1
          (abstractor.getPlayer1ChoiceRange.2 - abstractor.getPlayer1ChoiceRange.1)).map
          abstractor.getGuard).length
        = abstractor.getPlayer1ChoiceRange.2 - abstractor.getPlayer1ChoiceRange.1 ∧
      ∀ i, i < abstractor.getPlayer1ChoiceRange.2 - abstractor.getPlayer1ChoiceRange.1 →
        ((List.range' abstractor.getPlayer1ChoiceRange.1
          (abstractor.getPlayer1ChoiceRange.2 - abstractor.getPlayer1ChoiceRange.1)).map
          abstractor.getGuard)[i]?
          = some (abstractor.getGuard (abstractor.getPlayer1ChoiceRange.1 + i)) := by
  refine ⟨?_, by simp, ?_⟩
  · unfold MenuGameRefiner.construct
    cases h : settings.isAddAllGuardsSet
    · simp only [Bool.false_eq_true, if_false]
      rfl
    · simp only [if_true]
      rfl
  · intro i hi
    simp [List.getElem?_map, List.getElem?_range', hi]

/-- Witness for C16: three commands with the guards `x >= 1`, `x >= 2`,
`x >= 2` and the registered predicate `x >= 1`; with addAllGuards and
splitInitialGuards set the single command carries `x >= 2`. -/
theorem MenuGameRefiner_construct_seeds_guards_witness :
    (MenuGameRefiner.construct ⟨false, false, true, true⟩ threeCommandAbstractor (fun e => [e])
        (fun a b => decide (a = b)) ⟨ToyExpr.substitute, fun e => e⟩ []).2
      = [⟨[ToyExpr.ge .x (.lit 2)]⟩] := by
  rw [(MenuGameRefiner_construct_seeds_guards ⟨false, false, true, true⟩ threeCommandAbstractor
    (fun e => [e]) (fun a b => decide (a = b)) ⟨ToyExpr.substitute, fun e => e⟩ []).1]
  rfl

/-! ## What the entry points hand to the abstractor -/

/-- The qualitative entry point hands no command to the abstractor, whatever
its outcome. -/
theorem refineQualitative_commands_unchanged {E U S P1 P2 Aux : Type} (V : Type)
    [Valuations S] [Valuations P1] [Valuations P2] [Valuations Aux] [Inhabited P1]
    [DecidableEq S] [DecidableEq Aux] [LinearOrderedRing V]
    (fuel : Nat) (refiner : MenuGameRefiner E U S P1 Aux) (game : MenuGame S P1 P2 Aux V)
    (transitionMatrixBdd : Bdd (S × P1 × P2 × S))
    (qualitativeResult : QualitativeResultMinMax S P1 P2) (handed : List (RefinementCommand E)) :
    (refineQualitative V fuel refiner game transitionMatrixBdd qualitativeResult handed).2
      = handed := by
  cases hzero : Bdd.isZero
      (qualitativePivotStateResult game transitionMatrixBdd qualitativeResult).pivotStates
  · rcases refineQualitative_with_candidates_outcome V fuel refiner game transitionMatrixBdd
      qualitativeResult handed hzero with h | h <;> rw [h]
  · have h : refineQualitative V fuel refiner game transitionMatrixBdd qualitativeResult handed
        = (Outcome.returned false, handed) := by
      rw [refineQualitative_unfold]
      simp only [hzero, if_true]
      rfl
    rw [h]

/-- With pivot candidates, the quantitative entry point exits the process or
does not come back from one of its loops; it hands over no command. -/
theorem refineQuantitative_with_candidates_outcome {E U S P1 P2 Aux V : Type}
    [Valuations S] [Valuations P1] [Valuations P2] [Valuations Aux] [Inhabited P1]
    [DecidableEq S] [DecidableEq Aux] [LinearOrderedRing V]
    (fuel : Nat) (refiner : MenuGameRefiner E U S P1 Aux) (game : MenuGame S P1 P2 Aux V)
    (transitionMatrixBdd : Bdd (S × P1 × P2 × S))
    (quantitativeResult : QuantitativeResultMinMax S P1 P2 V)
    (handed : List (RefinementCommand E))
    (hcandidates : Bdd.isZero
      (quantitativePivotStateResult game transitionMatrixBdd quantitativeResult).pivotStates
        = false) :
    refineQuantitative fuel refiner game transitionMatrixBdd quantitativeResult handed
        = (Outcome.exited (-1), handed) ∨
      refineQuantitative fuel refiner game transitionMatrixBdd quantitativeResult handed
        = (Outcome.diverged, handed) := by
  rw [refineQuantitative_unfold]
  simp only [hcandidates, Bool.false_eq_true, if_false, Refine.pure_bind_apply]
  cases pickPivotState P1 P2 V fuel game.getInitialStates
      (quantitativePivotStateResult game transitionMatrixBdd
        quantitativeResult).reachableTransitionsMin
      (quantitativePivotStateResult game transitionMatrixBdd
        quantitativeResult).reachableTransitionsMax
      (quantitativePivotStateResult game transitionMatrixBdd quantitativeResult).pivotStates
      none with
  | none => exact Or.inr rfl
  | some pivotState =>
    simp only [Refine.ofOption_some_bind_apply]
    cases getMostProbablePathSpanningTree fuel game pivotState.first
      (if pivotState.second = OptimizationDirection.Minimize
        then Bdd.and (fun n => quantitativeResult.min.player1Strategy (n.1, n.2.1))
          quantitativeResult.min.player2Strategy
        else Bdd.and (fun n => quantitativeResult.max.player1Strategy (n.1, n.2.1))
          quantitativeResult.max.player2Strategy) with
    | none => exact Or.inr rfl
    | some tree => exact Or.inl rfl

/-- The quantitative entry point hands no command to the abstractor, whatever
its outcome. -/
theorem refineQuantitative_commands_unchanged {E U S P1 P2 Aux V : Type}
    [Valuations S] [Valuations P1] [Valuations P2] [Valuations Aux] [Inhabited P1]
    [DecidableEq S] [DecidableEq Aux] [LinearOrderedRing V]
    (fuel : Nat) (refiner : MenuGameRefiner E U S P1 Aux) (game : MenuGame S P1 P2 Aux V)
    (transitionMatrixBdd : Bdd (S × P1 × P2 × S))
    (quantitativeResult : QuantitativeResultMinMax S P1 P2 V)
    (handed : List (RefinementCommand E)) :
    (refineQuantitative fuel refiner game transitionMatrixBdd quantitativeResult handed).2
      = handed := by
  cases hzero : Bdd.isZero
      (quantitativePivotStateResult game transitionMatrixBdd quantitativeResult).pivotStates
  · rcases refineQuantitative_with_candidates_outcome fuel refiner game transitionMatrixBdd
      quantitativeResult handed hzero with h | h <;> rw [h]
  · have h : refineQuantitative fuel refiner game transitionMatrixBdd quantitativeResult handed
        = (Outcome.fatal "Unable to refine without pivot state candidates.", handed) := by
      rw [refineQuantitative_unfold]
      simp only [hzero, if_true]
      rfl
    rw [h]

/-- The constructor either hands over nothing or one command with the
preprocessed guards. -/
theorem MenuGameRefiner_construct_commands {E U S P1 Aux : Type}
    (settings : AbstractionSettings) (abstractor : MenuGameAbstractor E U S P1 Aux)
    (splitter : E → List E) (equivalenceChecker : E → E → Bool)
    (expressions : ExpressionOps E U) (handed : List (RefinementCommand E)) :
    MenuGameRefiner.construct settings abstractor splitter equivalenceChecker expressions handed
      = (Outcome.returned
          ⟨abstractor, settings.isSplitPredicatesSet, settings.isSplitGuardsSet, splitter,
            equivalenceChecker, expressions⟩,
        if settings.isAddAllGuardsSet = true then
          handed ++ [⟨preprocessPredicates
            ⟨abstractor, settings.isSplitPredicatesSet, settings.isSplitGuardsSet, splitter,
              equivalenceChecker, expressions⟩
            ((List.range' abstractor.getPlayer1ChoiceRange.1
              (abstractor.getPlayer1ChoiceRange.2 - abstractor.getPlayer1ChoiceRange.1)).map
              abstractor.getGuard)
            settings.isSplitInitialGuardsSet⟩]
        else handed) := by
  unfold MenuGameRefiner.construct
  cases h : settings.isAddAllGuardsSet
  · simp only [Bool.false_eq_true, if_false]
    rfl
  · simp only [if_true]
    rfl

/-- C15 (counterexample): calls that complete without a new predicate and
without a signal of their own.  refine(predicates) on the empty list hands
over an empty command and returns exactly as the call that adds `x >= 2`
does, and the abstractor's predicates are as before; on the registered
predicate `x >= 1` it returns the same and every predicate afterwards was
there before.  The guard seeding of the constructor with every splitting flag
set, on an abstractor whose only guard `x >= 1` is registered, has every atom
rejected by the deduplication, hands over the empty command and returns the
refiner as usual.  The analysis-driven entry point run on the same refiner
does not come to report anything. -/
theorem refinement_completes_without_new_predicate_or_signal :
    refinePredicates ([] : List ToyExpr) [] = (Outcome.returned (), [⟨[]⟩]) ∧
      predicatesAfter toyAbstractor [⟨[]⟩] = predicatesAfter toyAbstractor [] ∧
      refinePredicates [ToyExpr.ge .x (.lit 2)] [] = (Outcome.returned (), [⟨[.ge .x (.lit 2)]⟩]) ∧
      predicatesAfter toyAbstractor [⟨[ToyExpr.ge .x (.lit 2)]⟩]
        ≠ predicatesAfter toyAbstractor [] ∧
      refinePredicates [ToyExpr.ge .x (.lit 1)] [] = (Outcome.returned (), [⟨[.ge .x (.lit 1)]⟩]) ∧
      (∀ predicate ∈ predicatesAfter toyAbstractor [⟨[ToyExpr.ge .x (.lit 1)]⟩],
        predicate ∈ predicatesAfter toyAbstractor []) ∧
      preprocessPredicates toyRefiner [toyAbstractor.getGuard 0] true = [] ∧
      MenuGameRefiner.construct ⟨true, true, true, true⟩ toyAbstractor toyRefiner.splitter
          toyRefiner.equivalenceChecker toyRefiner.expressions []
        = (Outcome.returned toyRefiner, [⟨[]⟩]) ∧
      refineQualitative Int 1 toyRefiner branchingGame branchingTransitions
          differingQualitativeResult []
        = (Outcome.exited (-1), []) := by
  refine ⟨rfl, by decide, rfl, by decide, rfl, by decide, by decide, by rfl, by rfl⟩

/-- C15 (amended): every refinement call leaves the abstractor with its
earlier predicates followed by those of the command it handed over.
refine(predicates) returns after handing over one command with its input, the
constructor after handing over one command with the preprocessed guards when
addAllGuards is set and nothing otherwise; neither looks at whether the
command carries a predicate, so the predicates grow exactly by the command's
list, which may be empty.  For the two analysis-driven entry points every
predicate registered before the call is registered after it, whatever the
outcome of the call. -/
theorem refinement_calls_extend_predicates_by_their_command {E U S P1 P2 Aux V : Type}
    [Valuations S] [Valuations P1] [Valuations P2] [Valuations Aux] [Inhabited P1]
    [DecidableEq S] [DecidableEq Aux] [LinearOrderedRing V]
    (fuel : Nat) (refiner : MenuGameRefiner E U S P1 Aux) (game : MenuGame S P1 P2 Aux V)
    (transitionMatrixBdd : Bdd (S × P1 × P2 × S))
    (qualitativeResult : QualitativeResultMinMax S P1 P2)
    (quantitativeResult : QuantitativeResultMinMax S P1 P2 V)
    (settings : AbstractionSettings) (predicates : List E)
    (handed : List (RefinementCommand E)) :
    (refinePredicates predicates handed = (Outcome.returned (), handed ++ [⟨predicates⟩]) ∧
      predicatesAfter refiner.abstractor (refinePredicates predicates handed).2
        = predicatesAfter refiner.abstractor handed ++ predicates) ∧
    ((MenuGameRefiner.construct settings refiner.abstractor refiner.splitter
          refiner.equivalenceChecker refiner.expressions handed).2
        = (if settings.isAddAllGuardsSet = true then
            handed ++ [⟨preprocessPredicates
              ⟨refiner.abstractor, settings.isSplitPredicatesSet, settings.isSplitGuardsSet,
                refiner.splitter, refiner.equivalenceChecker, refiner.expressions⟩
              ((List.range' refiner.abstractor.getPlayer1ChoiceRange.1
                (refiner.abstractor.getPlayer1ChoiceRange.2
                  - refiner.abstractor.getPlayer1ChoiceRange.1)).map refiner.abstractor.getGuard)
              settings.isSplitInitialGuardsSet⟩]
          else handed) ∧
      predicatesAfter refiner.abstractor
          (MenuGameRefiner.construct settings refiner.abstractor refiner.splitter
            refiner.equivalenceChecker refiner.expressions handed).2
        = predicatesAfter refiner.abstractor handed
          ++ (if settings.isAddAllGuardsSet = true then
              preprocessPredicates
                ⟨refiner.abstractor, settings.isSplitPredicatesSet, settings.isSplitGuardsSet,
                  refiner.splitter, refiner.equivalenceChecker, refiner.expressions⟩
                ((List.range' refiner.abstractor.getPlayer1ChoiceRange.1
                  (refiner.abstractor.getPlayer1ChoiceRange.2
                    - refiner.abstractor.getPlayer1ChoiceRange.1)).map
                  refiner.abstractor.getGuard)
                settings.isSplitInitialGuardsSet
            else [])) ∧
    (∀ predicate ∈ predicatesAfter refiner.abstractor handed,
      predicate ∈ predicatesAfter refiner.abstractor (refinePredicates predicates handed).2 ∧
      predicate ∈ predicatesAfter refiner.abstractor
        (MenuGameRefiner.construct settings refiner.abstractor refiner.splitter
          refiner.equivalenceChecker refiner.expressions handed).2 ∧
      predicate ∈ predicatesAfter refiner.abstractor
        (refineQualitative V fuel refiner game transitionMatrixBdd qualitativeResult handed).2 ∧
      predicate ∈ predicatesAfter refiner.abstractor
        (refineQuantitative fuel refiner game transitionMatrixBdd quantitativeResult
          handed).2) := by
  have hdirect : refinePredicates predicates handed
      = (Outcome.returned (), handed ++ [⟨predicates⟩]) := rfl
  have hconstruct := MenuGameRefiner_construct_commands settings refiner.abstractor
    refiner.splitter refiner.equivalenceChecker refiner.expressions handed
  refine ⟨⟨hdirect, ?_⟩, ⟨?_, ?_⟩, ?_⟩
  · rw [hdirect]
    simp [predicatesAfter]
  · rw [hconstruct]
  · rw [hconstruct]
    cases settings.isAddAllGuardsSet <;> simp [predicatesAfter]
  · intro predicate hmem
    refine ⟨?_, ?_, ?_, ?_⟩
    · rw [hdirect]
      simp only [predicatesAfter, List.flatMap_append, List.mem_append] at hmem ⊢
      rcases hmem with h | h
      · exact Or.inl h
      · exact Or.inr (Or.inl h)
    · rw [hconstruct]
      cases settings.isAddAllGuardsSet
      · simpa using hmem
      · simp only [if_true, predicatesAfter, List.flatMap_append, List.mem_append] at hmem ⊢
        rcases hmem with h | h
        · exact Or.inl h
        · exact Or.inr (Or.inl h)
    · rw [refineQualitative_commands_unchanged]
      exact hmem
    · rw [refineQuantitative_commands_unchanged]
      exact hmem

/-- C17 (failing input): the branching game, a refiner that has the guard
`x >= 1` registered, and analysis results whose Player-2 strategies differ.
The pivot state `false` has a bottom-state successor, so the predicate to
derive is the guard `x >= 1` with source Guard, and splitGuards decides how it
is preprocessed: the statements of lines 330-334 and 358-362 hand over the
empty command when the flag is set and the command `[x >= 1]` when it is not.
Both entry points reach `exit(-1)` before these statements: for either value
of splitGuards the outcome is the exit and no command is handed over, so no
predicate is preprocessed, with or without splitting. -/
theorem refine_entry_points_exit_before_preprocessing :
    Bdd.isZero (qualitativePivotStateResult branchingGame branchingTransitions
        differingQualitativeResult).pivotStates = false ∧
      Bdd.isZero (quantitativePivotStateResult branchingGame branchingTransitions
        differingQuantitativeResult).pivotStates = false ∧
      derivePredicatesFromPivotState Int registeredGuardRefiner branchingGame (Bdd.cube false)
          (redirectedMinPlayer1Strategy differingQualitativeResult)
          differingQualitativeResult.prob0Min.getPlayer2Strategy
          differingQualitativeResult.prob1Max.getPlayer1Strategy
          differingQualitativeResult.prob1Max.getPlayer2Strategy
        = .ok ⟨Source.Guard, [ToyExpr.ge .x (.lit 1)]⟩ ∧
      (∀ flag : Bool,
        refineQualitative Int 1 (registeredGuardRefiner.withSplitGuards flag) branchingGame
            branchingTransitions differingQualitativeResult []
          = (Outcome.exited (-1), [])) ∧
      (∀ flag : Bool,
        refineQuantitative 1 (registeredGuardRefiner.withSplitGuards flag) branchingGame
            branchingTransitions differingQuantitativeResult []
          = (Outcome.exited (-1), [])) ∧
      (∀ fuel (flag : Bool),
        (refineQualitative Int fuel (registeredGuardRefiner.withSplitGuards flag) branchingGame
            branchingTransitions differingQualitativeResult []).2 = [] ∧
        (refineQuantitative fuel (registeredGuardRefiner.withSplitGuards flag) branchingGame
            branchingTransitions differingQuantitativeResult []).2 = []) ∧
      refineWithPivotState Int (registeredGuardRefiner.withSplitGuards true) branchingGame
          (Bdd.cube false) (redirectedMinPlayer1Strategy differingQualitativeResult)
          differingQualitativeResult.prob0Min.getPlayer2Strategy
          differingQualitativeResult.prob1Max.getPlayer1Strategy
          differingQualitativeResult.prob1Max.getPlayer2Strategy []
        = (Outcome.returned true, [⟨[]⟩]) ∧
      refineWithPivotState Int (registeredGuardRefiner.withSplitGuards false) branchingGame
          (Bdd.cube false) (redirectedMinPlayer1Strategy differingQualitativeResult)
          differingQualitativeResult.prob0Min.getPlayer2Strategy
          differingQualitativeResult.prob1Max.getPlayer1Strategy
          differingQualitativeResult.prob1Max.getPlayer2Strategy []
        = (Outcome.returned true, [⟨[ToyExpr.ge .x (.lit 1)]⟩]) := by
  refine ⟨by decide, by decide, by rfl, ?_, ?_, ?_, by rfl, by rfl⟩
  · intro flag
    cases flag <;> rfl
  · intro flag
    cases flag <;> rfl
  · intro fuel flag
    exact ⟨refineQualitative_commands_unchanged Int fuel _ _ _ _ [],
      refineQuantitative_commands_unchanged fuel _ _ _ _ []⟩

/-! ## derivePredicatesFromPivotState -/

theorem Bdd.isZero_exclusiveOr_eq_true_iff {α : Type} [Valuations α] (f g : Bdd α) :
    Bdd.isZero (Bdd.exclusiveOr f g) = true ↔ ∀ c, f c = g c := by
  rw [Bdd.isZero_eq_true_iff]
  constructor
  · intro h c
    have hc := h c
    simp only [Bdd.exclusiveOr] at hc
    cases hf : f c <;> cases hg : g c <;> simp_all
  · intro h c
    simp [Bdd.exclusiveOr, h c]

/-- C18: if the successor choices at the pivot state under the min Player-1
strategy differ between the min and the max Player-2 strategy, the result is
derivePredicatesFromDifferingChoices on the min Player-1 choice and that pair;
otherwise, if the pair under the max Player-1 strategy differs, it is derived
from the max Player-1 choice and that pair; if neither pair differs the call
ends with a fatal internal error. -/
theorem derivePredicatesFromPivotState_chooses_differing_pair {E U S P1 P2 Aux : Type} (V : Type)
    [Valuations S] [Valuations P1] [Valuations P2] [Valuations Aux] [Inhabited P1]
    [LinearOrderedRing V]
    (refiner : MenuGameRefiner E U S P1 Aux) (game : MenuGame S P1 P2 Aux V) (pivotState : Bdd S)
    (minPlayer1Strategy : Bdd (S × P1)) (minPlayer2Strategy : Bdd (S × P1 × P2))
    (maxPlayer1Strategy : Bdd (S × P1)) (maxPlayer2Strategy : Bdd (S × P1 × P2)) :
    ((∃ c, successorChoice game pivotState minPlayer1Strategy minPlayer2Strategy c
          ≠ successorChoice game pivotState minPlayer1Strategy maxPlayer2Strategy c) →
        derivePredicatesFromPivotState V refiner game pivotState minPlayer1Strategy
            minPlayer2Strategy maxPlayer1Strategy maxPlayer2Strategy
          = derivePredicatesFromDifferingChoices V refiner pivotState
              (player1ChoiceAt pivotState minPlayer1Strategy)
              (successorChoice game pivotState minPlayer1Strategy minPlayer2Strategy)
              (successorChoice game pivotState minPlayer1Strategy maxPlayer2Strategy)) ∧
      ((∀ c, successorChoice game pivotState minPlayer1Strategy minPlayer2Strategy c
          = successorChoice game pivotState minPlayer1Strategy maxPlayer2Strategy c) →
        (∃ c, successorChoice game pivotState maxPlayer1Strategy minPlayer2Strategy c
          ≠ successorChoice game pivotState maxPlayer1Strategy maxPlayer2Strategy c) →
        derivePredicatesFromPivotState V refiner game pivotState minPlayer1Strategy
            minPlayer2Strategy maxPlayer1Strategy maxPlayer2Strategy
          = derivePredicatesFromDifferingChoices V refiner pivotState
              (player1ChoiceAt pivotState maxPlayer1Strategy)
              (successorChoice game pivotState maxPlayer1Strategy minPlayer2Strategy)
              (successorChoice game pivotState maxPlayer1Strategy maxPlayer2Strategy)) ∧
      ((∀ c, successorChoice game pivotState minPlayer1Strategy minPlayer2Strategy c
          = successorChoice game pivotState minPlayer1Strategy maxPlayer2Strategy c) →
        (∀ c, successorChoice game pivotState maxPlayer1Strategy minPlayer2Strategy c
          = successorChoice game pivotState maxPlayer1Strategy maxPlayer2Strategy c) →
        derivePredicatesFromPivotState V refiner game pivotState minPlayer1Strategy
            minPlayer2Strategy maxPlayer1Strategy maxPlayer2Strategy
          = .error "Did not find choices from which to derive predicates.") := by
  have hshape : derivePredicatesFromPivotState V refiner game pivotState minPlayer1Strategy
        minPlayer2Strategy maxPlayer1Strategy maxPlayer2Strategy
      = if (!Bdd.isZero (Bdd.exclusiveOr
            (successorChoice game pivotState minPlayer1Strategy minPlayer2Strategy)
            (successorChoice game pivotState minPlayer1Strategy maxPlayer2Strategy))) = true then
          derivePredicatesFromDifferingChoices V refiner pivotState
            (player1ChoiceAt pivotState minPlayer1Strategy)
            (successorChoice game pivotState minPlayer1Strategy minPlayer2Strategy)
            (successorChoice game pivotState minPlayer1Strategy maxPlayer2Strategy)
        else if (!Bdd.isZero (Bdd.exclusiveOr
            (successorChoice game pivotState maxPlayer1Strategy minPlayer2Strategy)
            (successorChoice game pivotState maxPlayer1Strategy maxPlayer2Strategy))) = true then
          derivePredicatesFromDifferingChoices V refiner pivotState
            (player1ChoiceAt pivotState maxPlayer1Strategy)
            (successorChoice game pivotState maxPlayer1Strategy minPlayer2Strategy)
            (successorChoice game pivotState maxPlayer1Strategy maxPlayer2Strategy)
        else .error "Did not find choices from which to derive predicates." := rfl
  have hdiffer : ∀ f g : Bdd (Aux × S), (∃ c, f c ≠ g c) →
      (!Bdd.isZero (Bdd.exclusiveOr f g)) = true := by
    intro f g hfg
    cases hz : Bdd.isZero (Bdd.exclusiveOr f g)
    · rfl
    · exfalso
      obtain ⟨c, hc⟩ := hfg
      exact hc ((Bdd.isZero_exclusiveOr_eq_true_iff f g).mp hz c)
  have hsame : ∀ f g : Bdd (Aux × S), (∀ c, f c = g c) →
      ¬ (!Bdd.isZero (Bdd.exclusiveOr f g)) = true := by
    intro f g hfg
    simp [(Bdd.isZero_exclusiveOr_eq_true_iff f g).mpr hfg]
  refine ⟨?_, ?_, ?_⟩
  · intro hlower
    rw [hshape, if_pos (hdiffer _ _ hlower)]
  · intro hlower hupper
    rw [hshape, if_neg (hsame _ _ hlower), if_pos (hdiffer _ _ hupper)]
  · intro hlower hupper
    rw [hshape, if_neg (hsame _ _ hlower), if_neg (hsame _ _ hupper)]

/-- Witness for C18: at the pivot state `false` of the branching game the min
Player-2 strategy leads to `false` and the max Player-2 strategy to `true`,
so the predicates are derived from the min Player-1 choice. -/
theorem derivePredicatesFromPivotState_chooses_differing_pair_witness :
    derivePredicatesFromPivotState Int toyRefiner branchingGame (Bdd.cube false) (fun _ => true)
        (twoStatePlayer2Strategy false) (fun _ => true) (twoStatePlayer2Strategy true)
      = derivePredicatesFromDifferingChoices Int toyRefiner (Bdd.cube false)
          (player1ChoiceAt (Bdd.cube false) (fun _ => true))
          (successorChoice branchingGame (Bdd.cube false) (fun _ => true)
            (twoStatePlayer2Strategy false))
          (successorChoice branchingGame (Bdd.cube false) (fun _ => true)
            (twoStatePlayer2Strategy true)) :=
  (derivePredicatesFromPivotState_chooses_differing_pair Int toyRefiner branchingGame
    (Bdd.cube false) (fun _ => true) (twoStatePlayer2Strategy false) (fun _ => true)
    (twoStatePlayer2Strategy true)).1 ⟨((), false), by decide⟩

/-! ## Failures of derivePredicatesFromDifferingChoices -/

theorem derivePredicatesFromDifferingChoices_no_bottom {E U S P1 Aux : Type}
    [Valuations S] [Valuations Aux]
    (refiner : MenuGameRefiner E U S P1 Aux) (lowerChoice upperChoice : Bdd (Aux × S))
    (hbottom : ∀ c : Aux × S,
      refiner.abstractor.getAbstractionInformation.getBottomStateBdd false false c.2 = true →
        lowerChoice c = false ∧ upperChoice c = false) :
    Bdd.isZero (Bdd.or
      (Bdd.and (fun c : Aux × S =>
        refiner.abstractor.getAbstractionInformation.getBottomStateBdd false false c.2) lowerChoice)
      (Bdd.and (fun c : Aux × S =>
        refiner.abstractor.getAbstractionInformation.getBottomStateBdd false false c.2) upperChoice))
      = true := by
  rw [Bdd.isZero_eq_true_iff]
  intro c
  cases hb : refiner.abstractor.getAbstractionInformation.getBottomStateBdd false false c.2
  · simp [Bdd.or, Bdd.and, hb]
  · simp [Bdd.or, Bdd.and, hb, hbottom c hb]

/-- C19: when neither choice meets the bottom-state region and the two decoded
update-to-successor mappings are the same, the assertion of line 198 fails:
the call ends with a fatal internal error and returns no RefinementPredicates
value. -/
theorem derivePredicatesFromDifferingChoices_no_deviation_is_fatal
    {E U S P1 Aux : Type} (V : Type)
    [Valuations S] [Valuations P1] [Valuations Aux] [Inhabited P1] [Zero V] [One V] [DecidableEq V]
    (refiner : MenuGameRefiner E U S P1 Aux)
    (pivotState : Bdd S) (player1Choice : Bdd P1) (lowerChoice upperChoice : Bdd (Aux × S))
    (hbottom : ∀ c : Aux × S,
      refiner.abstractor.getAbstractionInformation.getBottomStateBdd false false c.2 = true →
        lowerChoice c = false ∧ upperChoice c = false)
    (hequal : refiner.abstractor.getAbstractionInformation.decodeChoiceToUpdateSuccessorMapping
        lowerChoice
      = refiner.abstractor.getAbstractionInformation.decodeChoiceToUpdateSuccessorMapping
        upperChoice) :
    derivePredicatesFromDifferingChoices V refiner pivotState player1Choice lowerChoice upperChoice
        = .error "Could not derive new predicate as there is no deviation." ∧
      ∀ predicates : RefinementPredicates E,
        derivePredicatesFromDifferingChoices V refiner pivotState player1Choice lowerChoice
          upperChoice ≠ .ok predicates := by
  have h : derivePredicatesFromDifferingChoices V refiner pivotState player1Choice lowerChoice
      upperChoice = .error "Could not derive new predicate as there is no deviation." := by
    simp only [derivePredicatesFromDifferingChoices,
      derivePredicatesFromDifferingChoices_no_bottom refiner lowerChoice upperChoice hbottom,
      Bool.not_true, hequal, deviationLoop_same]
    simp
  refine ⟨h, fun predicates hp => ?_⟩
  rw [h] at hp
  cases hp

/-- Witness for C19: the same choice as lower and as upper choice. -/
theorem derivePredicatesFromDifferingChoices_no_deviation_is_fatal_witness :
    derivePredicatesFromDifferingChoices Int toyRefiner (Bdd.cube true) (Bdd.cube ())
        (Bdd.cube ((), false)) (Bdd.cube ((), false))
      = .error "Could not derive new predicate as there is no deviation." :=
  (derivePredicatesFromDifferingChoices_no_deviation_is_fatal Int toyRefiner (Bdd.cube true)
    (Bdd.cube ()) (Bdd.cube ((), false)) (Bdd.cube ((), false)) (by decide) rfl).1

/-- C20: when neither choice meets the bottom-state region and the two decoded
mappings have different sizes, the assertion of line 178 fails: the call ends
with the size-mismatch error, which precedes the walk over the mappings, and
returns no predicate; the outcome is the same whatever the entries of the
mappings, the predicates and the expression operations used by the walk are. -/
theorem derivePredicatesFromDifferingChoices_size_mismatch_is_fatal
    {E U S P1 Aux : Type} (V : Type)
    [Valuations S] [Valuations P1] [Valuations Aux] [Inhabited P1] [Zero V] [One V] [DecidableEq V]
    (refiner : MenuGameRefiner E U S P1 Aux)
    (pivotState : Bdd S) (player1Choice : Bdd P1) (lowerChoice upperChoice : Bdd (Aux × S))
    (hbottom : ∀ c : Aux × S,
      refiner.abstractor.getAbstractionInformation.getBottomStateBdd false false c.2 = true →
        lowerChoice c = false ∧ upperChoice c = false)
    (hsizes : (refiner.abstractor.getAbstractionInformation.decodeChoiceToUpdateSuccessorMapping
        lowerChoice).length
      ≠ (refiner.abstractor.getAbstractionInformation.decodeChoiceToUpdateSuccessorMapping
        upperChoice).length) :
    derivePredicatesFromDifferingChoices V refiner pivotState player1Choice lowerChoice upperChoice
        = .error "Mismatching sizes after decode." ∧
      (∀ predicates : RefinementPredicates E,
        derivePredicatesFromDifferingChoices V refiner pivotState player1Choice lowerChoice
          upperChoice ≠ .ok predicates) ∧
      ∀ decode : Bdd (Aux × S) → List (Nat × BitVector),
        (decode lowerChoice).length ≠ (decode upperChoice).length →
        derivePredicatesFromDifferingChoices V (refiner.withDecoding decode) pivotState
          player1Choice lowerChoice upperChoice = .error "Mismatching sizes after decode." := by
  have hmain : ∀ r : MenuGameRefiner E U S P1 Aux,
      r.abstractor.getAbstractionInformation.getBottomStateBdd
        = refiner.abstractor.getAbstractionInformation.getBottomStateBdd →
      (r.abstractor.getAbstractionInformation.decodeChoiceToUpdateSuccessorMapping
        lowerChoice).length
      ≠ (r.abstractor.getAbstractionInformation.decodeChoiceToUpdateSuccessorMapping
        upperChoice).length →
      derivePredicatesFromDifferingChoices V r pivotState player1Choice lowerChoice upperChoice
        = .error "Mismatching sizes after decode." := by
    intro r hr hlen
    have hz := derivePredicatesFromDifferingChoices_no_bottom r lowerChoice upperChoice
      (by rw [hr]; exact hbottom)
    simp only [derivePredicatesFromDifferingChoices, hz, Bool.not_true]
    simp [hlen]
  refine ⟨hmain refiner rfl hsizes, fun predicates hp => ?_, fun decode hlen => ?_⟩
  · rw [hmain refiner rfl hsizes] at hp
    cases hp
  · exact hmain (refiner.withDecoding decode) rfl hlen

/-- Witness for C20: the lower choice decodes to one update, the empty upper
choice to none. -/
theorem derivePredicatesFromDifferingChoices_size_mismatch_is_fatal_witness :
    derivePredicatesFromDifferingChoices Int toyRefiner (Bdd.cube true) (Bdd.cube ())
        (Bdd.cube ((), false)) Bdd.zero
      = .error "Mismatching sizes after decode." :=
  (derivePredicatesFromDifferingChoices_size_mismatch_is_fatal Int toyRefiner (Bdd.cube true)
    (Bdd.cube ()) (Bdd.cube ((), false)) Bdd.zero (by decide) (by decide)).1

/-! ## Several deviating updates -/

/-- C21 (failing input): one command with the updates `x := x - 1` (index 0) and
`x := x - 2` (index 1) and the predicate `x >= 1`; the lower choice leads to
the successor `false` and the upper choice to the successor `true` under both
updates, so the decoded mappings differ at the update indices 0 and 1.  The
loop over the mappings goes on after the first deviation and overwrites
`newPredicate`: the result is derived from update 1, `x - 2 >= 1`, not from
the first deviating update 0, which gives `x - 1 >= 1`; the two predicates
differ at `x = 2`. -/
theorem derivePredicatesFromDifferingChoices_takes_last_deviating_update :
    twoUpdateAbstractor.getAbstractionInformation.decodeChoiceToUpdateSuccessorMapping
        (fun c => !c.2) = [(0, [false]), (1, [false])] ∧
      twoUpdateAbstractor.getAbstractionInformation.decodeChoiceToUpdateSuccessorMapping
        (fun c => c.2) = [(0, [true]), (1, [true])] ∧
      derivePredicatesFromDifferingChoices Int twoUpdateRefiner (Bdd.cube true) (Bdd.cube ())
          (fun c => !c.2) (fun c => c.2)
        = .ok ⟨Source.WeakestPrecondition, [ToyExpr.ge (.sub .x (.lit 2)) (.lit 1)]⟩ ∧
      twoUpdateRefiner.expressions.simplify
          (twoUpdateRefiner.expressions.substitute
            (twoUpdateAbstractor.getAbstractionInformation.getPredicateByIndex 0)
            (twoUpdateAbstractor.getVariableUpdates 0 0))
        = ToyExpr.ge (.sub .x (.lit 1)) (.lit 1) ∧
      ToyExpr.eval 2 (.ge (.sub .x (.lit 2)) (.lit 1)) = false ∧
      ToyExpr.eval 2 (.ge (.sub .x (.lit 1)) (.lit 1)) = true := by
  refine ⟨by decide, by decide, by rfl, by rfl, by decide, by decide⟩

/-! ## pickPivotState, level by level -/

/-- C23: when the initial states meet the pivot candidates, pickPivotState
returns a single state of that intersection with direction Minimize at level
0, for every value function or none, for every pair of transition relations
and without any fuel: no transition step is taken. -/
theorem pickPivotState_returns_at_level_zero {S : Type} (P1 P2 V : Type) [Valuations S]
    [DecidableEq S] [LinearOrderedRing V]
    (initialStates : Bdd S) (pivotStates : Bdd S)
    (hmeet : ∃ s, initialStates s = true ∧ pivotStates s = true) :
    ∃ s, initialStates s = true ∧ pivotStates s = true ∧
      ∀ (fuel : Nat) (transitionsMin transitionsMax : Bdd (S × S))
        (quantitativeResult : Option (QuantitativeResultMinMax S P1 P2 V)),
        pickPivotState P1 P2 V fuel initialStates transitionsMin transitionsMax pivotStates
          quantitativeResult = some ⟨Bdd.cube s, OptimizationDirection.Minimize, 0⟩ := by
  have hnz : Bdd.isZero (Bdd.and initialStates pivotStates) = false := by
    rw [Bdd.isZero_eq_false_iff]
    obtain ⟨s, hi, hp⟩ := hmeet
    exact ⟨s, by simp [Bdd.and, hi, hp]⟩
  obtain ⟨s, hs, hrep⟩ := Bdd.existsAbstractRepresentative_of_not_isZero _ hnz
  simp only [Bdd.and, Bool.and_eq_true] at hs
  refine ⟨s, hs.1, hs.2, ?_⟩
  intro fuel transitionsMin transitionsMax quantitativeResult
  simp only [pickPivotState, hnz, Bool.not_false, if_true, hrep]

/-- Witness for C23: the initial state `false` is the only pivot candidate. -/
theorem pickPivotState_returns_at_level_zero_witness :
    ∃ s, (Bdd.cube false : Bdd Bool) s = true ∧ (Bdd.cube false : Bdd Bool) s = true ∧
      ∀ (fuel : Nat) (transitionsMin transitionsMax : Bdd (Bool × Bool))
        (quantitativeResult : Option (QuantitativeResultMinMax Bool Unit Unit Int)),
        pickPivotState Unit Unit Int fuel (Bdd.cube false) transitionsMin transitionsMax
          (Bdd.cube false) quantitativeResult
          = some ⟨Bdd.cube s, OptimizationDirection.Minimize, 0⟩ :=
  pickPivotState_returns_at_level_zero Unit Unit Int (Bdd.cube false) (Bdd.cube false)
    ⟨false, by decide, by decide⟩

/-! ## The candidate set of computePivotStates -/

theorem xor_eq_true_iff_differ (a b : Bool) : xor a b = true ↔ a ≠ b := by
  cases a <;> cases b <;> simp

theorem computePivotStates_pivotStates_eq_true_iff {S P1 P2 Aux V : Type}
    [Valuations S] [Valuations P1] [Valuations P2]
    (game : MenuGame S P1 P2 Aux V) (transitionMatrixBdd : Bdd (S × P1 × P2 × S))
    (minPlayer1Strategy : Bdd (S × P1)) (minPlayer2Strategy : Bdd (S × P1 × P2))
    (maxPlayer1Strategy : Bdd (S × P1)) (maxPlayer2Strategy : Bdd (S × P1 × P2)) (s : S) :
    (computePivotStates game transitionMatrixBdd minPlayer1Strategy minPlayer2Strategy
        maxPlayer1Strategy maxPlayer2Strategy).pivotStates s = true ↔
      Bdd.or
          (computeReachableStates game.getInitialStates
            (computePivotStates game transitionMatrixBdd minPlayer1Strategy minPlayer2Strategy
              maxPlayer1Strategy maxPlayer2Strategy).reachableTransitionsMin)
          (computeReachableStates game.getInitialStates
            (computePivotStates game transitionMatrixBdd minPlayer1Strategy minPlayer2Strategy
              maxPlayer1Strategy maxPlayer2Strategy).reachableTransitionsMax) s = true ∧
        ∃ a b, minPlayer1Strategy (s, a) = true ∧ maxPlayer1Strategy (s, a) = true ∧
          (∃ c, minPlayer2Strategy (s, a, c) = true) ∧
          (∃ c, maxPlayer2Strategy (s, a, c) = true) ∧
          minPlayer2Strategy (s, a, b) ≠ maxPlayer2Strategy (s, a, b) := by
  simp only [computePivotStates]
  show (_ && _) = true ↔ _
  rw [Bool.and_eq_true, Bdd.existsAbstract_eq_true_iff]
  apply and_congr Iff.rfl
  constructor
  · rintro ⟨⟨a, b⟩, h⟩
    simp only [Bdd.and, Bdd.exclusiveOr, Bool.and_eq_true, Bdd.existsAbstract_eq_true_iff,
      xor_eq_true_iff_differ] at h
    exact ⟨a, b, h.1.1, h.1.2, h.2.1.1, h.2.1.2, h.2.2⟩
  · rintro ⟨a, b, h1, h2, h3, h4, h5⟩
    refine ⟨(a, b), ?_⟩
    simp only [Bdd.and, Bdd.exclusiveOr, Bool.and_eq_true, Bdd.existsAbstract_eq_true_iff,
      xor_eq_true_iff_differ]
    exact ⟨⟨h1, h2⟩, ⟨h3, h4⟩, h5⟩

/-- C26: every state of the candidate set returned by computePivotStates has a
Player-1 choice at which both the min and the max Player-2 strategy are
defined and at which some Player-2 choice belongs to exactly one of the two
strategies; a state at which, for every Player-1 choice, one of the two
Player-2 strategies is undefined is no candidate. -/
theorem computePivotStates_candidates_have_defined_differing_strategies {S P1 P2 Aux V : Type}
    [Valuations S] [Valuations P1] [Valuations P2]
    (game : MenuGame S P1 P2 Aux V) (transitionMatrixBdd : Bdd (S × P1 × P2 × S))
    (minPlayer1Strategy : Bdd (S × P1)) (minPlayer2Strategy : Bdd (S × P1 × P2))
    (maxPlayer1Strategy : Bdd (S × P1)) (maxPlayer2Strategy : Bdd (S × P1 × P2)) (s : S) :
    ((computePivotStates game transitionMatrixBdd minPlayer1Strategy minPlayer2Strategy
        maxPlayer1Strategy maxPlayer2Strategy).pivotStates s = true →
      ∃ a, (∃ b, minPlayer2Strategy (s, a, b) = true) ∧
        (∃ b, maxPlayer2Strategy (s, a, b) = true) ∧
        ∃ b, minPlayer2Strategy (s, a, b) ≠ maxPlayer2Strategy (s, a, b)) ∧
      ((∀ a, (∀ b, minPlayer2Strategy (s, a, b) = false) ∨
          (∀ b, maxPlayer2Strategy (s, a, b) = false)) →
        (computePivotStates game transitionMatrixBdd minPlayer1Strategy minPlayer2Strategy
          maxPlayer1Strategy maxPlayer2Strategy).pivotStates s = false) := by
  constructor
  · intro h
    rw [computePivotStates_pivotStates_eq_true_iff] at h
    obtain ⟨_, a, b, _, _, hmin, hmax, hne⟩ := h
    exact ⟨a, hmin, hmax, b, hne⟩
  · intro hundefined
    rw [Bool.eq_false_iff]
    intro h
    rw [computePivotStates_pivotStates_eq_true_iff] at h
    obtain ⟨_, a, b, _, _, ⟨c, hmin⟩, ⟨d, hmax⟩, _⟩ := h
    rcases hundefined a with hu | hu
    · rw [hu c] at hmin
      cases hmin
    · rw [hu d] at hmax
      cases hmax

/-- Witness for C26: in the branching game with differing Player-2 strategies
the candidate `false` has the Player-1 choice at which the strategies differ. -/
theorem computePivotStates_candidates_have_defined_differing_strategies_witness :
    ∃ a, (∃ b, twoStatePlayer2Strategy false (false, a, b) = true) ∧
      (∃ b, twoStatePlayer2Strategy true (false, a, b) = true) ∧
      ∃ b, twoStatePlayer2Strategy false (false, a, b)
        ≠ twoStatePlayer2Strategy true (false, a, b) :=
  (computePivotStates_candidates_have_defined_differing_strategies branchingGame
    branchingTransitions (fun _ => true) (twoStatePlayer2Strategy false) (fun _ => true)
    (twoStatePlayer2Strategy true) false).1 (by decide)

/-- C27 (failing input): two Player-1 choices; the min Player-1 strategy always
takes the choice `false`, the max Player-1 strategy the choice `true`; the min
Player-2 strategy always takes `false`, the max Player-2 strategy `true`.  The
initial state `false` is reachable, and at the Player-1 choice of the min
strategy (as at that of the max strategy) both Player-2 strategies are
defined and select different choices, yet the state is no candidate: line
239 conjoins `minPlayer1Strategy && maxPlayer1Strategy`, which is zero. -/
theorem computePivotStates_misses_candidate_of_differing_player1_choices :
    twoChoiceGame.getInitialStates false = true ∧
      ReachedIn (computePivotStates twoChoiceGame twoChoiceTransitions
          (twoChoicePlayer1Strategy false) (twoChoicePlayer2Strategy false)
          (twoChoicePlayer1Strategy true) (twoChoicePlayer2Strategy true)).reachableTransitionsMin
        twoChoiceGame.getInitialStates 0 false ∧
      computeReachableStates twoChoiceGame.getInitialStates
          (computePivotStates twoChoiceGame twoChoiceTransitions
            (twoChoicePlayer1Strategy false) (twoChoicePlayer2Strategy false)
            (twoChoicePlayer1Strategy true)
            (twoChoicePlayer2Strategy true)).reachableTransitionsMin false = true ∧
      twoChoicePlayer1Strategy false (false, false) = true ∧
      twoChoicePlayer2Strategy false (false, false, false) = true ∧
      twoChoicePlayer2Strategy true (false, false, true) = true ∧
      twoChoicePlayer2Strategy false (false, false, false)
        ≠ twoChoicePlayer2Strategy true (false, false, false) ∧
      (computePivotStates twoChoiceGame twoChoiceTransitions
          (twoChoicePlayer1Strategy false) (twoChoicePlayer2Strategy false)
          (twoChoicePlayer1Strategy true) (twoChoicePlayer2Strategy true)).pivotStates false
        = false ∧
      Bdd.isZero (computePivotStates twoChoiceGame twoChoiceTransitions
          (twoChoicePlayer1Strategy false) (twoChoicePlayer2Strategy false)
          (twoChoicePlayer1Strategy true) (twoChoicePlayer2Strategy true)).pivotStates
        = true := by
  refine ⟨by decide, ReachedIn.start (by decide), by decide, by decide, by decide, by decide,
    by decide, by decide, by decide⟩

/-! ## The redirection of the qualitative entry point -/

/-- C28: the min Player-1 strategy used by the qualitative entry point for the
pivot computation coincides at a state with the max Player-1 strategy if the
max Player-1 strategy has a choice there that is a Player-2 state of the
probability-0 result, and with the original min Player-1 strategy otherwise;
the pivot computation gets this strategy together with the unmodified min and
max Player-2 strategies and max Player-1 strategy, and it is its candidate
set that decides whether the entry point returns false. -/
theorem refineQualitative_redirects_min_player1_strategy {E U S P1 P2 Aux : Type} (V : Type)
    [Valuations S] [Valuations P1] [Valuations P2] [Valuations Aux] [Inhabited P1]
    [DecidableEq S] [DecidableEq Aux] [LinearOrderedRing V]
    (fuel : Nat) (refiner : MenuGameRefiner E U S P1 Aux) (game : MenuGame S P1 P2 Aux V)
    (transitionMatrixBdd : Bdd (S × P1 × P2 × S))
    (qualitativeResult : QualitativeResultMinMax S P1 P2) (handed : List (RefinementCommand E))
    (s : S) :
    ((∃ a, qualitativeResult.prob1Max.getPlayer1Strategy (s, a) = true ∧
          qualitativeResult.prob0Min.getPlayer2States (s, a) = true) →
        ∀ a, redirectedMinPlayer1Strategy qualitativeResult (s, a)
          = qualitativeResult.prob1Max.getPlayer1Strategy (s, a)) ∧
      ((¬ ∃ a, qualitativeResult.prob1Max.getPlayer1Strategy (s, a) = true ∧
          qualitativeResult.prob0Min.getPlayer2States (s, a) = true) →
        ∀ a, redirectedMinPlayer1Strategy qualitativeResult (s, a)
          = qualitativeResult.prob0Min.getPlayer1Strategy (s, a)) ∧
      qualitativePivotStateResult game transitionMatrixBdd qualitativeResult
        = computePivotStates game transitionMatrixBdd
            (redirectedMinPlayer1Strategy qualitativeResult)
            qualitativeResult.prob0Min.getPlayer2Strategy
            qualitativeResult.prob1Max.getPlayer1Strategy
            qualitativeResult.prob1Max.getPlayer2Strategy ∧
      (refineQualitative V fuel refiner game transitionMatrixBdd qualitativeResult handed
          = (Outcome.returned false, handed) ↔
        Bdd.isZero (computePivotStates game transitionMatrixBdd
            (redirectedMinPlayer1Strategy qualitativeResult)
            qualitativeResult.prob0Min.getPlayer2Strategy
            qualitativeResult.prob1Max.getPlayer1Strategy
            qualitativeResult.prob1Max.getPlayer2Strategy).pivotStates = true) := by
  have hcond : (Bdd.existsAbstract P1 (fun a s =>
        qualitativeResult.prob1Max.getPlayer1Strategy (s, a)
          && qualitativeResult.prob0Min.getPlayer2States (s, a)) s = true) ↔
      ∃ a, qualitativeResult.prob1Max.getPlayer1Strategy (s, a) = true ∧
        qualitativeResult.prob0Min.getPlayer2States (s, a) = true := by
    rw [Bdd.existsAbstract_eq_true_iff]
    simp only [Bool.and_eq_true]
  refine ⟨?_, ?_, rfl, ?_⟩
  · intro h a
    simp only [redirectedMinPlayer1Strategy, Bdd.ite, hcond.mpr h, if_true]
  · intro h a
    have hfalse : ¬ (Bdd.existsAbstract P1 (fun a s =>
        qualitativeResult.prob1Max.getPlayer1Strategy (s, a)
          && qualitativeResult.prob0Min.getPlayer2States (s, a)) s = true) :=
      fun hc => h (hcond.mp hc)
    simp only [redirectedMinPlayer1Strategy, Bdd.ite, hfalse, if_false, Bool.false_eq_true]
  · constructor
    · intro hreturned
      cases hz : Bdd.isZero (computePivotStates game transitionMatrixBdd
          (redirectedMinPlayer1Strategy qualitativeResult)
          qualitativeResult.prob0Min.getPlayer2Strategy
          qualitativeResult.prob1Max.getPlayer1Strategy
          qualitativeResult.prob1Max.getPlayer2Strategy).pivotStates
      · exfalso
        rcases refineQualitative_with_candidates_outcome V fuel refiner game transitionMatrixBdd
          qualitativeResult handed hz with h | h
        · rw [h] at hreturned
          cases hreturned
        · rw [h] at hreturned
          cases hreturned
      · rfl
    · intro hz
      rw [refineQualitative_unfold]
      have hz2 : Bdd.isZero (qualitativePivotStateResult game transitionMatrixBdd
          qualitativeResult).pivotStates = true := hz
      simp only [hz2, if_true]
      rfl

/-- Witness for C28: at the state `false` the max Player-1 strategy takes the
choice `true`, which is a probability-0 Player-2 state, so the used min
strategy takes the choice `true` as well. -/
theorem refineQualitative_redirects_min_player1_strategy_witness :
    redirectedMinPlayer1Strategy redirectingQualitativeResult (false, true)
      = redirectingQualitativeResult.prob1Max.getPlayer1Strategy (false, true) :=
  (refineQualitative_redirects_min_player1_strategy Int 1
    (⟨⟨⟨0, fun _ _ => 0, fun _ _ _ => false, fun _ => [], fun _ => ToyExpr.ge .x (.lit 1), []⟩,
        fun _ => ToyExpr.ge .x (.lit 1), fun _ _ => ToyTerm.x, (0, 2)⟩,
      false, false, fun e => [e], fun a b => decide (a = b),
      ⟨ToyExpr.substitute, fun e => e⟩⟩ : MenuGameRefiner ToyExpr ToyTerm Bool Bool Unit)
    twoChoiceGame twoChoiceTransitions redirectingQualitativeResult [] false).1
    ⟨true, by decide, by decide⟩ true

/-! ## buildTraceFormula -/

theorem buildTraceFormulaLoop_keeps_currentState {S P1 P2 Aux V : Type} [Valuations S]
    (game : MenuGame S P1 P2 Aux V) (spanningTree : Bdd (S × Aux × S)) (fuel : Nat)
    (currentState result : Bdd S)
    (h : buildTraceFormulaLoop game spanningTree fuel currentState = some result) :
    result = currentState ∧
      Bdd.isZero (Bdd.and currentState game.getInitialStates) = false := by
  induction fuel with
  | zero => simp [buildTraceFormulaLoop] at h
  | succ fuel ih =>
    rw [buildTraceFormulaLoop] at h
    split at h
    · exact ih h
    · rename_i hcond
      simp only [Option.some.injEq] at h
      exact ⟨h.symm, by simpa using hcond⟩

theorem buildTraceFormulaLoop_of_condition_true {S P1 P2 Aux V : Type} [Valuations S]
    (game : MenuGame S P1 P2 Aux V) (spanningTree : Bdd (S × Aux × S)) (fuel : Nat)
    (currentState : Bdd S)
    (hcond : Bdd.isZero (Bdd.and currentState game.getInitialStates) = true) :
    buildTraceFormulaLoop game spanningTree fuel currentState = none := by
  induction fuel with
  | zero => rfl
  | succ fuel ih =>
    rw [buildTraceFormulaLoop]
    simp only [hcond, if_true]
    exact ih

/-- C30: the loop of buildTraceFormula never changes `currentState`.  For a
pivot state that meets the initial states the function returns at the first
test of the loop condition, with the uninitialized expression; for any other
pivot state the loop condition holds at every test and the function does not
return, whatever the fuel; and whenever the function returns, the returned
expression is the uninitialized one, for every spanning tree. -/
theorem buildTraceFormula_loops_without_result {E U S P1 P2 Aux V : Type} [Valuations S]
    (refiner : MenuGameRefiner E U S P1 Aux) (game : MenuGame S P1 P2 Aux V)
    (pivotState : Bdd S) :
    (∀ (spanningTree : Bdd (S × Aux × S)) (fuel : Nat) (currentState result : Bdd S),
        buildTraceFormulaLoop game spanningTree fuel currentState = some result →
          result = currentState) ∧
      ((∃ s, pivotState s = true ∧ game.getInitialStates s = true) →
        ∀ (spanningTree : Bdd (S × Aux × S)) (fuel : Nat),
          buildTraceFormula (fuel + 1) refiner game spanningTree pivotState = some none) ∧
      ((∀ s, pivotState s = true → game.getInitialStates s = false) →
        ∀ (spanningTree : Bdd (S × Aux × S)) (fuel : Nat),
          buildTraceFormula fuel refiner game spanningTree pivotState = none) ∧
      (∀ (spanningTree : Bdd (S × Aux × S)) (fuel : Nat) (expression : Option E),
        buildTraceFormula fuel refiner game spanningTree pivotState = some expression →
          expression = none) := by
  refine ⟨?_, ?_, ?_, ?_⟩
  · intro spanningTree fuel currentState result h
    exact (buildTraceFormulaLoop_keeps_currentState game spanningTree fuel currentState result h).1
  · rintro ⟨s, hp, hi⟩ spanningTree fuel
    have hnz : Bdd.isZero (Bdd.and pivotState game.getInitialStates) = false := by
      rw [Bdd.isZero_eq_false_iff]
      exact ⟨s, by simp [Bdd.and, hp, hi]⟩
    simp [buildTraceFormula, buildTraceFormulaLoop, hnz]
  · intro hdisjoint spanningTree fuel
    have hz : Bdd.isZero (Bdd.and pivotState game.getInitialStates) = true := by
      rw [Bdd.isZero_eq_true_iff]
      intro s
      cases hp : pivotState s
      · simp [Bdd.and, hp]
      · simp [Bdd.and, hp, hdisjoint s hp]
    simp [buildTraceFormula, buildTraceFormulaLoop_of_condition_true game spanningTree fuel
      pivotState hz]
  · intro spanningTree fuel expression h
    unfold buildTraceFormula at h
    simp only at h
    split at h
    · cases h
    · simp only [Option.some.injEq] at h
      exact h.symm

/-- Witness for C30: in the two-state game the pivot state `false` is initial
and the function returns the uninitialized expression at once; the pivot
state `true` is not initial and the function does not return. -/
theorem buildTraceFormula_loops_without_result_witness :
    buildTraceFormula 1 toyRefiner twoStateGame Bdd.zero (Bdd.cube false) = some none ∧
      buildTraceFormula 5 toyRefiner twoStateGame Bdd.zero (Bdd.cube true) = none :=
  ⟨(buildTraceFormula_loops_without_result toyRefiner twoStateGame (Bdd.cube false)).2.1
      ⟨false, by decide, by decide⟩ Bdd.zero 0,
    (buildTraceFormula_loops_without_result toyRefiner twoStateGame (Bdd.cube true)).2.2.1
      (by decide) Bdd.zero 5⟩

/-! ## The level at which pickPivotState returns -/

theorem frontier_misses_candidates_iff {S : Type} [Valuations S] (transitions : Bdd (S × S))
    (initialStates pivotStates : Bdd S) (k : Nat) :
    Bdd.isZero (Bdd.and (frontierAt transitions initialStates k) pivotStates) = true ↔
      ∀ s, pivotStates s = true → ¬ ReachedIn transitions initialStates k s := by
  rw [Bdd.isZero_eq_true_iff]
  constructor
  · intro h s hp hr
    have hs := h s
    simp [Bdd.and, (frontierAt_eq_true_iff _ _ _ _).mpr hr, hp] at hs
  · intro h s
    cases hf : frontierAt transitions initialStates k s
    · simp [Bdd.and, hf]
    · cases hp : pivotStates s
      · simp [Bdd.and, hp]
      · exact absurd ((frontierAt_eq_true_iff _ _ _ _).mp hf) (h s hp)

theorem frontier_meets_candidates_iff {S : Type} [Valuations S] (transitions : Bdd (S × S))
    (initialStates pivotStates : Bdd S) (k : Nat) :
    Bdd.isZero (Bdd.and (frontierAt transitions initialStates k) pivotStates) = false ↔
      ∃ s, pivotStates s = true ∧ ReachedIn transitions initialStates k s := by
  rw [Bdd.isZero_eq_false_iff]
  constructor
  · rintro ⟨s, hs⟩
    simp only [Bdd.and, Bool.and_eq_true] at hs
    exact ⟨s, hs.2, (frontierAt_eq_true_iff _ _ _ _).mp hs.1⟩
  · rintro ⟨s, hp, hr⟩
    exact ⟨s, by simp [Bdd.and, (frontierAt_eq_true_iff _ _ _ _).mpr hr, hp]⟩

/-- A result of the loop comes from the first iteration in which a frontier
meets the pivot candidates: the frontiers of both directions have then been
advanced by the same number `j + 1` of steps, and the result is that of a
single iteration entered with the frontiers after `j` steps. -/
theorem pickPivotStateLoop_first_hit {S : Type} (P1 P2 V : Type) [Valuations S]
    [DecidableEq S] [LinearOrderedRing V]
    (transitionsMin transitionsMax : Bdd (S × S)) (pivotStates : Bdd S)
    (quantitativeResult : Option (QuantitativeResultMinMax S P1 P2 V))
    (fuel : Nat) (frontierMin frontierMax : Bdd S) (level : Nat) (r : PickedPivotState S)
    (h : pickPivotStateLoop P1 P2 V transitionsMin transitionsMax pivotStates quantitativeResult
      fuel frontierMin frontierMax level = some r) :
    ∃ j, j < fuel ∧
      (∀ i, i < j →
        Bdd.isZero (Bdd.and (frontierAt transitionsMin frontierMin (i + 1)) pivotStates) = true ∧
          Bdd.isZero (Bdd.and (frontierAt transitionsMax frontierMax (i + 1)) pivotStates)
            = true) ∧
      (Bdd.isZero (Bdd.and (frontierAt transitionsMin frontierMin (j + 1)) pivotStates) = false ∨
        Bdd.isZero (Bdd.and (frontierAt transitionsMax frontierMax (j + 1)) pivotStates)
          = false) ∧
      r.level = level + j ∧
      pickPivotStateLoop P1 P2 V transitionsMin transitionsMax pivotStates quantitativeResult 1
        (frontierAt transitionsMin frontierMin j) (frontierAt transitionsMax frontierMax j)
        (level + j) = some r := by
  induction fuel generalizing frontierMin frontierMax level with
  | zero => simp [pickPivotStateLoop] at h
  | succ fuel ih =>
    by_cases hhit : (!Bdd.isZero
          (Bdd.and (Bdd.relationalProduct frontierMin transitionsMin) pivotStates)
        || !Bdd.isZero
          (Bdd.and (Bdd.relationalProduct frontierMax transitionsMax) pivotStates)) = true
    · obtain ⟨r', hlevel, hr'⟩ := pickPivotStateLoop_of_hit P1 P2 V transitionsMin transitionsMax
        pivotStates quantitativeResult frontierMin frontierMax level hhit
      have hrr : r' = r := by
        have := hr' fuel
        rw [h] at this
        exact (Option.some.inj this).symm
      subst hrr
      refine ⟨0, Nat.succ_pos fuel, fun i hi => absurd hi (Nat.not_lt_zero i), ?_, hlevel, hr' 0⟩
      simp only [Bool.or_eq_true, Bool.not_eq_true'] at hhit
      simpa [frontierAt] using hhit
    · rw [pickPivotStateLoop.eq_def] at h
      simp only [hhit, if_false, Bool.false_eq_true] at h
      obtain ⟨j, hj, hbefore, hat, hlevel, hone⟩ := ih _ _ _ h
      refine ⟨j + 1, by omega, ?_, hat, by omega, ?_⟩
      · intro i hi
        cases i with
        | zero =>
          simp only [Bool.or_eq_true, Bool.not_eq_true', not_or, Bool.not_eq_false] at hhit
          simpa [frontierAt] using hhit
        | succ i => exact hbefore i (by omega)
      · have harith : level + (j + 1) = level + 1 + j := by omega
        rw [harith]
        exact hone

/-- A result of pickPivotState comes from level 0 or from the first iteration
of the loop in which a frontier meets the pivot candidates. -/
theorem pickPivotState_first_hit {S : Type} (P1 P2 V : Type) [Valuations S]
    [DecidableEq S] [LinearOrderedRing V] (fuel : Nat)
    (initialStates : Bdd S) (transitionsMin transitionsMax : Bdd (S × S)) (pivotStates : Bdd S)
    (quantitativeResult : Option (QuantitativeResultMinMax S P1 P2 V))
    (r : PickedPivotState S)
    (h : pickPivotState P1 P2 V fuel initialStates transitionsMin transitionsMax pivotStates
      quantitativeResult = some r) :
    (Bdd.isZero (Bdd.and initialStates pivotStates) = false ∧
        r = ⟨Bdd.existsAbstractRepresentative (Bdd.and initialStates pivotStates),
          OptimizationDirection.Minimize, 0⟩) ∨
      (Bdd.isZero (Bdd.and initialStates pivotStates) = true ∧
        ∃ j, j < fuel ∧
          (∀ i, i < j →
            Bdd.isZero (Bdd.and (frontierAt transitionsMin initialStates (i + 1)) pivotStates)
                = true ∧
              Bdd.isZero (Bdd.and (frontierAt transitionsMax initialStates (i + 1)) pivotStates)
                = true) ∧
          (Bdd.isZero (Bdd.and (frontierAt transitionsMin initialStates (j + 1)) pivotStates)
              = false ∨
            Bdd.isZero (Bdd.and (frontierAt transitionsMax initialStates (j + 1)) pivotStates)
              = false) ∧
          r.level = j ∧
          pickPivotStateLoop P1 P2 V transitionsMin transitionsMax pivotStates quantitativeResult
            1 (frontierAt transitionsMin initialStates j)
            (frontierAt transitionsMax initialStates j) j = some r) := by
  cases hz : Bdd.isZero (Bdd.and initialStates pivotStates)
  · left
    simp only [pickPivotState, hz, Bool.not_false, if_true, Option.some.injEq] at h
    exact ⟨rfl, h.symm⟩
  · right
    simp only [pickPivotState, hz, Bool.not_true, Bool.false_eq_true, if_false] at h
    obtain ⟨j, hj, hbefore, hat, hlevel, hone⟩ :=
      pickPivotStateLoop_first_hit P1 P2 V _ _ _ _ _ _ _ _ _ h
    refine ⟨rfl, j, hj, hbefore, hat, by omega, ?_⟩
    simpa using hone

/-- C22: when pickPivotState returns, it returns at the least level `k` at
which a pivot candidate ends a path of exactly `k` steps from an initial
state along transitionsMin or along transitionsMax.  Both frontiers have
then been advanced by the same number of steps: for `k = 0` the result is the
level-0 pick, for `k = j + 1` it is the result of one iteration of the loop
entered with the two frontiers after `j` steps each.  The local variable
`level`, which only the trace message reads, is `k - 1` inside the loop. -/
theorem pickPivotState_returns_at_least_level {S : Type} (P1 P2 V : Type) [Valuations S]
    [DecidableEq S] [LinearOrderedRing V] (fuel : Nat)
    (initialStates : Bdd S) (transitionsMin transitionsMax : Bdd (S × S)) (pivotStates : Bdd S)
    (quantitativeResult : Option (QuantitativeResultMinMax S P1 P2 V))
    (r : PickedPivotState S)
    (h : pickPivotState P1 P2 V fuel initialStates transitionsMin transitionsMax pivotStates
      quantitativeResult = some r) :
    ∃ k, k ≤ fuel ∧
      (∃ s, pivotStates s = true ∧
        (ReachedIn transitionsMin initialStates k s ∨
          ReachedIn transitionsMax initialStates k s)) ∧
      (∀ j, j < k → ∀ s, pivotStates s = true →
        ¬ ReachedIn transitionsMin initialStates j s ∧
          ¬ ReachedIn transitionsMax initialStates j s) ∧
      r.level = k - 1 ∧
      ((k = 0 ∧
          r = ⟨Bdd.existsAbstractRepresentative (Bdd.and initialStates pivotStates),
            OptimizationDirection.Minimize, 0⟩) ∨
        ∃ j, k = j + 1 ∧
          pickPivotStateLoop P1 P2 V transitionsMin transitionsMax pivotStates
            quantitativeResult 1 (frontierAt transitionsMin initialStates j)
            (frontierAt transitionsMax initialStates j) j = some r) := by
  rcases pickPivotState_first_hit P1 P2 V fuel initialStates transitionsMin transitionsMax
    pivotStates quantitativeResult r h with ⟨hnz, hr⟩ | ⟨hz, j, hj, hbefore, hat, hlevel, hone⟩
  · refine ⟨0, Nat.zero_le fuel, ?_, fun j hj => absurd hj (Nat.not_lt_zero j), ?_,
      Or.inl ⟨rfl, hr⟩⟩
    · obtain ⟨s, hp, hreach⟩ :=
        (frontier_meets_candidates_iff transitionsMin initialStates pivotStates 0).mp hnz
      exact ⟨s, hp, Or.inl hreach⟩
    · rw [hr]
  · refine ⟨j + 1, hj, ?_, ?_, by simpa using hlevel, Or.inr ⟨j, rfl, hone⟩⟩
    · rcases hat with hmin | hmax
      · obtain ⟨s, hp, hreach⟩ := (frontier_meets_candidates_iff _ _ _ _).mp hmin
        exact ⟨s, hp, Or.inl hreach⟩
      · obtain ⟨s, hp, hreach⟩ := (frontier_meets_candidates_iff _ _ _ _).mp hmax
        exact ⟨s, hp, Or.inr hreach⟩
    · intro i hi s hp
      cases i with
      | zero =>
        have hmiss := (frontier_misses_candidates_iff transitionsMin initialStates pivotStates
          0).mp hz s hp
        refine ⟨hmiss, ?_⟩
        intro hmax
        cases hmax with
        | start hinit => exact hmiss (ReachedIn.start hinit)
      | succ i =>
        have hboth := hbefore i (by omega)
        exact ⟨(frontier_misses_candidates_iff _ _ _ _).mp hboth.1 s hp,
          (frontier_misses_candidates_iff _ _ _ _).mp hboth.2 s hp⟩

/-- Witness for C22: in the two-state search the candidate `true` is first met
after one step, along the max transitions. -/
theorem pickPivotState_returns_at_least_level_witness :
    ∃ k, k ≤ 1 ∧
      (∃ s, (Bdd.cube true : Bdd Bool) s = true ∧
        (ReachedIn (Bdd.zero : Bdd (Bool × Bool)) (Bdd.cube false) k s ∨
          ReachedIn (Bdd.cube (false, true)) (Bdd.cube false) k s)) ∧
      (∀ j, j < k → ∀ s, (Bdd.cube true : Bdd Bool) s = true →
        ¬ ReachedIn (Bdd.zero : Bdd (Bool × Bool)) (Bdd.cube false) j s ∧
          ¬ ReachedIn (Bdd.cube (false, true)) (Bdd.cube false) j s) ∧
      (⟨Bdd.cube true, OptimizationDirection.Maximize, 0⟩ : PickedPivotState Bool).level = k - 1 ∧
      ((k = 0 ∧
          (⟨Bdd.cube true, OptimizationDirection.Maximize, 0⟩ : PickedPivotState Bool)
            = ⟨Bdd.existsAbstractRepresentative (Bdd.and (Bdd.cube false) (Bdd.cube true)),
            OptimizationDirection.Minimize, 0⟩) ∨
        ∃ j, k = j + 1 ∧
          pickPivotStateLoop Unit Unit Int Bdd.zero (Bdd.cube (false, true)) (Bdd.cube true)
            none 1 (frontierAt Bdd.zero (Bdd.cube false) j)
            (frontierAt (Bdd.cube (false, true)) (Bdd.cube false) j) j
            = some ⟨Bdd.cube true, OptimizationDirection.Maximize, 0⟩) :=
  pickPivotState_returns_at_least_level Unit Unit Int 1 (Bdd.cube false) Bdd.zero
    (Bdd.cube (false, true)) (Bdd.cube true) none
    ⟨Bdd.cube true, OptimizationDirection.Maximize, 0⟩ (by rfl)

/-- One iteration of the loop without a value function: Minimize with a state
of the min frontier whenever that frontier meets the candidates, Maximize
with a state of the max frontier otherwise. -/
theorem pickPivotStateLoop_one_iteration_without_values {S : Type} (P1 P2 V : Type)
    [Valuations S] [DecidableEq S] [LinearOrderedRing V]
    (transitionsMin transitionsMax : Bdd (S × S)) (pivotStates : Bdd S)
    (frontierMin frontierMax : Bdd S) (level : Nat) (r : PickedPivotState S)
    (h : pickPivotStateLoop P1 P2 V transitionsMin transitionsMax pivotStates none 1
      frontierMin frontierMax level = some r) :
    (Bdd.isZero (Bdd.and (Bdd.relationalProduct frontierMin transitionsMin) pivotStates) = false →
        r.second = OptimizationDirection.Minimize ∧
          ∃ s, r.first = Bdd.cube s ∧
            Bdd.relationalProduct frontierMin transitionsMin s = true ∧ pivotStates s = true) ∧
      (Bdd.isZero (Bdd.and (Bdd.relationalProduct frontierMin transitionsMin) pivotStates) = true →
        r.second = OptimizationDirection.Maximize ∧
          ∃ s, r.first = Bdd.cube s ∧
            Bdd.relationalProduct frontierMax transitionsMax s = true ∧ pivotStates s = true) := by
  rw [pickPivotStateLoop] at h
  simp only at h
  split at h
  · rename_i hhit
    constructor
    · intro hmin
      obtain ⟨s, hs, hrep⟩ := Bdd.existsAbstractRepresentative_of_not_isZero _ hmin
      simp only [hmin, Bool.not_false, if_true, Option.some.injEq] at h
      subst h
      simp only [Bdd.and, Bool.and_eq_true] at hs
      exact ⟨rfl, s, hrep, hs.1, hs.2⟩
    · intro hmin
      have hmax : Bdd.isZero
          (Bdd.and (Bdd.relationalProduct frontierMax transitionsMax) pivotStates) = false := by
        simpa [hmin] using hhit
      obtain ⟨s, hs, hrep⟩ := Bdd.existsAbstractRepresentative_of_not_isZero _ hmax
      simp only [hmin, Bool.not_true, Bool.false_eq_true, if_false, reduceCtorEq,
        Option.some.injEq] at h
      subst h
      simp only [Bdd.and, Bool.and_eq_true] at hs
      exact ⟨rfl, s, hrep, hs.1, hs.2⟩
  · simp [pickPivotStateLoop] at h

/-- C24: without a value function, when pickPivotState stops after `k >= 1`
steps (the first level at which a frontier meets the pivot candidates), the
direction is Minimize and the state is one of the min frontier's candidates
whenever the min frontier meets the candidates, whether or not the max
frontier does; the direction is Maximize, with a state of the max frontier's
candidates, exactly when the min frontier misses the candidates. -/
theorem pickPivotState_without_values_prefers_min_frontier {S : Type} (P1 P2 V : Type)
    [Valuations S] [DecidableEq S] [LinearOrderedRing V] (fuel : Nat)
    (initialStates : Bdd S) (transitionsMin transitionsMax : Bdd (S × S)) (pivotStates : Bdd S)
    (r : PickedPivotState S)
    (h : pickPivotState P1 P2 V fuel initialStates transitionsMin transitionsMax pivotStates none
      = some r)
    (hlater : Bdd.isZero (Bdd.and initialStates pivotStates) = true) :
    ∃ k, 1 ≤ k ∧ r.level + 1 = k ∧
      (∀ j, j < k →
        Bdd.isZero (Bdd.and (frontierAt transitionsMin initialStates j) pivotStates) = true ∧
          Bdd.isZero (Bdd.and (frontierAt transitionsMax initialStates j) pivotStates) = true) ∧
      (Bdd.isZero (Bdd.and (frontierAt transitionsMin initialStates k) pivotStates) = false →
        r.second = OptimizationDirection.Minimize ∧
          ∃ s, r.first = Bdd.cube s ∧ frontierAt transitionsMin initialStates k s = true ∧
            pivotStates s = true) ∧
      (Bdd.isZero (Bdd.and (frontierAt transitionsMin initialStates k) pivotStates) = true →
        r.second = OptimizationDirection.Maximize ∧
          ∃ s, r.first = Bdd.cube s ∧ frontierAt transitionsMax initialStates k s = true ∧
            pivotStates s = true) ∧
      (r.second = OptimizationDirection.Maximize ↔
        Bdd.isZero (Bdd.and (frontierAt transitionsMin initialStates k) pivotStates) = true) := by
  rcases pickPivotState_first_hit P1 P2 V fuel initialStates transitionsMin transitionsMax
    pivotStates none r h with ⟨hnz, _⟩ | ⟨_, j, hj, hbefore, hat, hlevel, hone⟩
  · rw [hlater] at hnz
    cases hnz
  · have hiter := pickPivotStateLoop_one_iteration_without_values P1 P2 V transitionsMin
      transitionsMax pivotStates _ _ _ r hone
    rw [← frontierAt_succ, ← frontierAt_succ] at hiter
    refine ⟨j + 1, by omega, by omega, ?_, hiter.1, hiter.2, ?_⟩
    · intro i hi
      cases i with
      | zero => exact ⟨hlater, hlater⟩
      | succ i => exact hbefore i (by omega)
    · constructor
      · intro hmax
        cases hz : Bdd.isZero
            (Bdd.and (frontierAt transitionsMin initialStates (j + 1)) pivotStates)
        · rw [(hiter.1 hz).1] at hmax
          cases hmax
        · rfl
      · intro hz
        exact (hiter.2 hz).1

/-- Witness for C24: both frontiers reach the candidate `true` after one step;
the direction is Minimize. -/
theorem pickPivotState_without_values_prefers_min_frontier_witness :
    ∃ k, 1 ≤ k ∧
      (⟨Bdd.cube true, OptimizationDirection.Minimize, 0⟩ : PickedPivotState Bool).level + 1
        = k ∧
      (∀ j, j < k →
        Bdd.isZero (Bdd.and (frontierAt (Bdd.cube (false, true)) (Bdd.cube false) j)
            (Bdd.cube true)) = true ∧
          Bdd.isZero (Bdd.and (frontierAt (Bdd.cube (false, true)) (Bdd.cube false) j)
            (Bdd.cube true)) = true) ∧
      (Bdd.isZero (Bdd.and (frontierAt (Bdd.cube (false, true)) (Bdd.cube false) k)
          (Bdd.cube true)) = false →
        (⟨Bdd.cube true, OptimizationDirection.Minimize, 0⟩ : PickedPivotState Bool).second
            = OptimizationDirection.Minimize ∧
          ∃ s, (⟨Bdd.cube true, OptimizationDirection.Minimize, 0⟩ : PickedPivotState Bool).first
              = Bdd.cube s ∧
            frontierAt (Bdd.cube (false, true)) (Bdd.cube false) k s = true ∧
            (Bdd.cube true : Bdd Bool) s = true) ∧
      (Bdd.isZero (Bdd.and (frontierAt (Bdd.cube (false, true)) (Bdd.cube false) k)
          (Bdd.cube true)) = true →
        (⟨Bdd.cube true, OptimizationDirection.Minimize, 0⟩ : PickedPivotState Bool).second
            = OptimizationDirection.Maximize ∧
          ∃ s, (⟨Bdd.cube true, OptimizationDirection.Minimize, 0⟩ : PickedPivotState Bool).first
              = Bdd.cube s ∧
            frontierAt (Bdd.cube (false, true)) (Bdd.cube false) k s = true ∧
            (Bdd.cube true : Bdd Bool) s = true) ∧
      ((⟨Bdd.cube true, OptimizationDirection.Minimize, 0⟩ : PickedPivotState Bool).second
          = OptimizationDirection.Maximize ↔
        Bdd.isZero (Bdd.and (frontierAt (Bdd.cube (false, true)) (Bdd.cube false) k)
          (Bdd.cube true)) = true) :=
  pickPivotState_without_values_prefers_min_frontier Unit Unit Int 1 (Bdd.cube false)
    (Bdd.cube (false, true)) (Bdd.cube (false, true)) (Bdd.cube true)
    ⟨Bdd.cube true, OptimizationDirection.Minimize, 0⟩ (by rfl) (by decide)

/-- C25 (failing input): two states, `false` initial; the min fragment loops on
`false`, the max fragment leads from `false` to `true`, the only pivot
candidate is `true`, and the lower and the upper value are one everywhere
(gap zero).  After one step the min frontier `{false}` misses the candidates
and the max frontier `{true}` meets them, so the only frontier with a gap
over candidates is the max frontier; but `diffMin` and `diffMax` are both the
zero ADD, the test `diffMin.getMax() >= diffMax.getMax()` selects Minimize,
and the state returned is `false`, no state of either intersection. -/
theorem pickPivotState_with_values_picks_outside_candidates :
    ∃ r, pickPivotState Unit Unit Int 1 (Bdd.cube false) (Bdd.cube (false, false))
        (Bdd.cube (false, true)) (Bdd.cube true) (some equalValuesQuantitativeResult) = some r ∧
      r.second = OptimizationDirection.Minimize ∧
      r.first false = true ∧ r.first true = false ∧
      Bdd.isZero (Bdd.and (frontierAt (Bdd.cube (false, false)) (Bdd.cube false) 1)
        (Bdd.cube true)) = true ∧
      Bdd.and (frontierAt (Bdd.cube (false, true)) (Bdd.cube false) 1) (Bdd.cube true) true
        = true ∧
      Bdd.and (frontierAt (Bdd.cube (false, true)) (Bdd.cube false) 1) (Bdd.cube true) false
        = false ∧
      equalValuesQuantitativeResult.max.values true
        - equalValuesQuantitativeResult.min.values true = 0 := by
  refine ⟨_, rfl, ?_, ?_, ?_, ?_, ?_, ?_, ?_⟩ <;> decide

/-! ## Reachability of the candidates -/

theorem Reachable.step {S : Type} {transitions : Bdd (S × S)} {initialStates : Bdd S} {s t : S}
    (hs : Reachable transitions initialStates s) (hstep : transitions (s, t) = true) :
    Reachable transitions initialStates t := by
  obtain ⟨k, hk⟩ := hs
  exact ⟨k + 1, ReachedIn.step hk hstep⟩

theorem computeReachableStatesLoop_sound {S : Type} [Valuations S] (transitions : Bdd (S × S))
    (initialStates : Bdd S) (fuel : Nat) (reachableStates : Bdd S)
    (hinv : ∀ t, reachableStates t = true → Reachable transitions initialStates t) (s : S)
    (hs : computeReachableStatesLoop transitions fuel reachableStates s = true) :
    Reachable transitions initialStates s := by
  have hnext : ∀ reached : Bdd S,
      (∀ t, reached t = true → Reachable transitions initialStates t) →
      ∀ t, Bdd.or reached
        (Bdd.and (Bdd.relationalProduct reached transitions) (Bdd.not reached)) t = true →
        Reachable transitions initialStates t := by
    intro reached hreached t ht
    simp only [Bdd.or, Bdd.and, Bdd.not, Bool.or_eq_true, Bool.and_eq_true] at ht
    rcases ht with ht | ⟨ht, _⟩
    · exact hreached t ht
    · rw [Bdd.relationalProduct_eq_true_iff] at ht
      obtain ⟨u, hu, hstep⟩ := ht
      exact (hreached u hu).step hstep
  induction fuel generalizing reachableStates with
  | zero => exact hinv s hs
  | succ fuel ih =>
    rw [computeReachableStatesLoop] at hs
    split at hs
    · exact ih _ (hnext reachableStates hinv) hs
    · exact hnext reachableStates hinv s hs

/-- Every state computed by computeReachableStates is reachable from an initial
state along the transitions. -/
theorem computeReachableStates_sound {S : Type} [Valuations S] (initialStates : Bdd S)
    (transitions : Bdd (S × S)) (s : S)
    (hs : computeReachableStates initialStates transitions s = true) :
    Reachable transitions initialStates s :=
  computeReachableStatesLoop_sound transitions initialStates _ initialStates
    (fun _ ht => ⟨0, ReachedIn.start ht⟩) s hs

/-- A pivot candidate at distance `k` makes pickPivotState return within `k`
iterations, at a level of at most `k`. -/
theorem pickPivotState_returns_of_reachedIn {S : Type} (P1 P2 V : Type) [Valuations S]
    [DecidableEq S] [LinearOrderedRing V]
    (initialStates : Bdd S) (transitionsMin transitionsMax : Bdd (S × S)) (pivotStates : Bdd S)
    (quantitativeResult : Option (QuantitativeResultMinMax S P1 P2 V)) (k : Nat) (s : S)
    (hpivot : pivotStates s = true)
    (hpath : ReachedIn transitionsMin initialStates k s ∨
      ReachedIn transitionsMax initialStates k s) :
    ∃ r : PickedPivotState S, r.level ≤ k ∧
      ∀ fuel, k ≤ fuel → pickPivotState P1 P2 V fuel initialStates transitionsMin transitionsMax
        pivotStates quantitativeResult = some r := by
  by_cases hfound : Bdd.isZero (Bdd.and initialStates pivotStates) = false
  · refine ⟨⟨Bdd.existsAbstractRepresentative (Bdd.and initialStates pivotStates),
      OptimizationDirection.Minimize, 0⟩, Nat.zero_le k, ?_⟩
    intro fuel _
    simp [pickPivotState, hfound]
  · have hzero : Bdd.isZero (Bdd.and initialStates pivotStates) = true := by simpa using hfound
    have hkpos : k ≠ 0 := by
      rintro rfl
      rw [Bdd.isZero_eq_true_iff] at hzero
      have hs := hzero s
      rcases hpath with h | h <;> cases h with
      | start hinit => simp [Bdd.and, hinit, hpivot] at hs
    obtain ⟨m, rfl⟩ : ∃ m, k = m + 1 := ⟨k - 1, by omega⟩
    have hhit : Bdd.isZero (Bdd.and (frontierAt transitionsMin initialStates (m + 1)) pivotStates)
          = false ∨
        Bdd.isZero (Bdd.and (frontierAt transitionsMax initialStates (m + 1)) pivotStates)
          = false := by
      rcases hpath with h | h
      · exact Or.inl ((frontier_meets_candidates_iff _ _ _ _).mpr ⟨s, hpivot, h⟩)
      · exact Or.inr ((frontier_meets_candidates_iff _ _ _ _).mpr ⟨s, hpivot, h⟩)
    obtain ⟨r, hlevel, hr⟩ := pickPivotStateLoop_returns_within P1 P2 V transitionsMin
      transitionsMax pivotStates quantitativeResult m initialStates initialStates 0
      ⟨m, Nat.le_refl m, hhit⟩
    refine ⟨r, by omega, ?_⟩
    intro fuel hfuel
    simp only [pickPivotState, hzero, Bool.not_true, Bool.false_eq_true, if_false]
    exact hr fuel (by omega)

/-- C29: when the candidate set returned by computePivotStates is not empty,
some candidate ends a finite path from an initial state along
reachableTransitionsMin or along reachableTransitionsMax, and the pivot
search on these outputs returns: with every fuel of at least the length `k`
of that path it gives one and the same result, at a level of at most `k`. -/
theorem computePivotStates_candidates_are_reachable {S P1 P2 Aux V : Type}
    [Valuations S] [Valuations P1] [Valuations P2] [DecidableEq S] [LinearOrderedRing V]
    (game : MenuGame S P1 P2 Aux V) (transitionMatrixBdd : Bdd (S × P1 × P2 × S))
    (minPlayer1Strategy : Bdd (S × P1)) (minPlayer2Strategy : Bdd (S × P1 × P2))
    (maxPlayer1Strategy : Bdd (S × P1)) (maxPlayer2Strategy : Bdd (S × P1 × P2))
    (hcandidates : Bdd.isZero (computePivotStates game transitionMatrixBdd minPlayer1Strategy
      minPlayer2Strategy maxPlayer1Strategy maxPlayer2Strategy).pivotStates = false) :
    ∃ s k,
      (computePivotStates game transitionMatrixBdd minPlayer1Strategy minPlayer2Strategy
        maxPlayer1Strategy maxPlayer2Strategy).pivotStates s = true ∧
      (ReachedIn (computePivotStates game transitionMatrixBdd minPlayer1Strategy
          minPlayer2Strategy maxPlayer1Strategy maxPlayer2Strategy).reachableTransitionsMin
          game.getInitialStates k s ∨
        ReachedIn (computePivotStates game transitionMatrixBdd minPlayer1Strategy
          minPlayer2Strategy maxPlayer1Strategy maxPlayer2Strategy).reachableTransitionsMax
          game.getInitialStates k s) ∧
      ∃ r : PickedPivotState S, r.level ≤ k ∧
        ∀ fuel, k ≤ fuel → pickPivotState P1 P2 V fuel game.getInitialStates
          (computePivotStates game transitionMatrixBdd minPlayer1Strategy minPlayer2Strategy
            maxPlayer1Strategy maxPlayer2Strategy).reachableTransitionsMin
          (computePivotStates game transitionMatrixBdd minPlayer1Strategy minPlayer2Strategy
            maxPlayer1Strategy maxPlayer2Strategy).reachableTransitionsMax
          (computePivotStates game transitionMatrixBdd minPlayer1Strategy minPlayer2Strategy
            maxPlayer1Strategy maxPlayer2Strategy).pivotStates none = some r := by
  rw [Bdd.isZero_eq_false_iff] at hcandidates
  obtain ⟨s, hs⟩ := hcandidates
  have henvelope := ((computePivotStates_pivotStates_eq_true_iff game transitionMatrixBdd
    minPlayer1Strategy minPlayer2Strategy maxPlayer1Strategy maxPlayer2Strategy s).mp hs).1
  simp only [Bdd.or, Bool.or_eq_true] at henvelope
  have hpath : ∃ k,
      ReachedIn (computePivotStates game transitionMatrixBdd minPlayer1Strategy
          minPlayer2Strategy maxPlayer1Strategy maxPlayer2Strategy).reachableTransitionsMin
          game.getInitialStates k s ∨
        ReachedIn (computePivotStates game transitionMatrixBdd minPlayer1Strategy
          minPlayer2Strategy maxPlayer1Strategy maxPlayer2Strategy).reachableTransitionsMax
          game.getInitialStates k s := by
    rcases henvelope with hmin | hmax
    · obtain ⟨k, hk⟩ := computeReachableStates_sound _ _ s hmin
      exact ⟨k, Or.inl hk⟩
    · obtain ⟨k, hk⟩ := computeReachableStates_sound _ _ s hmax
      exact ⟨k, Or.inr hk⟩
  obtain ⟨k, hk⟩ := hpath
  exact ⟨s, k, hs, hk, pickPivotState_returns_of_reachedIn P1 P2 V _ _ _ _ none k s hs hk⟩

/-- Witness for C29: the branching game with differing Player-2 strategies has
candidates. -/
theorem computePivotStates_candidates_are_reachable_witness :
    ∃ s k,
      (computePivotStates branchingGame branchingTransitions (fun _ => true)
        (twoStatePlayer2Strategy false) (fun _ => true)
        (twoStatePlayer2Strategy true)).pivotStates s = true ∧
      (ReachedIn (computePivotStates branchingGame branchingTransitions (fun _ => true)
          (twoStatePlayer2Strategy false) (fun _ => true)
          (twoStatePlayer2Strategy true)).reachableTransitionsMin
          branchingGame.getInitialStates k s ∨
        ReachedIn (computePivotStates branchingGame branchingTransitions (fun _ => true)
          (twoStatePlayer2Strategy false) (fun _ => true)
          (twoStatePlayer2Strategy true)).reachableTransitionsMax
          branchingGame.getInitialStates k s) ∧
      ∃ r : PickedPivotState Bool, r.level ≤ k ∧
        ∀ fuel, k ≤ fuel → pickPivotState Unit Bool Int fuel branchingGame.getInitialStates
          (computePivotStates branchingGame branchingTransitions (fun _ => true)
            (twoStatePlayer2Strategy false) (fun _ => true)
            (twoStatePlayer2Strategy true)).reachableTransitionsMin
          (computePivotStates branchingGame branchingTransitions (fun _ => true)
            (twoStatePlayer2Strategy false) (fun _ => true)
            (twoStatePlayer2Strategy true)).reachableTransitionsMax
          (computePivotStates branchingGame branchingTransitions (fun _ => true)
            (twoStatePlayer2Strategy false) (fun _ => true)
            (twoStatePlayer2Strategy true)).pivotStates none = some r :=
  computePivotStates_candidates_are_reachable branchingGame branchingTransitions (fun _ => true)
    (twoStatePlayer2Strategy false) (fun _ => true) (twoStatePlayer2Strategy true) (by decide)

/-! ## The quantitative entry point and the value functions -/

/-- C31: the quantitative entry point hands no value function to pickPivotState:
whatever value functions `minValues` and `maxValues` the quantitative result
carries, the entry point is the sequence that picks the pivot state with
`pickPivotState ... none` on the candidates computed from the four strategies,
so the picked state and direction do not depend on the values. -/
theorem refineQuantitative_picks_pivot_without_values {E U S P1 P2 Aux V : Type}
    [Valuations S] [Valuations P1] [Valuations P2] [Valuations Aux] [Inhabited P1]
    [DecidableEq S] [DecidableEq Aux] [LinearOrderedRing V]
    (fuel : Nat) (refiner : MenuGameRefiner E U S P1 Aux) (game : MenuGame S P1 P2 Aux V)
    (transitionMatrixBdd : Bdd (S × P1 × P2 × S))
    (quantitativeResult : QuantitativeResultMinMax S P1 P2 V) (minValues maxValues : Add S V) :
    refineQuantitative fuel refiner game transitionMatrixBdd
        { min :=
            { values := minValues
              player1Strategy := quantitativeResult.min.player1Strategy
              player2Strategy := quantitativeResult.min.player2Strategy }
          max :=
            { values := maxValues
              player1Strategy := quantitativeResult.max.player1Strategy
              player2Strategy := quantitativeResult.max.player2Strategy } }
      = (do
          if Bdd.isZero
              (quantitativePivotStateResult game transitionMatrixBdd quantitativeResult).pivotStates
          then
            Refine.ofExcept (.error "Unable to refine without pivot state candidates.")
          let pivotState ← Refine.ofOption (pickPivotState P1 P2 V fuel game.getInitialStates
            (quantitativePivotStateResult game transitionMatrixBdd
              quantitativeResult).reachableTransitionsMin
            (quantitativePivotStateResult game transitionMatrixBdd
              quantitativeResult).reachableTransitionsMax
            (quantitativePivotStateResult game transitionMatrixBdd quantitativeResult).pivotStates
            none)
          let _spanningTree : Bdd (S × Aux × S) ← Refine.ofOption
            (getMostProbablePathSpanningTree fuel game pivotState.first
              (if pivotState.second = OptimizationDirection.Minimize
                then Bdd.and (fun n => quantitativeResult.min.player1Strategy (n.1, n.2.1))
                  quantitativeResult.min.player2Strategy
                else Bdd.and (fun n => quantitativeResult.max.player1Strategy (n.1, n.2.1))
                  quantitativeResult.max.player2Strategy))
          exitProcess (-1)
          refineWithPivotState V refiner game pivotState.first
            quantitativeResult.min.player1Strategy quantitativeResult.min.player2Strategy
            quantitativeResult.max.player1Strategy quantitativeResult.max.player2Strategy) ∧
      refineQuantitative fuel refiner game transitionMatrixBdd
        { min :=
            { values := minValues
              player1Strategy := quantitativeResult.min.player1Strategy
              player2Strategy := quantitativeResult.min.player2Strategy }
          max :=
            { values := maxValues
              player1Strategy := quantitativeResult.max.player1Strategy
              player2Strategy := quantitativeResult.max.player2Strategy } }
        = refineQuantitative fuel refiner game transitionMatrixBdd quantitativeResult :=
  ⟨rfl, rfl⟩

/-! ## preprocessPredicates after the accepted atoms were registered -/

/-- Atoms that the checker finds equivalent to a registered predicate leave the
accumulator as it is. -/
theorem addAtoms_all_rejected {E : Type} (areEquivalent : E → E → Bool)
    (oldPredicates atoms acc : List E)
    (hrejected : ∀ atom ∈ atoms, ∃ old ∈ oldPredicates, areEquivalent atom old = true) :
    addAtoms areEquivalent oldPredicates atoms acc = acc := by
  induction atoms generalizing acc with
  | nil => rfl
  | cons atom atoms ih =>
    have hany : oldPredicates.any (fun oldPredicate => areEquivalent atom oldPredicate) = true := by
      obtain ⟨old, hold, hequiv⟩ := hrejected atom (List.mem_cons_self _ _)
      exact List.any_eq_true.mpr ⟨old, hold, hequiv⟩
    simp only [addAtoms, hany, Bool.not_true, Bool.false_and, Bool.false_eq_true, if_false]
    exact ih acc (fun a ha => hrejected a (List.mem_cons_of_mem _ ha))

/-- With a reflexive checker every atom handed to the loop is found equivalent
to a registered predicate or has an equivalent atom in the result. -/
theorem addAtoms_covers {E : Type} (areEquivalent : E → E → Bool)
    (hreflexive : ∀ a, areEquivalent a a = true) (oldPredicates atoms acc : List E) :
    ∀ atom ∈ atoms, (∃ old ∈ oldPredicates, areEquivalent atom old = true) ∨
      ∃ kept ∈ addAtoms areEquivalent oldPredicates atoms acc,
        areEquivalent kept atom = true := by
  induction atoms generalizing acc with
  | nil => intro atom hatom; cases hatom
  | cons first atoms ih =>
    intro atom hatom
    rcases List.mem_cons.mp hatom with hfirst | hrest
    · subst hfirst
      simp only [addAtoms]
      split
      · obtain ⟨more, hmore⟩ := addAtoms_extends areEquivalent oldPredicates atoms (acc ++ [atom])
        exact Or.inr ⟨atom, by rw [hmore]; simp, hreflexive atom⟩
      · rename_i hadd
        simp only [Bool.and_eq_true, Bool.not_eq_true', not_and, Bool.not_eq_false] at hadd
        by_cases hold : oldPredicates.any (fun oldPredicate => areEquivalent atom oldPredicate)
            = true
        · obtain ⟨old, hmem, hequiv⟩ := List.any_eq_true.mp hold
          exact Or.inl ⟨old, hmem, hequiv⟩
        · have hacc := hadd (by simpa using hold)
          obtain ⟨kept, hmem, hequiv⟩ := List.any_eq_true.mp hacc
          obtain ⟨more, hmore⟩ := addAtoms_extends areEquivalent oldPredicates atoms acc
          exact Or.inr ⟨kept, by rw [hmore]; exact List.mem_append_left _ hmem, hequiv⟩
    · simp only [addAtoms]
      exact ih _ atom hrest

/-- C32: with a reflexive and symmetric equivalence checker, once the registered
predicates of the abstraction contain the old predicates and the atoms returned
by preprocessPredicates(P, true), a second call preprocessPredicates(P, true)
returns the empty list. -/
theorem preprocessPredicates_split_after_registration_is_empty {E U S P1 Aux : Type}
    (refiner : MenuGameRefiner E U S P1 Aux) (later : MenuGameAbstractor E U S P1 Aux)
    (predicates : List E)
    (hreflexive : ∀ a, refiner.equivalenceChecker a a = true)
    (hsymmetric : ∀ a b, refiner.equivalenceChecker a b = true →
      refiner.equivalenceChecker b a = true)
    (hkept : ∀ old ∈ refiner.abstractor.getAbstractionInformation.getPredicates,
      old ∈ later.getAbstractionInformation.getPredicates)
    (hregistered : ∀ atom ∈ preprocessPredicates refiner predicates true,
      atom ∈ later.getAbstractionInformation.getPredicates) :
    preprocessPredicates
        ⟨later, refiner.splitPredicates, refiner.splitGuards, refiner.splitter,
          refiner.equivalenceChecker, refiner.expressions⟩ predicates true = [] := by
  simp only [preprocessPredicates, if_true, splitLoop_eq_addAtoms] at hregistered ⊢
  apply addAtoms_all_rejected
  intro atom hatom
  rcases addAtoms_covers refiner.equivalenceChecker hreflexive
      refiner.abstractor.getAbstractionInformation.getPredicates
      (predicates.flatMap refiner.splitter) [] atom hatom with ⟨old, hold, hequiv⟩ | ⟨kept, hmem, hequiv⟩
  · exact ⟨old, hkept old hold, hequiv⟩
  · exact ⟨kept, hregistered kept hmem, hsymmetric kept atom hequiv⟩

/-- Witness for C32: the toy refiner is asked for `x >= 1` and `x >= 2`, accepts
`x >= 2`, and is asked again after `x >= 2` was registered. -/
theorem preprocessPredicates_split_after_registration_is_empty_witness :
    preprocessPredicates toyRefiner [.ge .x (.lit 1), .ge .x (.lit 2)] true
        = [.ge .x (.lit 2)] ∧
      preprocessPredicates
        ⟨toyAbstractorAfter [.ge .x (.lit 2)], toyRefiner.splitPredicates,
          toyRefiner.splitGuards, toyRefiner.splitter, toyRefiner.equivalenceChecker,
          toyRefiner.expressions⟩ [.ge .x (.lit 1), .ge .x (.lit 2)] true = [] :=
  ⟨by decide,
    preprocessPredicates_split_after_registration_is_empty toyRefiner
      (toyAbstractorAfter [.ge .x (.lit 2)]) [.ge .x (.lit 1), .ge .x (.lit 2)]
      (by intro a; simp [toyRefiner])
      (by intro a b h; simp only [toyRefiner, decide_eq_true_eq] at h ⊢; exact h.symm)
      (by intro old hold; simp only [toyRefiner, toyAbstractor, toyAbstractorAfter] at hold ⊢
          exact List.mem_append_left _ hold)
      (by
        intro atom hatom
        have hresult : preprocessPredicates toyRefiner [.ge .x (.lit 1), .ge .x (.lit 2)] true
            = [.ge .x (.lit 2)] := by decide
        rw [hresult] at hatom
        simp only [toyAbstractorAfter]
        exact List.mem_append_right _ hatom)⟩

/-! ## Kwek-Mehlhorn -/

theorem divide_of_pos (dividend divisor : Int) (hpos : 0 < divisor) :
    divide dividend divisor = .ok (dividend / divisor, dividend % divisor) := by
  simp only [divide, if_neg (ne_of_gt hpos), Int.fdiv_eq_ediv _ (le_of_lt hpos),
    Int.fmod_eq_emod _ (le_of_lt hpos)]

/-- One unfolding of findRational on positive denominators. -/
theorem findRational_succ (fuel : Nat) (alpha beta gamma delta : Int) (hbeta : 0 < beta)
    (hdelta : 0 < delta) :
    findRational (fuel + 1) alpha beta gamma delta
      = if alpha / beta = gamma / delta ∧ alpha % beta ≠ 0 then
          match findRational fuel delta (gamma % delta) beta (alpha % beta) with
          | none => none
          | some (.error e) => some (.error e)
          | some (.ok subresult) =>
            some (.ok (alpha / beta * subresult.1 + subresult.2, subresult.1))
        else
          some (.ok (if alpha % beta = 0 then alpha / beta else alpha / beta + 1, 1)) := by
  simp only [findRational, divide_of_pos _ _ hbeta, divide_of_pos _ _ hdelta]

set_option maxHeartbeats 1000000 in
/-- What findRational returns under its precondition, in cross-multiplied form:
with fuel for `beta + delta` calls it returns a pair `(p, q)` in lowest terms
with `alpha/beta <= p/q <= gamma/delta`, and every fraction `m/n` of the
interval has `q <= n` and `p <= m`. -/
theorem findRational_spec (fuel : Nat) :
    ∀ alpha beta gamma delta : Int, 0 ≤ alpha → 0 < beta → 0 < delta →
      alpha * delta ≤ gamma * beta → beta + delta ≤ (fuel : Int) + 1 →
      ∃ p q : Int, findRational fuel alpha beta gamma delta = some (.ok (p, q)) ∧
        0 < q ∧ 0 ≤ p ∧ alpha * q ≤ p * beta ∧ p * delta ≤ gamma * q ∧ Int.gcd p q = 1 ∧
        ∀ m n : Int, 0 < n → alpha * n ≤ m * beta → m * delta ≤ gamma * n → q ≤ n ∧ p ≤ m := by
  induction fuel with
  | zero =>
    intro alpha beta gamma delta _ hbeta hdelta _ hfuel
    exfalso
    simp only [Nat.cast_zero, zero_add] at hfuel
    omega
  | succ fuel ih =>
    intro alpha beta gamma delta halpha hbeta hdelta hle hfuel
    have ha := Int.emod_add_ediv alpha beta
    have hc := Int.emod_add_ediv gamma delta
    have hr1 := Int.emod_nonneg alpha (ne_of_gt hbeta)
    have hr1' := Int.emod_lt_of_pos alpha hbeta
    have hr2 := Int.emod_nonneg gamma (ne_of_gt hdelta)
    have hr2' := Int.emod_lt_of_pos gamma hdelta
    have hk := Int.ediv_nonneg halpha (le_of_lt hbeta)
    rw [findRational_succ fuel alpha beta gamma delta hbeta hdelta]
    generalize alpha / beta = k at *
    generalize alpha % beta = r1 at *
    generalize gamma / delta = k2 at *
    generalize gamma % delta = r2 at *
    subst ha
    subst hc
    by_cases hrec : k = k2 ∧ r1 ≠ 0
    · obtain ⟨hkk, hne⟩ := hrec
      subst hkk
      have hr1pos : 0 < r1 := lt_of_le_of_ne hr1 (Ne.symm hne)
      have hcross : r1 * delta ≤ r2 * beta := by nlinarith
      have hr2pos : 0 < r2 := by
        by_contra hcon
        have : r2 = 0 := by omega
        subst this
        have : 0 < r1 * delta := mul_pos hr1pos hdelta
        omega
      obtain ⟨p, q, hsub, hq, hp, hlow, hhigh, hgcd, hmin⟩ :=
        ih delta r2 beta r1 (le_of_lt hdelta) hr2pos hr1pos (by nlinarith) (by push_cast at hfuel ⊢; omega)
      have hppos : 0 < p := by
        by_contra hcon
        have h1 : p * r2 ≤ 0 := mul_nonpos_of_nonpos_of_nonneg (by omega) hr2
        have h2 : 0 < delta * q := mul_pos hdelta hq
        omega
      refine ⟨k * p + q, p, ?_, hppos, ?_, ?_, ?_, ?_, ?_⟩
      · simp only [hsub, true_and, hne, ne_eq, not_false_eq_true, if_true]
      · have := mul_nonneg hk hp
        omega
      · nlinarith
      · nlinarith
      · rw [Int.gcd_comm] at hgcd
        rw [← Int.isCoprime_iff_gcd_eq_one] at hgcd ⊢
        have := hgcd.add_mul_right_left k
        simpa [add_comm, mul_comm] using this
      · intro m n hn hlo hhi
        have h1 : r1 * n ≤ (m - k * n) * beta := by nlinarith
        have h2 : (m - k * n) * delta ≤ r2 * n := by nlinarith
        have hm : 0 < m - k * n := by
          by_contra hcon
          have h3 : (m - k * n) * beta ≤ 0 := mul_nonpos_of_nonpos_of_nonneg (by omega) (le_of_lt hbeta)
          have h4 : 0 < r1 * n := mul_pos hr1pos hn
          omega
        obtain ⟨hq', hp'⟩ := hmin n (m - k * n) hm (by nlinarith) (by nlinarith)
        refine ⟨hp', ?_⟩
        have : k * p ≤ k * n := mul_le_mul_of_nonneg_left hp' hk
        omega
    · rw [if_neg hrec]
      by_cases hzero : r1 = 0
      · subst hzero
        refine ⟨k, 1, by simp, by decide, hk, by nlinarith, ?_, by simp, ?_⟩
        · have h : beta * (k * delta) ≤ beta * (r2 + delta * k2) := by nlinarith
          have := le_of_mul_le_mul_left h hbeta
          omega
        · intro m n hn hlo _
          refine ⟨by omega, ?_⟩
          have h : beta * (k * n) ≤ beta * m := by nlinarith
          have h1 := le_of_mul_le_mul_left h hbeta
          have h2 : k * 1 ≤ k * n := mul_le_mul_of_nonneg_left (by omega) hk
          omega
      · have hr1pos : 0 < r1 := lt_of_le_of_ne hr1 (Ne.symm hzero)
        have hkne : k ≠ k2 := fun h => hrec ⟨h, hzero⟩
        have hklt : k < k2 := by
          refine lt_of_le_of_ne ?_ hkne
          by_contra hcon
          have hk2 : k2 + 1 ≤ k := by omega
          have h1 : (r2 + delta * k2) * beta < delta * (k2 + 1) * beta := by
            apply mul_lt_mul_of_pos_right _ hbeta
            nlinarith
          have h2 : delta * (k2 + 1) * beta ≤ delta * k * beta := by
            apply mul_le_mul_of_nonneg_right _ (le_of_lt hbeta)
            exact mul_le_mul_of_nonneg_left hk2 (le_of_lt hdelta)
          have h3 : delta * k * beta ≤ (r1 + beta * k) * delta := by nlinarith
          omega
        refine ⟨k + 1, 1, by simp [hzero], by decide, by omega, by nlinarith, ?_, by simp, ?_⟩
        · have : delta * (k + 1) ≤ delta * k2 := mul_le_mul_of_nonneg_left (by omega) (le_of_lt hdelta)
          linarith
        · intro m n hn hlo _
          refine ⟨by omega, ?_⟩
          have h : beta * (k * n) < beta * m := by
            have : 0 < r1 * n := mul_pos hr1pos hn
            nlinarith
          have h1 := lt_of_mul_lt_mul_left h (le_of_lt hbeta)
          have h2 : k * 1 ≤ k * n := mul_le_mul_of_nonneg_left (by omega) hk
          omega

/-- The precondition `alpha/beta <= gamma/delta` on positive denominators, with
the fractions multiplied out. -/
theorem div_le_div_iff_cross (a b c d : Int) (hb : 0 < b) (hd : 0 < d) :
    (a : ℚ) / b ≤ (c : ℚ) / d ↔ a * d ≤ c * b := by
  have hb' : (0 : ℚ) < b := by exact_mod_cast hb
  have hd' : (0 : ℚ) < d := by exact_mod_cast hd
  rw [div_le_div_iff₀ hb' hd']
  exact_mod_cast Iff.rfl

/-- Under its precondition findRational returns one pair, the same for every
recursion bound of at least `beta + delta`. -/
theorem findRational_returns (alpha beta gamma delta : Int) (halpha : 0 ≤ alpha)
    (hbeta : 0 < beta) (hdelta : 0 < delta) (hle : alpha * delta ≤ gamma * beta) :
    ∃ p q : Int,
      (∀ fuel : Nat, beta + delta ≤ (fuel : Int) →
        findRational fuel alpha beta gamma delta = some (.ok (p, q))) ∧
      0 < q ∧ 0 ≤ p ∧ alpha * q ≤ p * beta ∧ p * delta ≤ gamma * q ∧ Int.gcd p q = 1 ∧
      ∀ m n : Int, 0 < n → alpha * n ≤ m * beta → m * delta ≤ gamma * n → q ≤ n ∧ p ≤ m := by
  obtain ⟨p, q, _, hq, hp, hlow, hhigh, hgcd, hmin⟩ :=
    findRational_spec (beta + delta).toNat alpha beta gamma delta halpha hbeta hdelta hle
      (by rw [Int.toNat_of_nonneg (by omega)]; omega)
  refine ⟨p, q, ?_, hq, hp, hlow, hhigh, hgcd, hmin⟩
  intro fuel hfuel
  obtain ⟨p2, q2, hrun, hq2, _, hlow2, hhigh2, _, hmin2⟩ :=
    findRational_spec fuel alpha beta gamma delta halpha hbeta hdelta hle (by omega)
  obtain ⟨h1, h2⟩ := hmin p2 q2 hq2 hlow2 hhigh2
  obtain ⟨h3, h4⟩ := hmin2 p q hq hlow hhigh
  have hpe : p2 = p := le_antisymm h4 h2
  have hqe : q2 = q := le_antisymm h3 h1
  rw [hrun, hpe, hqe]

/-- C33: for alpha >= 0, beta > 0, delta > 0 and alpha/beta <= gamma/delta,
findRational(alpha, beta, gamma, delta) returns a pair (p, q), the same for
every recursion bound of at least beta + delta, with q > 0 and
alpha/beta <= p/q <= gamma/delta. -/
theorem findRational_result_in_interval (alpha beta gamma delta : Int) (halpha : 0 ≤ alpha)
    (hbeta : 0 < beta) (hdelta : 0 < delta) (hle : (alpha : ℚ) / beta ≤ (gamma : ℚ) / delta) :
    ∃ p q : Int,
      (∀ fuel : Nat, beta + delta ≤ (fuel : Int) →
        findRational fuel alpha beta gamma delta = some (.ok (p, q))) ∧
      0 < q ∧ (alpha : ℚ) / beta ≤ (p : ℚ) / q ∧ (p : ℚ) / q ≤ (gamma : ℚ) / delta := by
  obtain ⟨p, q, hrun, hq, _, hlow, hhigh, _, _⟩ :=
    findRational_returns alpha beta gamma delta halpha hbeta hdelta
      ((div_le_div_iff_cross alpha beta gamma delta hbeta hdelta).mp hle)
  exact ⟨p, q, hrun, hq, (div_le_div_iff_cross alpha beta p q hbeta hq).mpr hlow,
    (div_le_div_iff_cross p q gamma delta hq hdelta).mpr hhigh⟩

/-- Witness for C33: the interval [314/100, 315/100], in which the code finds
22/7. -/
theorem findRational_result_in_interval_witness :
    findRational 200 314 100 315 100 = some (.ok (22, 7)) ∧
      ∃ p q : Int,
        (∀ fuel : Nat, (100 : Int) + 100 ≤ (fuel : Int) →
          findRational fuel 314 100 315 100 = some (.ok (p, q))) ∧
        0 < q ∧ ((314 : Int) : ℚ) / (100 : Int) ≤ (p : ℚ) / q ∧
          (p : ℚ) / q ≤ ((315 : Int) : ℚ) / (100 : Int) :=
  ⟨rfl, findRational_result_in_interval 314 100 315 100 (by decide) (by decide) (by decide)
    ((div_le_div_iff_cross 314 100 315 100 (by decide) (by decide)).mpr (by decide))⟩

/-- C34: under the same precondition the returned pair (p, q) is in lowest
terms, and no fraction m/n with 0 < n < q lies in the closed interval
[alpha/beta, gamma/delta]. -/
theorem findRational_result_has_least_denominator (alpha beta gamma delta : Int)
    (halpha : 0 ≤ alpha) (hbeta : 0 < beta) (hdelta : 0 < delta)
    (hle : (alpha : ℚ) / beta ≤ (gamma : ℚ) / delta) :
    ∃ p q : Int,
      (∀ fuel : Nat, beta + delta ≤ (fuel : Int) →
        findRational fuel alpha beta gamma delta = some (.ok (p, q))) ∧
      Int.gcd p q = 1 ∧
      ∀ m n : Int, 0 < n → n < q →
        ¬ ((alpha : ℚ) / beta ≤ (m : ℚ) / n ∧ (m : ℚ) / n ≤ (gamma : ℚ) / delta) := by
  obtain ⟨p, q, hrun, _, _, _, _, hgcd, hmin⟩ :=
    findRational_returns alpha beta gamma delta halpha hbeta hdelta
      ((div_le_div_iff_cross alpha beta gamma delta hbeta hdelta).mp hle)
  refine ⟨p, q, hrun, hgcd, ?_⟩
  rintro m n hn hlt ⟨hlow, hhigh⟩
  have h := (hmin m n hn ((div_le_div_iff_cross alpha beta m n hbeta hn).mp hlow)
    ((div_le_div_iff_cross m n gamma delta hn hdelta).mp hhigh)).1
  omega

/-- Witness for C34: 22/7 is the fraction of least denominator in
[314/100, 315/100]. -/
theorem findRational_result_has_least_denominator_witness :
    findRational 200 314 100 315 100 = some (.ok (22, 7)) ∧
      ∃ p q : Int,
        (∀ fuel : Nat, (100 : Int) + 100 ≤ (fuel : Int) →
          findRational fuel 314 100 315 100 = some (.ok (p, q))) ∧
        Int.gcd p q = 1 ∧
        ∀ m n : Int, 0 < n → n < q →
          ¬ (((314 : Int) : ℚ) / (100 : Int) ≤ (m : ℚ) / n ∧
            (m : ℚ) / n ≤ ((315 : Int) : ℚ) / (100 : Int)) :=
  ⟨rfl, findRational_result_has_least_denominator 314 100 315 100 (by decide) (by decide)
    (by decide) ((div_le_div_iff_cross 314 100 315 100 (by decide) (by decide)).mpr (by decide))⟩

/-- C35: under the precondition the recursion of findRational comes to an end
without a division by zero: with a recursion bound of at least beta + delta the
function returns a pair (never the out-of-fuel or the division-by-zero
outcome); and whenever the body makes its recursive call (equal quotients,
non-zero first remainder), the call `findRational(delta, gamma mod delta, beta,
alpha mod beta)` has a non-negative first argument, positive second and fourth
arguments, satisfies `delta/(gamma mod delta) <= beta/(alpha mod beta)`, and
the sum of its two denominators is strictly below `beta + delta`. -/
theorem findRational_terminates_without_division_by_zero (alpha beta gamma delta : Int)
    (halpha : 0 ≤ alpha) (hbeta : 0 < beta) (hdelta : 0 < delta)
    (hle : (alpha : ℚ) / beta ≤ (gamma : ℚ) / delta) :
    (∃ result : Int × Int, ∀ fuel : Nat, beta + delta ≤ (fuel : Int) →
        findRational fuel alpha beta gamma delta = some (.ok result)) ∧
      ∀ alphaDivBetaPair gammaDivDeltaPair : Int × Int,
        divide alpha beta = .ok alphaDivBetaPair → divide gamma delta = .ok gammaDivDeltaPair →
        alphaDivBetaPair.1 = gammaDivDeltaPair.1 ∧ alphaDivBetaPair.2 ≠ 0 →
        (∀ fuel : Nat, findRational (fuel + 1) alpha beta gamma delta
          = match findRational fuel delta gammaDivDeltaPair.2 beta alphaDivBetaPair.2 with
            | none => none
            | some (.error e) => some (.error e)
            | some (.ok subresult) =>
              some (.ok (alphaDivBetaPair.1 * subresult.1 + subresult.2, subresult.1))) ∧
          0 ≤ delta ∧ 0 < gammaDivDeltaPair.2 ∧ 0 < alphaDivBetaPair.2 ∧
          (delta : ℚ) / gammaDivDeltaPair.2 ≤ (beta : ℚ) / alphaDivBetaPair.2 ∧
          gammaDivDeltaPair.2 + alphaDivBetaPair.2 < beta + delta := by
  have hcross := (div_le_div_iff_cross alpha beta gamma delta hbeta hdelta).mp hle
  constructor
  · obtain ⟨p, q, hrun, _⟩ := findRational_returns alpha beta gamma delta halpha hbeta hdelta hcross
    exact ⟨(p, q), hrun⟩
  · intro a g ha hg hrec
    rw [divide_of_pos _ _ hbeta] at ha
    rw [divide_of_pos _ _ hdelta] at hg
    cases ha
    cases hg
    obtain ⟨hkk, hne⟩ := hrec
    simp only at hkk hne ⊢
    refine ⟨fun fuel => by
      rw [findRational_succ fuel alpha beta gamma delta hbeta hdelta, if_pos ⟨hkk, hne⟩], ?_⟩
    have e1 := Int.emod_add_ediv alpha beta
    have e2 := Int.emod_add_ediv gamma delta
    have hr1 := Int.emod_nonneg alpha (ne_of_gt hbeta)
    have hr1lt := Int.emod_lt_of_pos alpha hbeta
    have hr2 := Int.emod_nonneg gamma (ne_of_gt hdelta)
    have hr2lt := Int.emod_lt_of_pos gamma hdelta
    rw [← hkk] at e2
    generalize alpha / beta = k at *
    generalize alpha % beta = r1 at *
    generalize gamma % delta = r2 at *
    subst e1
    subst e2
    have hr1pos : 0 < r1 := lt_of_le_of_ne hr1 (Ne.symm hne)
    have hc : r1 * delta ≤ r2 * beta := by nlinarith
    have hr2pos : 0 < r2 := by
      by_contra hcon
      have : r2 = 0 := by omega
      subst this
      have : 0 < r1 * delta := mul_pos hr1pos hdelta
      omega
    refine ⟨le_of_lt hdelta, hr2pos, hr1pos, ?_, by omega⟩
    rw [div_le_div_iff_cross delta r2 beta r1 hr2pos hr1pos]
    nlinarith

/-- Witness for C35: the call on [314/100, 315/100] recurses on
[100/15, 100/14]. -/
theorem findRational_terminates_without_division_by_zero_witness :
    divide 314 100 = .ok (3, 14) ∧ divide 315 100 = .ok (3, 15) ∧
      ((∃ result : Int × Int, ∀ fuel : Nat, (100 : Int) + 100 ≤ (fuel : Int) →
          findRational fuel 314 100 315 100 = some (.ok result)) ∧
        ∀ alphaDivBetaPair gammaDivDeltaPair : Int × Int,
          divide 314 100 = .ok alphaDivBetaPair → divide 315 100 = .ok gammaDivDeltaPair →
          alphaDivBetaPair.1 = gammaDivDeltaPair.1 ∧ alphaDivBetaPair.2 ≠ 0 →
          (∀ fuel : Nat, findRational (fuel + 1) 314 100 315 100
            = match findRational fuel 100 gammaDivDeltaPair.2 100 alphaDivBetaPair.2 with
              | none => none
              | some (.error e) => some (.error e)
              | some (.ok subresult) =>
                some (.ok (alphaDivBetaPair.1 * subresult.1 + subresult.2, subresult.1))) ∧
            0 ≤ (100 : Int) ∧ 0 < gammaDivDeltaPair.2 ∧ 0 < alphaDivBetaPair.2 ∧
            ((100 : Int) : ℚ) / gammaDivDeltaPair.2 ≤ ((100 : Int) : ℚ) / alphaDivBetaPair.2 ∧
            gammaDivDeltaPair.2 + alphaDivBetaPair.2 < (100 : Int) + 100) :=
  ⟨rfl, rfl, findRational_terminates_without_division_by_zero 314 100 315 100 (by decide)
    (by decide) (by decide)
    ((div_le_div_iff_cross 314 100 315 100 (by decide) (by decide)).mpr (by decide))⟩

/-- On a non-negative rational, truncation rounds down. -/
theorem trunc_of_nonneg (number : ℚ) (hnonneg : 0 ≤ number) : trunc number = ⌊number⌋ := by
  have h : ⌊number⌋ = Rat.floor number := rfl
  rw [h, Rat.floor_def', trunc]
  exact Int.tdiv_eq_ediv (Rat.num_nonneg.mpr hnonneg) (by exact_mod_cast Nat.zero_le _)

/-- C36: for every precision p and every exact rational v, sharpen(p, v) returns
a rational r (the same for every recursion bound of at least 2 * 10^p) with
|r - v| <= 10^(-p) and, for f = v - floor(v) and t = trunc(f * 10^p),
floor(v) + t/10^p <= r <= floor(v) + (t+1)/10^p. -/
theorem sharpen_within_precision (precision : Nat) (value : ℚ) :
    ∃ r : ℚ,
      (∀ fuel : Nat, 2 * 10 ^ precision ≤ fuel → sharpen fuel precision value = some (.ok r)) ∧
      |r - value| ≤ 1 / (10 : ℚ) ^ precision ∧
      (floor value : ℚ)
          + (trunc ((value - (floor value : ℚ)) * ((10 ^ precision : Int) : ℚ)) : ℚ)
            / (10 : ℚ) ^ precision ≤ r ∧
      r ≤ (floor value : ℚ)
          + ((trunc ((value - (floor value : ℚ)) * ((10 ^ precision : Int) : ℚ)) : ℚ) + 1)
            / (10 : ℚ) ^ precision := by
  have hfloor : floor value = ⌊value⌋ := rfl
  have hpow : (0 : Int) < 10 ^ precision := by positivity
  have hpowq : (0 : ℚ) < (10 : ℚ) ^ precision := by positivity
  have hcast : ((10 ^ precision : Int) : ℚ) = (10 : ℚ) ^ precision := by push_cast; rfl
  have hfrac0 : 0 ≤ value - (⌊value⌋ : ℚ) := by linarith [Int.floor_le value]
  have hscaled : 0 ≤ (value - (⌊value⌋ : ℚ)) * (10 : ℚ) ^ precision :=
    mul_nonneg hfrac0 (le_of_lt hpowq)
  have htrunc := trunc_of_nonneg _ hscaled
  have ht0 : 0 ≤ ⌊(value - (⌊value⌋ : ℚ)) * (10 : ℚ) ^ precision⌋ := Int.floor_nonneg.mpr hscaled
  have htle := Int.floor_le ((value - (⌊value⌋ : ℚ)) * (10 : ℚ) ^ precision)
  have htlt := Int.lt_floor_add_one ((value - (⌊value⌋ : ℚ)) * (10 : ℚ) ^ precision)
  rw [hfloor, hcast, htrunc]
  generalize ⌊(value - (⌊value⌋ : ℚ)) * (10 : ℚ) ^ precision⌋ = t at *
  obtain ⟨p, q, hrun, hq, _, hlow, hhigh, _, _⟩ :=
    findRational_returns t (10 ^ precision) (t + 1) (10 ^ precision) ht0 hpow hpow
      (by nlinarith)
  have hlowq := (div_le_div_iff_cross t (10 ^ precision) p q hpow hq).mpr hlow
  have hhighq := (div_le_div_iff_cross p q (t + 1) (10 ^ precision) hq hpow).mpr hhigh
  rw [hcast] at hlowq hhighq
  push_cast at hhighq
  refine ⟨(⌊value⌋ : ℚ) + (p : ℚ) / (q : ℚ), ?_, ?_, by linarith, by linarith⟩
  · intro fuel hfuel
    have hbound : (10 : Int) ^ precision + 10 ^ precision ≤ (fuel : Int) := by
      have : ((2 * 10 ^ precision : Nat) : Int) ≤ (fuel : Int) := by exact_mod_cast hfuel
      push_cast at this
      omega
    simp only [sharpen, findRationalWithPrecision, truncateToRational, hfloor, hcast, htrunc,
      hrun fuel hbound]
  · have h1 : (t : ℚ) / (10 : ℚ) ^ precision ≤ value - (⌊value⌋ : ℚ) := by
      rw [div_le_iff₀ hpowq]
      exact htle
    have h2 : value - (⌊value⌋ : ℚ) < ((t : ℚ) + 1) / (10 : ℚ) ^ precision := by
      rw [lt_div_iff₀ hpowq]
      exact htlt
    have h3 : ((t : ℚ) + 1) / (10 : ℚ) ^ precision
        = (t : ℚ) / (10 : ℚ) ^ precision + 1 / (10 : ℚ) ^ precision := by ring
    rw [abs_le]
    constructor <;> linarith

/-! ## ExplicitGspnModelBuilder -/

/-- C37, at the failing input: in a net that lists an enabled transition of
priority 2 before an enabled transition of priority 1, getEnabledImmediateTransition
and getEnabledTimedTransition both return the two transitions, although the
second one has a priority below the highest priority among the enabled
transitions. -/
theorem getEnabledTransition_keeps_lower_priority_after_higher :
    getEnabledImmediateTransition descendingPriorityNet ()
        = [enabledImmediate "i2" 2 1, enabledImmediate "i1" 1 1] ∧
      getEnabledTimedTransition descendingPriorityNet ()
        = [enabledTimed "t2" 2 1, enabledTimed "t1" 1 1] ∧
      (enabledImmediate "i1" 1 1).getPriority < (enabledImmediate "i2" 2 1).getPriority ∧
      (enabledTimed "t1" 1 1).getPriority < (enabledTimed "t2" 2 1).getPriority :=
  ⟨rfl, rfl, by decide, by decide⟩

/-- The loop splits the input by weight and keeps the order on both sides. -/
theorem partitonEnabledImmediateTransitionsLoop_eq {M W : Type} [Zero W] [DecidableEq W]
    (transitions : List (ImmediateTransition M W)) (result : List (List (ImmediateTransition M W)))
    (weightedTransitions : List (ImmediateTransition M W)) :
    partitonEnabledImmediateTransitionsLoop transitions result weightedTransitions
      = (result ++ (transitions.filter (fun t => decide (t.getWeight = 0))).map (fun t => [t]),
          weightedTransitions ++ transitions.filter (fun t => !decide (t.getWeight = 0))) := by
  induction transitions generalizing result weightedTransitions with
  | nil => simp [partitonEnabledImmediateTransitionsLoop]
  | cons transition rest ih =>
    by_cases h : transition.getWeight = 0
    · simp [partitonEnabledImmediateTransitionsLoop, h, ih]
    · simp [partitonEnabledImmediateTransitionsLoop, h, ih]

/-- C38: partitonEnabledImmediateTransitions returns the transitions of weight
zero as singleton groups in input order, followed by one group of all
transitions of non-zero weight, in input order, when there is such a
transition; no group is empty, and the groups together hold every input
transition once (their concatenation is a permutation of the input). -/
theorem partitonEnabledImmediateTransitions_is_partition {M W : Type} [Zero W] [DecidableEq W]
    (marking : M) (enabledImmediateTransitions : List (ImmediateTransition M W)) :
    partitonEnabledImmediateTransitions marking enabledImmediateTransitions
        = (enabledImmediateTransitions.filter (fun t => decide (t.getWeight = 0))).map
            (fun t => [t])
          ++ (if (enabledImmediateTransitions.filter
                (fun t => !decide (t.getWeight = 0))).length = 0
              then []
              else [enabledImmediateTransitions.filter (fun t => !decide (t.getWeight = 0))]) ∧
      (∀ group ∈ partitonEnabledImmediateTransitions marking enabledImmediateTransitions,
        group ≠ []) ∧
      (partitonEnabledImmediateTransitions marking enabledImmediateTransitions).flatten.Perm
        enabledImmediateTransitions := by
  have hresult : partitonEnabledImmediateTransitions marking enabledImmediateTransitions
        = (enabledImmediateTransitions.filter (fun t => decide (t.getWeight = 0))).map
            (fun t => [t])
          ++ (if (enabledImmediateTransitions.filter
                (fun t => !decide (t.getWeight = 0))).length = 0
              then []
              else [enabledImmediateTransitions.filter (fun t => !decide (t.getWeight = 0))]) := by
    simp only [partitonEnabledImmediateTransitions, partitonEnabledImmediateTransitionsLoop_eq,
      List.nil_append]
    by_cases hempty : (enabledImmediateTransitions.filter
        (fun t => !decide (t.getWeight = 0))).length = 0
    · simp [hempty]
    · simp [hempty]
  have hflat : ∀ l : List (ImmediateTransition M W), (l.map (fun t => [t])).flatten = l := by
    intro l
    induction l with
    | nil => rfl
    | cons a l ih => simp [ih]
  have hperm := List.filter_append_perm
    (fun t : ImmediateTransition M W => decide (t.getWeight = 0)) enabledImmediateTransitions
  refine ⟨hresult, ?_, ?_⟩
  · rw [hresult]
    intro group hgroup
    rcases List.mem_append.mp hgroup with h | h
    · obtain ⟨t, _, rfl⟩ := List.mem_map.mp h
      simp
    · by_cases hempty : (enabledImmediateTransitions.filter
          (fun t => !decide (t.getWeight = 0))).length = 0
      · simp [hempty] at h
      · simp only [hempty, if_false, List.mem_singleton] at h
        rw [h]
        intro hnil
        exact hempty (by rw [hnil]; rfl)
  · rw [hresult]
    by_cases hempty : (enabledImmediateTransitions.filter
        (fun t => !decide (t.getWeight = 0))).length = 0
    · simp only [hempty, if_true, List.append_nil, hflat]
      rw [List.length_eq_zero.mp hempty, List.append_nil] at hperm
      exact hperm
    · simp only [hempty, if_false, List.flatten_append, hflat, List.flatten_cons,
        List.flatten_nil, List.append_nil]
      exact hperm

/-! ## MemoryStructureBuilder -/

theorem BitVector.size_set (b : BitVector) (index : Nat) :
    BitVector.size (BitVector.set b index) = BitVector.size b := by
  simp [BitVector.size, BitVector.set]

theorem BitVector.get_set (b : BitVector) (index k : Nat) :
    BitVector.get (BitVector.set b index) k = true
      ↔ (k = index ∧ index < BitVector.size b) ∨ BitVector.get b k = true := by
  simp only [BitVector.get, BitVector.set, BitVector.size, List.getD_eq_getElem?_getD,
    List.getElem?_set]
  by_cases hk : index = k
  · subst hk
    by_cases hlt : index < b.length
    · simp [hlt]
    · simp [hlt, List.getElem?_eq_none (Nat.le_of_not_lt hlt)]
  · simp [hk, Ne.symm hk]

theorem BitVector.empty_eq_true_iff (b : BitVector) :
    BitVector.empty b = true ↔ ∀ k, BitVector.get b k = false := by
  simp only [BitVector.empty, List.all_eq_true, Bool.not_eq_true', BitVector.get,
    List.getD_eq_getElem?_getD]
  constructor
  · intro h k
    cases hk : b[k]? with
    | none => rfl
    | some bit =>
      have := h bit (List.mem_iff_getElem?.mpr ⟨k, hk⟩)
      simpa using this
  · intro h bit hbit
    obtain ⟨k, hk⟩ := List.mem_iff_getElem?.mp hbit
    have := h k
    rw [hk] at this
    simpa using this

theorem BitVector.get_replicate_false (n k : Nat) :
    BitVector.get (List.replicate n false) k = false := by
  simp only [BitVector.get, List.getD_eq_getElem?_getD, List.getElem?_replicate]
  split <;> rfl

/-- The entries of a row are the entries of the matrix between the two row
indications. -/
theorem SparseMatrix.mem_getRow {V : Type} (matrix : SparseMatrix V) (row k : Nat)
    (entry : Nat × V) :
    (k, entry) ∈ matrix.getRow row
      ↔ matrix.rowIndications.getD row 0 ≤ k ∧ k < matrix.rowIndications.getD (row + 1) 0 ∧
          matrix.columnsAndValues[k]? = some entry := by
  simp only [SparseMatrix.getRow, List.mk_mem_enumFrom_iff_le_and_getElem?_sub,
    List.getElem?_take, List.getElem?_drop]
  constructor
  · rintro ⟨hle, h⟩
    split at h
    · rename_i hlt
      refine ⟨hle, by omega, ?_⟩
      rw [← h]
      congr 1
      omega
    · cases h
  · rintro ⟨hle, hlt, h⟩
    refine ⟨hle, ?_⟩
    rw [if_pos (by omega), ← h]
    congr 1
    omega

/-- The bits set by the loop over the entries of some rows. -/
theorem foldl_mark_get (modelStates : BitVector) {V : Type} (entries : List (Nat × Nat × V))
    (transitionVector : BitVector)
    (hpositions : ∀ e ∈ entries, e.1 < BitVector.size transitionVector) (k : Nat) :
    BitVector.size (entries.foldl
        (fun vector entry =>
          if BitVector.get modelStates entry.2.1 then BitVector.set vector entry.1 else vector)
        transitionVector) = BitVector.size transitionVector ∧
      (BitVector.get (entries.foldl
        (fun vector entry =>
          if BitVector.get modelStates entry.2.1 then BitVector.set vector entry.1 else vector)
        transitionVector) k = true
        ↔ BitVector.get transitionVector k = true ∨
          ∃ e ∈ entries, e.1 = k ∧ BitVector.get modelStates e.2.1 = true) := by
  induction entries generalizing transitionVector with
  | nil => simp
  | cons entry entries ih =>
    simp only [List.foldl_cons]
    have hentry := hpositions entry (List.mem_cons_self _ _)
    by_cases hstate : BitVector.get modelStates entry.2.1 = true
    · simp only [hstate, if_true]
      obtain ⟨hsize, hget⟩ := ih (BitVector.set transitionVector entry.1)
        (fun e he => by
          rw [BitVector.size_set]
          exact hpositions e (List.mem_cons_of_mem _ he))
      refine ⟨by rw [hsize, BitVector.size_set], ?_⟩
      rw [hget, BitVector.get_set]
      constructor
      · rintro ((⟨hk, _⟩ | h) | ⟨e, he, hk, hs⟩)
        · exact Or.inr ⟨entry, List.mem_cons_self _ _, hk.symm, hstate⟩
        · exact Or.inl h
        · exact Or.inr ⟨e, List.mem_cons_of_mem _ he, hk, hs⟩
      · rintro (h | ⟨e, he, hk, hs⟩)
        · exact Or.inl (Or.inr h)
        · rcases List.mem_cons.mp he with heq | hmem
          · subst heq
            exact Or.inl (Or.inl ⟨hk.symm, hentry⟩)
          · exact Or.inr ⟨e, hmem, hk, hs⟩
    · simp only [hstate, Bool.false_eq_true, if_false]
      obtain ⟨hsize, hget⟩ := ih transitionVector
        (fun e he => hpositions e (List.mem_cons_of_mem _ he))
      refine ⟨hsize, ?_⟩
      rw [hget]
      constructor
      · rintro (h | ⟨e, he, hk, hs⟩)
        · exact Or.inl h
        · exact Or.inr ⟨e, List.mem_cons_of_mem _ he, hk, hs⟩
      · rintro (h | ⟨e, he, hk, hs⟩)
        · exact Or.inl h
        · rcases List.mem_cons.mp he with heq | hmem
          · subst heq
            exact absurd hs hstate
          · exact Or.inr ⟨e, hmem, hk, hs⟩

/-- The bits set by markRow. -/
theorem markRow_get {V : Type} (modelTransitions : SparseMatrix V) (modelStates : BitVector)
    (transitionVector : BitVector) (choice : Nat)
    (hsize : BitVector.size transitionVector = modelTransitions.getEntryCount) (k : Nat) :
    BitVector.size (markRow modelTransitions modelStates transitionVector choice)
        = modelTransitions.getEntryCount ∧
      (BitVector.get (markRow modelTransitions modelStates transitionVector choice) k = true
        ↔ BitVector.get transitionVector k = true ∨
          ∃ column value, modelTransitions.rowIndications.getD choice 0 ≤ k ∧
            k < modelTransitions.rowIndications.getD (choice + 1) 0 ∧
            modelTransitions.columnsAndValues[k]? = some (column, value) ∧
            BitVector.get modelStates column = true) := by
  have hpositions : ∀ e ∈ modelTransitions.getRow choice, e.1 < BitVector.size transitionVector := by
    rintro ⟨position, entry⟩ he
    have h := ((SparseMatrix.mem_getRow modelTransitions choice position entry).mp he).2.2
    rw [hsize, SparseMatrix.getEntryCount]
    by_contra hcon
    rw [List.getElem?_eq_none (Nat.le_of_not_lt hcon)] at h
    cases h
  obtain ⟨hs, hget⟩ := foldl_mark_get modelStates (modelTransitions.getRow choice)
    transitionVector hpositions k
  refine ⟨by rw [markRow, hs, hsize], ?_⟩
  rw [markRow, hget]
  constructor
  · rintro (h | ⟨⟨position, column, value⟩, he, hk, hstate⟩)
    · exact Or.inl h
    · simp only at hk hstate
      subst hk
      obtain ⟨h1, h2, h3⟩ := (SparseMatrix.mem_getRow modelTransitions choice position
        (column, value)).mp he
      exact Or.inr ⟨column, value, h1, h2, h3, hstate⟩
  · rintro (h | ⟨column, value, h1, h2, h3, hstate⟩)
    · exact Or.inl h
    · exact Or.inr ⟨(k, column, value),
        (SparseMatrix.mem_getRow modelTransitions choice k (column, value)).mpr ⟨h1, h2, h3⟩,
        rfl, hstate⟩

/-- The bits set by the loop over the selected rows. -/
theorem foldl_markRow_get {V : Type} (modelTransitions : SparseMatrix V)
    (modelStates : BitVector) (choices : List Nat) (transitionVector : BitVector)
    (hsize : BitVector.size transitionVector = modelTransitions.getEntryCount) (k : Nat) :
    BitVector.size (choices.foldl (markRow modelTransitions modelStates) transitionVector)
        = modelTransitions.getEntryCount ∧
      (BitVector.get (choices.foldl (markRow modelTransitions modelStates) transitionVector) k
          = true
        ↔ BitVector.get transitionVector k = true ∨
          ∃ choice ∈ choices, ∃ column value,
            modelTransitions.rowIndications.getD choice 0 ≤ k ∧
            k < modelTransitions.rowIndications.getD (choice + 1) 0 ∧
            modelTransitions.columnsAndValues[k]? = some (column, value) ∧
            BitVector.get modelStates column = true) := by
  induction choices generalizing transitionVector with
  | nil => simp [hsize]
  | cons choice choices ih =>
    simp only [List.foldl_cons]
    obtain ⟨hs1, hget1⟩ := markRow_get modelTransitions modelStates transitionVector choice hsize k
    obtain ⟨hs2, hget2⟩ := ih (markRow modelTransitions modelStates transitionVector choice) hs1
    refine ⟨hs2, ?_⟩
    rw [hget2, hget1]
    constructor
    · rintro ((h | ⟨column, value, h⟩) | ⟨c, hc, h⟩)
      · exact Or.inl h
      · exact Or.inr ⟨choice, List.mem_cons_self _ _, column, value, h⟩
      · exact Or.inr ⟨c, List.mem_cons_of_mem _ hc, h⟩
    · rintro (h | ⟨c, hc, column, value, h⟩)
      · exact Or.inl (Or.inl h)
      · rcases List.mem_cons.mp hc with heq | hmem
        · subst heq
          exact Or.inl (Or.inr ⟨column, value, h⟩)
        · exact Or.inr ⟨c, hmem, column, value, h⟩

theorem BitVector.mem_setBits (b : BitVector) (index : Nat) :
    index ∈ BitVector.setBits b ↔ BitVector.get b index = true := by
  simp only [BitVector.setBits, List.mem_filter, List.mem_range, and_iff_right_iff_imp]
  intro h
  by_contra hcon
  simp only [BitVector.get, List.getD_eq_getElem?_getD, BitVector.size] at h hcon
  rw [List.getElem?_eq_none (Nat.le_of_not_lt hcon)] at h
  cases h

theorem getD_set_eq {α : Type} (l : List α) (i j : Nat) (a d : α) :
    (l.set i a).getD j d = if i = j ∧ i < l.length then a else l.getD j d := by
  simp only [List.getD_eq_getElem?_getD, List.getElem?_set]
  by_cases hij : i = j
  · subst hij
    by_cases hlt : i < l.length
    · simp [hlt]
    · simp [hlt, List.getElem?_eq_none (Nat.le_of_not_lt hlt)]
  · simp [hij]

/-- Reading the entry that was assigned. -/
theorem transitionAt_assignTransition_same {V L : Type} (builder : MemoryStructureBuilder V L)
    (startState goalState : Nat) (value : Option BitVector)
    (hstart : startState < builder.transitions.length)
    (hgoal : goalState < (builder.transitions.getD startState []).length) :
    MemoryStructureBuilder.transitionAt
        { builder with
          transitions := assignTransition builder.transitions startState goalState value }
        startState goalState = value := by
  simp only [MemoryStructureBuilder.transitionAt, assignTransition, getD_set_eq, hstart,
    hgoal, and_self, if_true]

/-- Reading another entry after the assignment. -/
theorem transitionAt_assignTransition_other {V L : Type} (builder : MemoryStructureBuilder V L)
    (startState goalState : Nat) (value : Option BitVector) (s g : Nat)
    (hother : s ≠ startState ∨ g ≠ goalState) :
    MemoryStructureBuilder.transitionAt
        { builder with
          transitions := assignTransition builder.transitions startState goalState value }
        s g = MemoryStructureBuilder.transitionAt builder s g := by
  simp only [MemoryStructureBuilder.transitionAt, assignTransition, getD_set_eq]
  by_cases hs : startState = s
  · subst hs
    by_cases hlt : startState < builder.transitions.length
    · have hg : ¬ goalState = g := by
        rcases hother with h | h
        · exact absurd rfl h
        · exact fun e => h e.symm
      simp [hlt, hg]
    · simp [hlt]
  · simp [hs]

/-- The transition vector built by setTransition before it is stored. -/
theorem setTransition_vector_get {V : Type} (modelTransitions : SparseMatrix V)
    (modelStates : BitVector) (modelChoices : Option BitVector) (k : Nat) :
    BitVector.size
        (match modelChoices with
          | some choices =>
            (BitVector.setBits choices).foldl (markRow modelTransitions modelStates)
              (List.replicate modelTransitions.getEntryCount false)
          | none =>
            (List.range modelTransitions.getRowCount).foldl
              (markRow modelTransitions modelStates)
              (List.replicate modelTransitions.getEntryCount false))
        = modelTransitions.getEntryCount ∧
      (BitVector.get
        (match modelChoices with
          | some choices =>
            (BitVector.setBits choices).foldl (markRow modelTransitions modelStates)
              (List.replicate modelTransitions.getEntryCount false)
          | none =>
            (List.range modelTransitions.getRowCount).foldl
              (markRow modelTransitions modelStates)
              (List.replicate modelTransitions.getEntryCount false)) k = true
        ↔ ∃ row column value,
            (match modelChoices with
              | some choices => BitVector.get choices row = true
              | none => row < modelTransitions.getRowCount) ∧
            modelTransitions.rowIndications.getD row 0 ≤ k ∧
            k < modelTransitions.rowIndications.getD (row + 1) 0 ∧
            modelTransitions.columnsAndValues[k]? = some (column, value) ∧
            BitVector.get modelStates column = true) := by
  have hinit : BitVector.size (List.replicate modelTransitions.getEntryCount false)
      = modelTransitions.getEntryCount := by simp [BitVector.size]
  cases modelChoices with
  | none =>
    obtain ⟨hs, hget⟩ := foldl_markRow_get modelTransitions modelStates
      (List.range modelTransitions.getRowCount) _ hinit k
    refine ⟨hs, ?_⟩
    simp only
    rw [hget]
    simp only [BitVector.get_replicate_false, Bool.false_eq_true, false_or, List.mem_range]
    constructor
    · rintro ⟨row, hrow, column, value, h⟩
      exact ⟨row, column, value, hrow, h⟩
    · rintro ⟨row, column, value, hrow, h⟩
      exact ⟨row, hrow, column, value, h⟩
  | some choices =>
    obtain ⟨hs, hget⟩ := foldl_markRow_get modelTransitions modelStates
      (BitVector.setBits choices) _ hinit k
    refine ⟨hs, ?_⟩
    simp only
    rw [hget]
    simp only [BitVector.get_replicate_false, Bool.false_eq_true, false_or,
      BitVector.mem_setBits]
    constructor
    · rintro ⟨row, hrow, column, value, h⟩
      exact ⟨row, column, value, hrow, h⟩
    · rintro ⟨row, column, value, hrow, h⟩
      exact ⟨row, hrow, column, value, h⟩

/-- C39: a call of setTransition whose four checks pass returns normally and
leaves a builder in which the entry (startState, goalState) is absent exactly
when no entry of the model's transition matrix lies in a selected row (every
row when modelChoices is absent) with its column in modelStates, and is
otherwise the bit vector over the matrix entries that marks exactly those
entries; every other entry, the labeling, the initial memory states and
the model are as before.  A call with startState or goalState not below the
number of memory states, or with a bit vector whose size is not the number of
row groups, throws InvalidOperationException and leaves the builder as it
was. -/
theorem setTransition_sets_one_entry_or_fails {V L : Type} (builder : MemoryStructureBuilder V L)
    (startState goalState : Nat) (modelStates : BitVector) (modelChoices : Option BitVector)
    (hsquare : ∀ row ∈ builder.transitions, row.length = builder.transitions.length) :
    ((startState < builder.transitions.length ∧ goalState < builder.transitions.length ∧
        BitVector.size modelStates = builder.model.getTransitionMatrix.getRowGroupCount ∧
        (∀ choices, modelChoices = some choices →
          BitVector.size choices = builder.model.getTransitionMatrix.getRowGroupCount)) →
      ∃ after : MemoryStructureBuilder V L,
        builder.setTransition startState goalState modelStates modelChoices = (.ok (), after) ∧
        (after.transitionAt startState goalState = none ↔
          ¬ ∃ k row column value,
            (match modelChoices with
              | some choices => BitVector.get choices row = true
              | none => row < builder.model.getTransitionMatrix.getRowCount) ∧
            builder.model.getTransitionMatrix.rowIndications.getD row 0 ≤ k ∧
            k < builder.model.getTransitionMatrix.rowIndications.getD (row + 1) 0 ∧
            builder.model.getTransitionMatrix.columnsAndValues[k]? = some (column, value) ∧
            BitVector.get modelStates column = true) ∧
        (∀ vector, after.transitionAt startState goalState = some vector →
          BitVector.size vector = builder.model.getTransitionMatrix.getEntryCount ∧
          ∀ k, BitVector.get vector k = true ↔
            ∃ row column value,
              (match modelChoices with
                | some choices => BitVector.get choices row = true
                | none => row < builder.model.getTransitionMatrix.getRowCount) ∧
              builder.model.getTransitionMatrix.rowIndications.getD row 0 ≤ k ∧
              k < builder.model.getTransitionMatrix.rowIndications.getD (row + 1) 0 ∧
              builder.model.getTransitionMatrix.columnsAndValues[k]? = some (column, value) ∧
              BitVector.get modelStates column = true) ∧
        (∀ s g, s ≠ startState ∨ g ≠ goalState →
          after.transitionAt s g = builder.transitionAt s g) ∧
        after.stateLabeling = builder.stateLabeling ∧
        after.initialMemoryStates = builder.initialMemoryStates ∧
        after.model = builder.model) ∧
    ((¬ startState < builder.transitions.length ∨ ¬ goalState < builder.transitions.length ∨
        BitVector.size modelStates ≠ builder.model.getTransitionMatrix.getRowGroupCount ∨
        (∃ choices, modelChoices = some choices ∧
          BitVector.size choices ≠ builder.model.getTransitionMatrix.getRowGroupCount)) →
      ∃ message : String,
        builder.setTransition startState goalState modelStates modelChoices
          = (.error (.InvalidOperationException message), builder)) := by
  constructor
  · rintro ⟨hstart, hgoal, hstates, hchoices⟩
    have hall : modelChoices.all (fun choices =>
        decide (BitVector.size choices = builder.model.getTransitionMatrix.getRowGroupCount))
          = true := by
      cases modelChoices with
      | none => rfl
      | some choices => simpa using hchoices choices rfl
    have hrow : goalState < (builder.transitions.getD startState []).length := by
      have hmem : builder.transitions.getD startState [] ∈ builder.transitions := by
        rw [List.getD_eq_getElem?_getD, List.getElem?_eq_getElem hstart]
        exact List.getElem_mem hstart
      rw [hsquare _ hmem]
      exact hgoal
    have hvector := setTransition_vector_get builder.model.getTransitionMatrix modelStates
      modelChoices
    simp only [MemoryStructureBuilder.setTransition, hstart, hgoal, hstates, hall,
      not_true_eq_false, if_false]
    generalize (match modelChoices with
      | some choices =>
        (BitVector.setBits choices).foldl
          (markRow builder.model.getTransitionMatrix modelStates)
          (List.replicate builder.model.getTransitionMatrix.getEntryCount false)
      | none =>
        (List.range builder.model.getTransitionMatrix.getRowCount).foldl
          (markRow builder.model.getTransitionMatrix modelStates)
          (List.replicate builder.model.getTransitionMatrix.getEntryCount false)) = vector
      at hvector ⊢
    by_cases hempty : BitVector.empty vector = true
    · rw [if_pos hempty]
      refine ⟨_, rfl, ?_, ?_, ?_, rfl, rfl, rfl⟩
      · rw [transitionAt_assignTransition_same builder startState goalState none hstart hrow]
        simp only [true_iff]
        rintro ⟨k, hk⟩
        have := (BitVector.empty_eq_true_iff vector).mp hempty k
        rw [((hvector k).2).mpr hk] at this
        cases this
      · intro v hv
        rw [transitionAt_assignTransition_same builder startState goalState none hstart hrow] at hv
        cases hv
      · intro s g hother
        exact transitionAt_assignTransition_other builder startState goalState none s g hother
    · rw [if_neg hempty]
      refine ⟨_, rfl, ?_, ?_, ?_, rfl, rfl, rfl⟩
      · rw [transitionAt_assignTransition_same builder startState goalState (some vector) hstart
          hrow]
        simp only [false_iff, not_not, reduceCtorEq]
        have hsome : ∃ k, BitVector.get vector k = true := by
          by_contra hcon
          apply hempty
          rw [BitVector.empty_eq_true_iff]
          intro k
          cases hk : BitVector.get vector k with
          | false => rfl
          | true => exact absurd ⟨k, hk⟩ hcon
        obtain ⟨k, hk⟩ := hsome
        exact ⟨k, ((hvector k).2).mp hk⟩
      · intro v hv
        rw [transitionAt_assignTransition_same builder startState goalState (some vector) hstart
          hrow] at hv
        cases hv
        exact ⟨(hvector 0).1, fun k => (hvector k).2⟩
      · intro s g hother
        exact transitionAt_assignTransition_other builder startState goalState (some vector) s g
          hother
  · intro hinvalid
    by_cases hstart : startState < builder.transitions.length
    · by_cases hgoal : goalState < builder.transitions.length
      · by_cases hstates : BitVector.size modelStates
            = builder.model.getTransitionMatrix.getRowGroupCount
        · have hall : ¬ modelChoices.all (fun choices =>
              decide (BitVector.size choices
                = builder.model.getTransitionMatrix.getRowGroupCount)) = true := by
            rcases hinvalid with h | h | h | ⟨choices, hsome, hsize⟩
            · exact absurd hstart h
            · exact absurd hgoal h
            · exact absurd hstates h
            · subst hsome
              simpa using hsize
          have hall2 : modelChoices.all (fun choices =>
              decide (BitVector.size choices
                = builder.model.getTransitionMatrix.getRowGroupCount)) = false := by
            simpa using hall
          exact ⟨"The modelChoices have invalid size.", by
            simp only [MemoryStructureBuilder.setTransition, hstart, hgoal, hstates, hall2,
              not_true_eq_false, not_false_eq_true, if_false, if_true, Bool.false_eq_true]⟩
        · exact ⟨"The modelStates have invalid size.", by
            simp only [MemoryStructureBuilder.setTransition, hstart, hgoal, hstates,
              not_true_eq_false, not_false_eq_true, if_false, if_true]⟩
      · exact ⟨"Invalid index of goal state: " ++ toString startState
          ++ ". There are only " ++ toString builder.transitions.length
          ++ " states in this memory structure.", by
          simp only [MemoryStructureBuilder.setTransition, hstart, hgoal,
            not_true_eq_false, not_false_eq_true, if_false, if_true]⟩
    · exact ⟨"Invalid index of start state: " ++ toString startState
        ++ ". There are only " ++ toString builder.transitions.length
        ++ " states in this memory structure.", by
        simp only [MemoryStructureBuilder.setTransition, hstart,
          not_false_eq_true, if_true]⟩

/-- Witness for C39: on the small builder the call for the entry (0, 1) with
the model state 1 and all rows marks the matrix entries 1 and 2, and the call
for the start state 2 is rejected. -/
theorem setTransition_sets_one_entry_or_fails_witness :
    (smallBuilder.setTransition 0 1 [false, true] none).2.transitionAt 0 1
        = some [false, true, true] ∧
      (∃ after : MemoryStructureBuilder Int Unit,
        smallBuilder.setTransition 0 1 [false, true] none = (.ok (), after) ∧
        (∀ s g, s ≠ 0 ∨ g ≠ 1 → after.transitionAt s g = smallBuilder.transitionAt s g) ∧
        after.stateLabeling = smallBuilder.stateLabeling ∧
        after.initialMemoryStates = smallBuilder.initialMemoryStates) ∧
      ∃ message : String,
        smallBuilder.setTransition 2 0 [false, true] none
          = (.error (.InvalidOperationException message), smallBuilder) :=
  ⟨by decide,
    (fun ⟨after, hrun, _, _, hother, hlabeling, hinitial, _⟩ =>
        ⟨after, hrun, hother, hlabeling, hinitial⟩ : _ → _)
      ((setTransition_sets_one_entry_or_fails smallBuilder 0 1 [false, true] none
        (by decide)).1 ⟨by decide, by decide, by decide, by simp⟩),
    (setTransition_sets_one_entry_or_fails smallBuilder 2 0 [false, true] none (by decide)).2
      (Or.inl (by decide))⟩

/-! ## NondeterministicBeliefTracker -/

theorem StdMap.count_eq_zero_iff {V : Type} (map : StdMap V) (key : Nat) :
    StdMap.count map key = 0 ↔ key ∉ map.map Prod.fst := by
  simp only [StdMap.count]
  by_cases h : map.any (fun entry => entry.1 == key) = true
  · simp only [h, if_true, one_ne_zero, false_iff, not_not]
    obtain ⟨e, he, hk⟩ := List.any_eq_true.mp h
    exact List.mem_map.mpr ⟨e, he, by simpa using hk⟩
  · simp only [h, Bool.false_eq_true, if_false, true_iff]
    intro hmem
    obtain ⟨e, he, hk⟩ := List.mem_map.mp hmem
    exact h (List.any_eq_true.mpr ⟨e, he, by simpa using hk⟩)

theorem StdMap.keys_assign {V : Type} (map : StdMap V) (key : Nat) (value : V) (k : Nat) :
    k ∈ (StdMap.assign map key value).map Prod.fst ↔ k = key ∨ k ∈ map.map Prod.fst := by
  induction map with
  | nil => simp [StdMap.assign]
  | cons entry rest ih =>
    simp only [StdMap.assign]
    split_ifs with h1 h2
    · simp
    · simp [h2]
    · simp only [List.map_cons, List.mem_cons, ih]
      tauto

theorem StdMap.keys_addTo {V : Type} [AddMonoid V] (map : StdMap V) (key : Nat) (value : V)
    (k : Nat) :
    k ∈ (StdMap.addTo map key value).map Prod.fst ↔ k = key ∨ k ∈ map.map Prod.fst := by
  induction map with
  | nil => simp [StdMap.addTo]
  | cons entry rest ih =>
    simp only [StdMap.addTo]
    split_ifs with h1 h2
    · simp
    · simp [h2]
    · simp only [List.map_cons, List.mem_cons, ih]
      tauto

theorem StdMap.sum_assign {V : Type} [LinearOrderedField V] (map : StdMap V) (key : Nat)
    (value : V) (habsent : key ∉ map.map Prod.fst) :
    ((StdMap.assign map key value).map Prod.snd).sum = (map.map Prod.snd).sum + value := by
  induction map with
  | nil => simp [StdMap.assign]
  | cons entry rest ih =>
    simp only [List.map_cons, List.mem_cons, not_or] at habsent
    simp only [StdMap.assign]
    split_ifs with h1 h2
    · simp only [List.map_cons, List.sum_cons]; ring
    · exact absurd h2 habsent.1
    · simp only [List.map_cons, List.sum_cons, ih habsent.2]; ring

theorem StdMap.sum_addTo {V : Type} [LinearOrderedField V] (map : StdMap V) (key : Nat)
    (value : V) :
    ((StdMap.addTo map key value).map Prod.snd).sum = (map.map Prod.snd).sum + value := by
  induction map with
  | nil => simp [StdMap.addTo]
  | cons entry rest ih =>
    simp only [StdMap.addTo]
    split_ifs with h1 h2
    · simp only [List.map_cons, List.sum_cons]; ring
    · simp only [List.map_cons, List.sum_cons]; ring
    · simp only [List.map_cons, List.sum_cons, ih]; ring

theorem StdMap.pos_assign {V : Type} [LinearOrderedField V] (map : StdMap V) (key : Nat)
    (value : V) (hmap : ∀ e ∈ map, 0 < e.2) (hvalue : 0 < value) :
    ∀ e ∈ StdMap.assign map key value, 0 < e.2 := by
  induction map with
  | nil => simpa [StdMap.assign] using hvalue
  | cons entry rest ih =>
    have hrest : ∀ e ∈ rest, 0 < e.2 := fun e he => hmap e (List.mem_cons_of_mem _ he)
    simp only [StdMap.assign]
    split_ifs with h1 h2
    · intro e he
      rcases List.mem_cons.mp he with h | h
      · rw [h]; exact hvalue
      · exact hmap e h
    · intro e he
      rcases List.mem_cons.mp he with h | h
      · rw [h]; exact hvalue
      · exact hrest e h
    · intro e he
      rcases List.mem_cons.mp he with h | h
      · rw [h]; exact hmap entry (List.mem_cons_self _ _)
      · exact ih hrest e h

theorem StdMap.pos_addTo {V : Type} [LinearOrderedField V] (map : StdMap V) (key : Nat)
    (value : V) (hmap : ∀ e ∈ map, 0 < e.2) (hvalue : 0 < value) :
    ∀ e ∈ StdMap.addTo map key value, 0 < e.2 := by
  induction map with
  | nil => simpa [StdMap.addTo] using hvalue
  | cons entry rest ih =>
    have hrest : ∀ e ∈ rest, 0 < e.2 := fun e he => hmap e (List.mem_cons_of_mem _ he)
    have hentry := hmap entry (List.mem_cons_self _ _)
    simp only [StdMap.addTo]
    split_ifs with h1 h2
    · intro e he
      rcases List.mem_cons.mp he with h | h
      · rw [h]; simpa using hvalue
      · exact hmap e h
    · intro e he
      rcases List.mem_cons.mp he with h | h
      · rw [h]; exact add_pos hentry hvalue
      · exact hrest e h
    · intro e he
      rcases List.mem_cons.mp he with h | h
      · rw [h]; exact hentry
      · exact ih hrest e h

theorem StdMap.sorted_assign {V : Type} (map : StdMap V) (key : Nat) (value : V)
    (hsorted : map.Pairwise (fun a b => a.1 < b.1)) :
    (StdMap.assign map key value).Pairwise (fun a b => a.1 < b.1) := by
  induction map with
  | nil => simp [StdMap.assign]
  | cons entry rest ih =>
    obtain ⟨hhead, htail⟩ := List.pairwise_cons.mp hsorted
    simp only [StdMap.assign]
    split_ifs with h1 h2
    · refine List.pairwise_cons.mpr ⟨?_, hsorted⟩
      intro e he
      rcases List.mem_cons.mp he with h | h
      · rw [h]; exact h1
      · exact lt_trans h1 (hhead e h)
    · refine List.pairwise_cons.mpr ⟨?_, htail⟩
      intro e he
      simpa [h2] using hhead e he
    · refine List.pairwise_cons.mpr ⟨?_, ih htail⟩
      intro e he
      have hk : e.1 ∈ (StdMap.assign rest key value).map Prod.fst :=
        List.mem_map.mpr ⟨e, he, rfl⟩
      rcases (StdMap.keys_assign rest key value e.1).mp hk with h | h
      · rw [h]; omega
      · obtain ⟨e2, he2, hfst⟩ := List.mem_map.mp h
        rw [← hfst]
        exact hhead e2 he2

theorem StdMap.sorted_addTo {V : Type} [AddMonoid V] (map : StdMap V) (key : Nat) (value : V)
    (hsorted : map.Pairwise (fun a b => a.1 < b.1)) :
    (StdMap.addTo map key value).Pairwise (fun a b => a.1 < b.1) := by
  induction map with
  | nil => simp [StdMap.addTo]
  | cons entry rest ih =>
    obtain ⟨hhead, htail⟩ := List.pairwise_cons.mp hsorted
    simp only [StdMap.addTo]
    split_ifs with h1 h2
    · refine List.pairwise_cons.mpr ⟨?_, hsorted⟩
      intro e he
      rcases List.mem_cons.mp he with h | h
      · rw [h]; exact h1
      · exact lt_trans h1 (hhead e h)
    · refine List.pairwise_cons.mpr ⟨?_, htail⟩
      intro e he
      simpa [h2] using hhead e he
    · refine List.pairwise_cons.mpr ⟨?_, ih htail⟩
      intro e he
      have hk : e.1 ∈ (StdMap.addTo rest key value).map Prod.fst :=
        List.mem_map.mpr ⟨e, he, rfl⟩
      rcases (StdMap.keys_addTo rest key value e.1).mp hk with h | h
      · rw [h]; omega
      · obtain ⟨e2, he2, hfst⟩ := List.mem_map.mp h
        rw [← hfst]
        exact hhead e2 he2

theorem massInto_cons {V : Type} [LinearOrderedField V] (entry : Nat × V) (rest : List (Nat × V))
    (k : Nat) :
    massInto (entry :: rest) k = (if entry.1 = k then entry.2 else 0) + massInto rest k := by
  simp only [massInto, List.filter_cons]
  by_cases h : entry.1 = k
  · simp [h]
  · simp [h]

theorem massInto_append {V : Type} [LinearOrderedField V] (xs ys : List (Nat × V)) (k : Nat) :
    massInto (xs ++ ys) k = massInto xs k + massInto ys k := by
  simp [massInto, List.filter_append]

theorem massInto_nil {V : Type} [LinearOrderedField V] (k : Nat) :
    massInto ([] : List (Nat × V)) k = 0 := rfl

theorem StdMap.massInto_assign {V : Type} [LinearOrderedField V] (map : StdMap V) (key : Nat)
    (value : V) (habsent : key ∉ map.map Prod.fst) (k : Nat) :
    massInto (StdMap.assign map key value) k
      = massInto map k + (if key = k then value else 0) := by
  induction map with
  | nil => simp only [StdMap.assign, massInto_cons, massInto_nil]; ring
  | cons entry rest ih =>
    simp only [List.map_cons, List.mem_cons, not_or] at habsent
    by_cases h1 : key < entry.1
    · simp only [StdMap.assign, if_pos h1]
      rw [massInto_cons]; ring
    · simp only [StdMap.assign, if_neg h1, if_neg habsent.1]
      rw [massInto_cons, massInto_cons, ih habsent.2]; ring

theorem StdMap.massInto_addTo {V : Type} [LinearOrderedField V] (map : StdMap V) (key : Nat)
    (value : V) (k : Nat) :
    massInto (StdMap.addTo map key value) k
      = massInto map k + (if key = k then value else 0) := by
  induction map with
  | nil =>
    simp only [StdMap.addTo, massInto_cons, massInto_nil]
    by_cases h : key = k <;> simp [h]
  | cons entry rest ih =>
    by_cases h1 : key < entry.1
    · simp only [StdMap.addTo, if_pos h1]
      rw [massInto_cons]
      by_cases h : key = k
      · simp only [h, if_true]; ring
      · simp only [h, if_false]; ring
    · by_cases h2 : key = entry.1
      · simp only [StdMap.addTo, if_neg h1, if_pos h2]
        rw [massInto_cons, massInto_cons, ← h2]
        by_cases h : key = k
        · simp only [h, if_true]; ring
        · simp only [h, if_false]; ring
      · simp only [StdMap.addTo, if_neg h1, if_neg h2]
        rw [massInto_cons, massInto_cons, ih]; ring

/-- One step of the inner loop keeps the invariant. -/
theorem updateInvariant_step {V : Type} [LinearOrderedField V] (processed : List (Nat × V))
    (newBelief : StdMap V) (sum : V) (key : Nat) (value : V)
    (hinv : UpdateInvariant processed (newBelief, sum)) (hvalue : 0 < value) :
    UpdateInvariant (processed ++ [(key, value)])
      (if StdMap.count newBelief key = 0 then StdMap.assign newBelief key value
        else StdMap.addTo newBelief key value, sum + value) := by
  obtain ⟨hsorted, hkeys, hpos, hmass, hsum, htotal⟩ := hinv
  simp only at hsorted hkeys hpos hmass hsum htotal
  by_cases hcount : StdMap.count newBelief key = 0
  · have habsent := (StdMap.count_eq_zero_iff newBelief key).mp hcount
    simp only [hcount, if_true]
    refine ⟨StdMap.sorted_assign _ _ _ hsorted, ?_, StdMap.pos_assign _ _ _ hpos hvalue, ?_, ?_, ?_⟩
    · intro k
      simp only [StdMap.keys_assign, hkeys, List.map_append, List.mem_append, List.map_cons,
        List.map_nil, List.mem_singleton]
      tauto
    · intro k
      simp only [StdMap.massInto_assign _ _ _ habsent, hmass, massInto_append, massInto_cons,
        massInto_nil, add_zero]
    · simp only [StdMap.sum_assign _ _ _ habsent, hsum]
    · simp only [htotal, List.map_append, List.sum_append, List.map_cons, List.map_nil,
        List.sum_cons, List.sum_nil, add_zero]
  · simp only [hcount, if_false]
    refine ⟨StdMap.sorted_addTo _ _ _ hsorted, ?_, StdMap.pos_addTo _ _ _ hpos hvalue, ?_, ?_, ?_⟩
    · intro k
      simp only [StdMap.keys_addTo, hkeys, List.map_append, List.mem_append, List.map_cons,
        List.map_nil, List.mem_singleton]
      tauto
    · intro k
      simp only [StdMap.massInto_addTo, hmass, massInto_append, massInto_cons,
        massInto_nil, add_zero]
    · simp only [StdMap.sum_addTo, hsum]
    · simp only [htotal, List.map_append, List.sum_append, List.map_cons, List.map_nil,
        List.sum_cons, List.sum_nil, add_zero]

/-- The loop over one row keeps the invariant and adds the contributions of the
row. -/
theorem updateRowLoop_invariant {V : Type} [LinearOrderedField V] (pomdp : Pomdp V)
    (observation : Nat) (beliefValue : V) (hbelief : 0 < beliefValue)
    (row : List (Nat × Nat × V)) (hrow : ∀ transition ∈ row, 0 < transition.2.2)
    (processed : List (Nat × V)) (state : StdMap V × V)
    (hinv : UpdateInvariant processed state) :
    UpdateInvariant
      (processed ++ (row.filter
        (fun transition => decide (observation = pomdp.getObservation transition.2.1))).map
        (fun transition => (transition.2.1, transition.2.2 * beliefValue)))
      (updateRowLoop pomdp observation beliefValue row state) := by
  induction row generalizing processed state with
  | nil => simpa [updateRowLoop] using hinv
  | cons transition rest ih =>
    obtain ⟨newBelief, sum⟩ := state
    have hrest : ∀ t ∈ rest, 0 < t.2.2 := fun t ht => hrow t (List.mem_cons_of_mem _ ht)
    by_cases hobs : observation = pomdp.getObservation transition.2.1
    · have hstep := updateInvariant_step processed newBelief sum transition.2.1
        (transition.2.2 * beliefValue) hinv
        (mul_pos (hrow transition (List.mem_cons_self _ _)) hbelief)
      have := ih hrest _ _ hstep
      simp only [updateRowLoop, hobs, ne_eq, not_true_eq_false, if_false, List.filter_cons,
        decide_True, if_true, List.map_cons]
      simpa [← hobs] using this
    · have := ih hrest processed (newBelief, sum) hinv
      simp only [updateRowLoop, hobs, ne_eq, not_false_eq_true, if_true, List.filter_cons,
        decide_False, Bool.false_eq_true, if_false]
      exact this

/-- The loop over the belief returns, keeps the invariant and adds the
contributions of the rows of all entries. -/
theorem updateBeliefLoop_invariant {V : Type} [LinearOrderedField V] (pomdp : Pomdp V)
    (action observation : Nat) (belief : List (Nat × V))
    (hbelief : ∀ e ∈ belief, 0 < e.2)
    (haction : ∀ e ∈ belief, action < pomdp.getNumberOfChoices e.1)
    (hvalues : ∀ e ∈ belief, ∀ transition ∈ pomdp.getTransitionMatrix.getRow
      (pomdp.getNondeterministicChoiceIndices.getD e.1 0 + action), 0 < transition.2.2)
    (processed : List (Nat × V)) (state : StdMap V × V)
    (hinv : UpdateInvariant processed state) :
    ∃ final, updateBeliefLoop pomdp action observation belief state = .ok final ∧
      UpdateInvariant (processed ++ weightedSuccessors pomdp belief action observation)
        final := by
  induction belief generalizing processed state with
  | nil => exact ⟨state, rfl, by simpa [weightedSuccessors] using hinv⟩
  | cons beliefentry rest ih =>
    have hhead := haction beliefentry (List.mem_cons_self _ _)
    have hrow := updateRowLoop_invariant pomdp observation beliefentry.2
      (hbelief beliefentry (List.mem_cons_self _ _)) _
      (hvalues beliefentry (List.mem_cons_self _ _)) processed state hinv
    obtain ⟨final, hrun, hfinal⟩ := ih
      (fun e he => hbelief e (List.mem_cons_of_mem _ he))
      (fun e he => haction e (List.mem_cons_of_mem _ he))
      (fun e he => hvalues e (List.mem_cons_of_mem _ he)) _ _ hrow
    refine ⟨final, ?_, ?_⟩
    · simp only [updateBeliefLoop, gt_iff_lt, hhead, not_true_eq_false, if_false]
      exact hrun
    · simpa [weightedSuccessors, List.append_assoc] using hfinal

/-- In a map ordered by key, an entry is the whole mass of its key. -/
theorem massInto_of_mem_sorted {V : Type} [LinearOrderedField V] (map : StdMap V)
    (hsorted : map.Pairwise (fun a b => a.1 < b.1)) (entry : Nat × V) (hmem : entry ∈ map) :
    massInto map entry.1 = entry.2 := by
  have hzero : ∀ (l : List (Nat × V)) (k : Nat), (∀ e ∈ l, k < e.1) → massInto l k = 0 := by
    intro l k hl
    induction l with
    | nil => rfl
    | cons e l ihl =>
      have hne : ¬ e.1 = k := by
        have := hl e (List.mem_cons_self _ _)
        omega
      rw [massInto_cons, if_neg hne, ihl (fun e2 he2 => hl e2 (List.mem_cons_of_mem _ he2))]
      ring
  induction map with
  | nil => cases hmem
  | cons first rest ih =>
    obtain ⟨hhead, htail⟩ := List.pairwise_cons.mp hsorted
    rcases List.mem_cons.mp hmem with h | h
    · subst h
      rw [massInto_cons, if_pos rfl, hzero rest entry.1 hhead]
      ring
    · have hne : ¬ first.1 = entry.1 := by
        have := hhead entry h
        omega
      rw [massInto_cons, if_neg hne, ih htail h]
      ring

/-- The loop that divides by the sum returns when the sum is not zero and every
key has a risk. -/
theorem normalizeLoop_returns {V : Type} [LinearOrderedField V]
    (hashCombine : Nat → Nat → Nat) (manager : BeliefStateManager V) (sum : V)
    (hsum : sum ≠ 0) (entries : List (Nat × V))
    (hrisk : ∀ e ∈ entries, e.1 < manager.riskPerState.length)
    (state : StdMap V × Nat × V) :
    ∃ newHash risk, normalizeLoop hashCombine manager sum entries state
      = .ok (state.1 ++ entries.map (fun e => (e.1, e.2 / sum)), newHash, risk) := by
  induction entries generalizing state with
  | nil => exact ⟨state.2.1, state.2.2, by simp [normalizeLoop]⟩
  | cons entry rest ih =>
    obtain ⟨done, newHash, risk⟩ := state
    have hentry := hrisk entry (List.mem_cons_self _ _)
    obtain ⟨h2, r2, hrun⟩ := ih (fun e he => hrisk e (List.mem_cons_of_mem _ he))
      (done ++ [(entry.1, entry.2 / sum)], hashCombine newHash entry.1,
        risk + entry.2 / sum * manager.riskPerState[entry.1])
    refine ⟨h2, r2, ?_⟩
    simp only [normalizeLoop, hsum, if_false, BeliefStateManager.getRisk,
      List.getElem?_eq_getElem hentry]
    rw [hrun]
    simp

/-- C40: over an ordered field (exact rational arithmetic), for a belief with
positive entries whose states all offer the action, positive stored transition
values in the rows used, and a risk for every successor, update(action,
observation) returns a belief state whose belief is a map (keys increasing)
with exactly the successors, under the action from states of the old belief,
that carry the observation as keys; every entry is positive and is the
old-belief-weighted transition mass into its state divided by the total mass;
and the entries sum to one whenever there is one. -/
theorem update_returns_normalized_belief {V : Type} [LinearOrderedField V]
    (hashCombine : Nat → Nat → Nat) (manager : BeliefStateManager V)
    (self : SparseBeliefState V) (action observation : Nat)
    (hbelief : ∀ e ∈ self.belief, 0 < e.2)
    (haction : ∀ e ∈ self.belief, action < manager.pomdp.getNumberOfChoices e.1)
    (hvalues : ∀ e ∈ self.belief, ∀ transition ∈ manager.pomdp.getTransitionMatrix.getRow
      (manager.pomdp.getNondeterministicChoiceIndices.getD e.1 0 + action), 0 < transition.2.2)
    (hrisk : ∀ c ∈ weightedSuccessors manager.pomdp self.belief action observation,
      c.1 < manager.riskPerState.length) :
    ∃ (result : SparseBeliefState V) (after : BeliefStateManager V),
      SparseBeliefState.update hashCombine manager self action observation
        = .ok (result, after) ∧
      (∀ state, state ∈ result.belief.map Prod.fst ↔
        ∃ e ∈ self.belief, ∃ transition ∈ manager.pomdp.getTransitionMatrix.getRow
          (manager.pomdp.getNondeterministicChoiceIndices.getD e.1 0 + action),
          transition.2.1 = state ∧ manager.pomdp.getObservation state = observation) ∧
      result.belief.Pairwise (fun a b => a.1 < b.1) ∧
      (∀ e ∈ result.belief, 0 < e.2 ∧
        e.2 = massInto (weightedSuccessors manager.pomdp self.belief action observation) e.1
          / ((weightedSuccessors manager.pomdp self.belief action observation).map
              Prod.snd).sum) ∧
      (result.belief ≠ [] → (result.belief.map Prod.snd).sum = 1) := by
  have hstart : UpdateInvariant ([] : List (Nat × V)) (([] : StdMap V), (0 : V)) := by
    refine ⟨List.Pairwise.nil, fun k => Iff.rfl, fun e he => (by cases he), fun k => rfl, ?_, ?_⟩
    · simp
    · simp
  obtain ⟨⟨newBelief, sum⟩, hrun, hsorted, hkeys, hpos, hmass, hsum, htotal⟩ :=
    updateBeliefLoop_invariant manager.pomdp action observation self.belief hbelief haction
      hvalues [] ([], 0) hstart
  simp only [List.nil_append] at hkeys hmass htotal
  simp only at hsorted hkeys hpos hmass hsum htotal
  have hkeysW : ∀ state,
      state ∈ (weightedSuccessors manager.pomdp self.belief action observation).map Prod.fst ↔
        ∃ e ∈ self.belief, ∃ transition ∈ manager.pomdp.getTransitionMatrix.getRow
          (manager.pomdp.getNondeterministicChoiceIndices.getD e.1 0 + action),
          transition.2.1 = state ∧ manager.pomdp.getObservation state = observation := by
    intro state
    simp only [weightedSuccessors, List.mem_map, List.mem_flatMap, List.mem_filter,
      decide_eq_true_eq]
    constructor
    · rintro ⟨c, ⟨e, he, t, ⟨ht, hobs⟩, rfl⟩, rfl⟩
      exact ⟨e, he, t, ht, rfl, hobs.symm⟩
    · rintro ⟨e, he, t, ht, rfl, hobs⟩
      exact ⟨(t.2.1, t.2.2 * e.2), ⟨e, he, t, ⟨ht, hobs.symm⟩, rfl⟩, rfl⟩
  by_cases hempty : newBelief = []
  · subst hempty
    refine ⟨_, _, by simp only [SparseBeliefState.update, hrun, normalizeLoop]; rfl, ?_, ?_, ?_, ?_⟩
    · intro state
      rw [← hkeysW state, ← hkeys state]
    · exact List.Pairwise.nil
    · intro e he
      cases he
    · intro hne
      exact absurd rfl hne
  · have hsumpos : 0 < sum := by
      rw [← hsum]
      cases newBelief with
      | nil => exact absurd rfl hempty
      | cons first rest =>
        simp only [List.map_cons, List.sum_cons]
        have h1 := hpos first (List.mem_cons_self _ _)
        have h2 : 0 ≤ (rest.map Prod.snd).sum := by
          apply List.sum_nonneg
          intro x hx
          obtain ⟨e, he, rfl⟩ := List.mem_map.mp hx
          exact le_of_lt (hpos e (List.mem_cons_of_mem _ he))
        linarith
    have hne : sum ≠ 0 := ne_of_gt hsumpos
    have hriskKeys : ∀ e ∈ newBelief, e.1 < manager.riskPerState.length := by
      intro e he
      have hk : e.1 ∈ newBelief.map Prod.fst := List.mem_map.mpr ⟨e, he, rfl⟩
      obtain ⟨c, hc, hfst⟩ := List.mem_map.mp ((hkeys e.1).mp hk)
      rw [← hfst]
      exact hrisk c hc
    obtain ⟨newHash, risk, hnormalize⟩ := normalizeLoop_returns hashCombine manager sum hne
      newBelief hriskKeys ([], 0, 0)
    simp only [List.nil_append] at hnormalize
    refine ⟨_, _, by simp only [SparseBeliefState.update, hrun, hnormalize]; rfl, ?_, ?_, ?_, ?_⟩
    · intro state
      rw [← hkeysW state, ← hkeys state]
      simp only [List.map_map]
      rfl
    · simp only
      rw [List.pairwise_map]
      exact hsorted
    · intro e he
      simp only at he
      obtain ⟨original, horiginal, rfl⟩ := List.mem_map.mp he
      refine ⟨div_pos (hpos original horiginal) hsumpos, ?_⟩
      simp only
      rw [← hmass original.1, massInto_of_mem_sorted newBelief hsorted original horiginal,
        ← htotal]
    · intro _
      simp only [List.map_map]
      have hdiv : (newBelief.map (Prod.snd ∘ fun e : Nat × V => (e.1, e.2 / sum))).sum
          = (newBelief.map Prod.snd).sum / sum := by
        have : (Prod.snd ∘ fun e : Nat × V => (e.1, e.2 / sum))
            = fun e : Nat × V => e.2 * sum⁻¹ := by
          funext e
          simp [div_eq_mul_inv]
        rw [this, List.sum_map_mul_right, div_eq_mul_inv]
      rw [hdiv, hsum]
      exact div_self hne

/-- Witness for C40: on the small POMDP the belief that is certain of state 0
is updated with action 0 and observation 1. -/
theorem update_returns_normalized_belief_witness :
    ∃ (result : SparseBeliefState ℚ) (after : BeliefStateManager ℚ),
      SparseBeliefState.update (fun h k => h + k) smallManager initialBelief 0 1
        = .ok (result, after) ∧
      (∀ state, state ∈ result.belief.map Prod.fst ↔
        ∃ e ∈ initialBelief.belief,
          ∃ transition ∈ smallManager.pomdp.getTransitionMatrix.getRow
            (smallManager.pomdp.getNondeterministicChoiceIndices.getD e.1 0 + 0),
          transition.2.1 = state ∧ smallManager.pomdp.getObservation state = 1) ∧
      result.belief.Pairwise (fun a b => a.1 < b.1) ∧
      (∀ e ∈ result.belief, 0 < e.2 ∧
        e.2 = massInto (weightedSuccessors smallManager.pomdp initialBelief.belief 0 1) e.1
          / ((weightedSuccessors smallManager.pomdp initialBelief.belief 0 1).map
              Prod.snd).sum) ∧
      (result.belief ≠ [] → (result.belief.map Prod.snd).sum = 1) :=
  update_returns_normalized_belief (fun h k => h + k) smallManager initialBelief 0 1
    (by simp [initialBelief])
    (by simp [initialBelief, smallManager, smallPomdp, Pomdp.getNumberOfChoices,
      Pomdp.getNondeterministicChoiceIndices])
    (by
      intro e he transition ht
      simp only [initialBelief, List.mem_singleton] at he
      subst he
      simp only [smallManager, smallPomdp, Pomdp.getNondeterministicChoiceIndices,
        SparseMatrix.getRow, List.getD_cons_zero, List.getD_cons_succ, List.drop_zero,
        Nat.sub_zero, List.take_succ_cons, List.take_zero, List.enumFrom_cons,
        List.enumFrom_nil, List.mem_cons, List.mem_singleton, List.not_mem_nil, or_false,
        zero_add, Nat.reduceAdd] at ht
      rcases ht with h | h <;> rw [h] <;> simp)
    (by
      intro c hc
      simp only [weightedSuccessors, initialBelief, smallManager, smallPomdp,
        Pomdp.getNondeterministicChoiceIndices, Pomdp.getObservation, SparseMatrix.getRow,
        List.flatMap_cons, List.flatMap_nil, List.append_nil, List.getD_cons_zero,
        List.getD_cons_succ, List.drop_zero, Nat.sub_zero, List.take_succ_cons, List.take_zero,
        List.enumFrom_cons, List.enumFrom_nil, zero_add, Nat.reduceAdd] at hc
      simp only [smallManager, List.length_cons, List.length_nil]
      simp at hc
      rcases hc with h | h <;> rw [h] <;> simp)

end Storm
